import Mathlib

/-!
# Regression forests: the best-first tree grower (`blackbox_2_tree.cpp`)

A shallow embedding of `src/src/rosban_regression_forests/algorithms/blackbox_2_tree.cpp`.

Conventions of the embedding.

* A C++ `double` is an exact rational (`ℚ`), and the functions of the file compute on it
  exactly.  Where a property depends on the rounding of binary64 arithmetic, the function is
  given a second time with every operation rounded to nearest (`binary64`, `sizeBinary64`,
  `evalSplitScoreBinary64`); infinities, subnormal numbers and overflow stay outside the
  model.  The one place where the source can divide by zero on a path that goes on
  (`potentialGain` over an empty subset, `0.0 / 0`) is modelled explicitly as not-a-number.
* `int` and `size_t` quantities are `Int` and `Nat`.  The `int` variables of `populate`
  (`minSize`, `minSamplesByDensity`, `wishedSamples`) are 32-bit: a value that does not fit
  is reduced modulo `2 ^ 32` (`int32`), and the conversion of a `double` outside the range
  of `int`, which C++ leaves undefined, yields the value that the platform fixes
  (`Env.outOfRangeInt`).  The other counters and indices are exact.
* A C++ exception is a value of `Exn`; a function that can throw returns `Except Exn _`,
  and a function that mutates arguments before it throws returns the mutated state
  together with the `Except` outcome.
* An access `samples[...]` or `dimCandidates[...]` that `getBestSplitEntry` performs out of
  bounds (undefined behaviour in C++) is the outcome `Exn.undefined_behaviour`; it is never
  caught.
* The main loop of `bb2Tree` carries a bound on its iterations; `bb2Tree_total` shows that
  the bound is never reached.
* Heap nodes live in an arena (`List RegressionNode`); a `RegressionNode *` is the index
  of the node in the arena, `new RegressionNode()` appends a node.
* The collaborators that are not part of the file (oracle, samplers, linear fit) are the
  fields of `Env`, each random draw being numbered by a counter carried in the state.
-/

namespace regression_forests

/-! ## Exceptions -/

/-- The exceptions thrown in `blackbox_2_tree.cpp`, by C++ class, with their `what()`. -/
inductive Exn where
  | runtime_error (what : String)
  | logic_error (what : String)
  | undefined_behaviour
  deriving DecidableEq, Repr

/-! ## Data model -/

/-- Modelled from the spec: the class `Sample` of `core/sample.h`, an input vector of reals
and an output. -/
structure Sample where
  input : List ℚ
  output : ℚ
  deriving DecidableEq, Repr

/-- Modelled from the spec: `Sample::getInput(dim)`, one coordinate of the input. -/
def Sample.getInput (s : Sample) (dim : Nat) : ℚ := s.input.getD dim 0

/-- Modelled from the spec: `Sample::getOutput()`. -/
def Sample.getOutput (s : Sample) : ℚ := s.output

/-- Modelled from the spec: the class `TrainingSet` of `core/training_set.h`, the input
dimension given to its constructor and the append-only sequence of its samples. -/
structure TrainingSet where
  inputDim : Nat
  data : List Sample
  deriving DecidableEq, Repr

/-- The type `TrainingSet::Subset`, a `std::vector<int>` of sample indices. -/
abbrev Subset := List Nat

/-- Modelled from the spec: the class `OrthogonalSplit`, a dimension index `dim` and a
threshold `val`, the two fields read in `blackbox_2_tree.cpp`. -/
structure OrthogonalSplit where
  dim : Nat
  val : ℚ
  deriving DecidableEq, Repr

/-- Modelled from the spec: the enumeration `ApproximationType` of
`approximations/approximation_type.h`, with the two values `PWC` (constant) and `PWL`
(linear) of the `switch` statements. -/
inductive ApproximationType where
  | PWC
  | PWL
  deriving DecidableEq, Repr

/-- An `Eigen::MatrixXd`: its shape and its coefficients. -/
structure MatrixXd where
  rows : Nat
  cols : Nat
  coeff : Nat → Nat → ℚ

/-- The assignment `m(r, c) = v`. -/
def MatrixXd.set (m : MatrixXd) (r c : Nat) (v : ℚ) : MatrixXd :=
  { m with coeff := fun i j => if i = r ∧ j = c then v else m.coeff i j }

/-- The collaborators of the grower that live outside `blackbox_2_tree.cpp`.
`eval` is the oracle `BB2TreeConfig::eval`; `getUniformSamples n space count` is the `n`-th
call of `regression_forests::getUniformSamples(space, count)`; `getKDistinctFromN n k m` is
the `n`-th call of `getKDistinctFromN(k, m, &generator)`, which may throw; `unitDraw n` is the `n`-th draw in
`[0, 1)` behind a `std::uniform_real_distribution`; `pwlFit inputs outputs` is the
evaluation function of `PWLApproximation(inputs, outputs)`; `outOfRangeInt x` is what the
platform makes of the conversion to `int` of the integral `double` `x` that lies outside the
range of `int` (undefined in C++; `INT_MIN` on x86-64). -/
structure Env where
  eval : List ℚ → ℚ
  getUniformSamples : Nat → MatrixXd → Nat → List (List ℚ)
  getKDistinctFromN : Nat → Int → Nat → Except Exn (List Nat)
  unitDraw : Nat → ℚ
  pwlFit : List (List ℚ) → List ℚ → List ℚ → ℚ
  outOfRangeInt : Int → Int

/-! ## 32-bit integers -/

/-- The `int` (32 bits, two's complement) that holds the integer `x` modulo `2 ^ 32`: the
result of an `int` operation whose exact result is `x`, and of the conversion to `int` of an
integer of another width. -/
def int32 (x : Int) : Int := (x + 2 ^ 31) % 2 ^ 32 - 2 ^ 31

/-- The conversion to `int` of a `double` with the integral value `x`: exact when `x` is
representable, the platform's choice otherwise. -/
def doubleToInt (env : Env) (x : Int) : Int :=
  if -(2 ^ 31) ≤ x ∧ x < 2 ^ 31 then x else int32 (env.outOfRangeInt x)

/-! ## Training-set primitives (declared in `core/training_set.h`) -/

/-- Modelled from the spec: `TrainingSet::size()`, the count of samples. -/
def TrainingSet.size (ts : TrainingSet) : Nat := ts.data.length

/-- Modelled from the spec: `TrainingSet::getInputDim()`, the dimensionality. -/
def TrainingSet.getInputDim (ts : TrainingSet) : Nat := ts.inputDim

/-- Modelled from the spec: `TrainingSet::operator()(i)`, fetch a sample by index.  An index
outside the set (undefined in C++) reads an all-zero sample. -/
def TrainingSet.get (ts : TrainingSet) (i : Nat) : Sample := ts.data.getD i ⟨[], 0⟩

/-- Modelled from the spec: `TrainingSet::push(sample)`, append one sample. -/
def TrainingSet.push (ts : TrainingSet) (s : Sample) : TrainingSet :=
  { ts with data := ts.data ++ [s] }

/-- Modelled from the spec: `TrainingSet::values(subset)`, the outputs of a subset. -/
def TrainingSet.values (ts : TrainingSet) (samples : Subset) : List ℚ :=
  samples.map (fun i => (ts.get i).getOutput)

/-- Modelled from the spec: `TrainingSet::inputs(subset)`, the inputs of a subset. -/
def TrainingSet.inputs (ts : TrainingSet) (samples : Subset) : List (List ℚ) :=
  samples.map (fun i => (ts.get i).input)

/-- Modelled from the spec: `TrainingSet::applySplit(split, samples, lower, upper)`, split a
subset into its "below threshold" and "at-or-above threshold" partitions. -/
def TrainingSet.applySplit (ts : TrainingSet) (split : OrthogonalSplit) (samples : Subset) :
    Subset × Subset :=
  (samples.filter (fun i => decide ((ts.get i).getInput split.dim < split.val)),
   samples.filter (fun i => decide (split.val ≤ (ts.get i).getInput split.dim)))

/-- Modelled from the spec: `TrainingSet::sortSubset(samples, dim)`, sort a subset by one
input dimension (ascending). -/
def TrainingSet.sortSubset (ts : TrainingSet) (samples : Subset) (dim : Nat) : Subset :=
  samples.insertionSort (fun i j => (ts.get i).getInput dim ≤ (ts.get j).getInput dim)

/-! ## Statistics (declared in `tools/statistics.h`) -/

/-- Modelled from the spec: `Statistics::mean(values)`. -/
def Statistics.mean (values : List ℚ) : ℚ := values.sum / values.length

/-- Modelled from the spec: `Statistics::variance(values)`, the mean squared deviation from
the mean. -/
def Statistics.variance (values : List ℚ) : ℚ :=
  (values.map (fun v => (v - Statistics.mean values) ^ 2)).sum / values.length

/-! ## Split scoring -/

/-- The loop of `avgSquaredErrors` in the `PWL` case: the sum of squared errors of the fitted
linear model over `(inputs[i], outputs[i])`. -/
def sumSquaredError (a : List ℚ → ℚ) : List (List ℚ) → List ℚ → ℚ
  | i :: inputs, o :: outputs => (a i - o) * (a i - o) + sumSquaredError a inputs outputs
  | _, _ => 0

/-- The function `avgSquaredErrors(ls, samples, apprType)`. -/
def avgSquaredErrors (env : Env) (ls : TrainingSet) (samples : Subset)
    (apprType : ApproximationType) : ℚ :=
  match apprType with
  | .PWC => Statistics.variance (ls.values samples)
  | .PWL =>
    let inputs := ls.inputs samples
    let outputs := ls.values samples
    sumSquaredError (env.pwlFit inputs outputs) inputs outputs / inputs.length

/-- The function `evalSplitScore(ls, samples, split, apprType)`. -/
def evalSplitScore (env : Env) (ls : TrainingSet) (samples : Subset) (split : OrthogonalSplit)
    (apprType : ApproximationType) : Except Exn ℚ :=
  let samplesLower := (ls.applySplit split samples).1
  let samplesUpper := (ls.applySplit split samples).2
  let nbSamples : ℚ := samples.length
  if samplesLower.length = 0 ∨ samplesUpper.length = 0 then
    .error (.logic_error "Empty sample set provided to evalSplitScore")
  else
    let varAll := avgSquaredErrors env ls samples apprType
    let varLower := avgSquaredErrors env ls samplesLower apprType
    let varUpper := avgSquaredErrors env ls samplesUpper apprType
    let weightedNewVar := (varLower * samplesLower.length + varUpper * samplesUpper.length) / nbSamples
    if varAll = 0 then .ok 0 else .ok ((varAll - weightedNewVar) / varAll)

/-! ## Space -/

/-- The loop of `size`: multiply the extents of the rows, throwing at the first negative
one. -/
def sizeLoop (space : MatrixXd) : List Nat → ℚ → Except Exn ℚ
  | [], prod => .ok prod
  | row :: rows, prod =>
    let dimSize := space.coeff row 1 - space.coeff row 0
    if dimSize < 0 then .error (.runtime_error "Space has a max inferior to min")
    else sizeLoop space rows (prod * dimSize)

/-- The function `size(space)`. -/
def size (space : MatrixXd) : Except Exn ℚ :=
  if space.cols ≠ 2 then .error (.runtime_error "Expecting 2 columns for a space2")
  else sizeLoop space (List.range space.rows) 1

/-! ## Binary64 arithmetic

The functions whose result depends on rounding are given a second time, each operation on
`double` being followed by the rounding to nearest, ties to even, of IEEE 754 binary64 (53
significant bits; the exponent is not bounded). -/

/-- The power `2 ^ k` for an integer exponent. -/
def pow2 (k : Int) : ℚ :=
  if 0 ≤ k then ((2 ^ k.toNat : ℕ) : ℚ) else 1 / ((2 ^ (-k).toNat : ℕ) : ℚ)

/-- The integer nearest to `q`, and the even one when two integers are as near. -/
def roundHalfEven (q : ℚ) : Int :=
  if q - ⌊q⌋ < 1 / 2 then ⌊q⌋
  else if 1 / 2 < q - ⌊q⌋ then ⌊q⌋ + 1
  else if ⌊q⌋ % 2 = 0 then ⌊q⌋ else ⌊q⌋ + 1

/-- The number of halvings that bring `n` below `2`, in at most `fuel` steps. -/
def log2Loop : Nat → Nat → Nat
  | 0, _ => 0
  | fuel + 1, n => if 2 ≤ n then log2Loop fuel (n / 2) + 1 else 0

/-- The integer part of the binary logarithm of `n ≥ 1`. -/
def floorLog2 (n : Nat) : Nat := log2Loop n n

/-- The binary exponent `e` of a non-zero `x`: `2 ^ e ≤ |x| < 2 ^ (e + 1)`. -/
def binade (x : ℚ) : Int :=
  if pow2 ((floorLog2 x.num.natAbs : Int) - (floorLog2 x.den : Int)) ≤ |x| then
    (floorLog2 x.num.natAbs : Int) - (floorLog2 x.den : Int)
  else (floorLog2 x.num.natAbs : Int) - (floorLog2 x.den : Int) - 1

/-- The `double` nearest to `x`: `x` rounded to 53 significant bits, ties to even. -/
def binary64 (x : ℚ) : ℚ :=
  if x = 0 then 0
  else (roundHalfEven (x / pow2 (binade x - 52)) : ℚ) * pow2 (binade x - 52)

/-- The loop of `size` in binary64. -/
def sizeLoopBinary64 (space : MatrixXd) : List Nat → ℚ → Except Exn ℚ
  | [], prod => .ok prod
  | row :: rows, prod =>
    let dimSize := binary64 (space.coeff row 1 - space.coeff row 0)
    if dimSize < 0 then .error (.runtime_error "Space has a max inferior to min")
    else sizeLoopBinary64 space rows (binary64 (prod * dimSize))

/-- The function `size(space)` in binary64. -/
def sizeBinary64 (space : MatrixXd) : Except Exn ℚ :=
  if space.cols ≠ 2 then .error (.runtime_error "Expecting 2 columns for a space2")
  else sizeLoopBinary64 space (List.range space.rows) 1

/-! ## Active sampling -/

/-- What `populate` mutates: the training set and the subset, together with the log of the
inputs on which the oracle was called. -/
structure Populated where
  ts : TrainingSet
  samples : Subset
  evalLog : List (List ℚ)
  deriving DecidableEq, Repr

/-- The loop of `populate`: for each input, push the index `ts.size()` on the subset and the
sample `(i, eval(i))` on the training set. -/
def populateLoop (eval : List ℚ → ℚ) : List (List ℚ) → Populated → Populated
  | [], st => st
  | i :: inputs, st =>
    populateLoop eval inputs
      { samples := st.samples ++ [st.ts.size]
        ts := st.ts.push ⟨i, eval i⟩
        evalLog := st.evalLog ++ [i] }

/-- The function `populate(ts, samples, space, minSize, minDensity, eval)`; `draw` numbers the
call of the uniform sampler.  The parameter `minSize` is an `int`: the argument, which
`treat` computes as the `int` product `2 * c.nMin`, is taken modulo `2 ^ 32`.  The difference
`std::max(minSize, minSamplesByDensity) - samples.size()` is computed in `size_t` and
converted to the `int` `wishedSamples`. -/
def populate (env : Env) (draw : Nat) (st : Populated) (space : MatrixXd) (minSize : Int)
    (minDensity : ℚ) : Except Exn Populated :=
  match size space with
  | .error e => .error e
  | .ok sz =>
    let minSamplesByDensity : Int := doubleToInt env ⌈minDensity * sz⌉
    let wishedSamples : Int :=
      int32 (max (int32 minSize) minSamplesByDensity - (st.samples.length : Int))
    if wishedSamples ≤ 0 then .ok st
    else .ok (populateLoop env.eval (env.getUniformSamples draw space wishedSamples.toNat) st)

/-! ## Approximations -/

/-- Modelled from the spec: the two approximation classes, as built by their constructors
`PWCApproximation(value)` and `PWLApproximation(inputs, outputs)`. -/
inductive Approximation where
  | PWC (value : ℚ)
  | PWL (inputs : List (List ℚ)) (outputs : List ℚ)
  deriving DecidableEq, Repr

/-- Modelled from the spec: `Approximation::eval(input)`; the constant approximation returns
its scalar whatever the input, the linear one evaluates the fitted model. -/
def Approximation.eval (env : Env) : Approximation → List ℚ → ℚ
  | .PWC value, _ => value
  | .PWL inputs outputs, x => env.pwlFit inputs outputs x

/-- The function `getApproximation(ts, samples, apprType)`. -/
def getApproximation (ts : TrainingSet) (samples : Subset) (apprType : ApproximationType) :
    Approximation :=
  match apprType with
  | .PWC => .PWC (Statistics.mean (ts.values samples))
  | .PWL => .PWL (ts.inputs samples) (ts.values samples)

/-- The function `potentialGain(ts, samples, a, space)`.  The result is `none` when the
source computes not-a-number, that is `0.0 / 0` over an empty subset. -/
def potentialGain (env : Env) (ts : TrainingSet) (samples : Subset) (a : Approximation)
    (space : MatrixXd) : Except Exn (Option ℚ) :=
  let squaredSum : ℚ := (samples.map (fun s =>
    let err := (ts.get s).getOutput - a.eval env (ts.get s).input
    err * err)).sum
  match size space with
  | .error e => .error e
  | .ok sz =>
    if samples.length = 0 then .ok none
    else
      let var := squaredSum / (samples.length : ℚ)
      .ok (some (var * sz))

/-! ## Tree nodes and split entries -/

/-- Modelled from the spec: the class `RegressionNode` of `core/regression_node.h`, with the
four fields assigned in `bb2Tree`: the approximation `a` (or `NULL`), the split `s` and the
two child pointers. -/
structure RegressionNode where
  a : Option Approximation
  s : OrthogonalSplit
  lowerChild : Option Nat
  upperChild : Option Nat
  deriving DecidableEq, Repr

/-- Modelled from the spec: the constructor `RegressionNode()`, a fresh node without
approximation and without children. -/
def RegressionNode.new : RegressionNode := ⟨none, ⟨0, 0⟩, none, none⟩

/-- Modelled from the spec: the class `SplitEntry` of `algorithms/blackbox_2_tree.h`, with
the five fields assigned in `getBestSplitEntry`. -/
structure SplitEntry where
  node : Nat
  gain : ℚ
  split : OrthogonalSplit
  samples : Subset
  space : MatrixXd

/-- The comparison `SplitEntry::operator<`. -/
def SplitEntry.lt (e other : SplitEntry) : Bool :=
  if e.gain = other.gain then decide (e.node < other.node)
  else decide (e.gain < other.gain)

/-- The call `std::set<SplitEntry>::insert`: the set is the ascending list of its elements;
an element equivalent to one already present is not inserted. -/
def setInsert (e : SplitEntry) : List SplitEntry → List SplitEntry
  | [] => [e]
  | x :: xs =>
    if e.lt x then e :: x :: xs
    else if x.lt e then x :: setInsert e xs
    else x :: xs

/-- Modelled from the spec: the class `BB2TreeConfig` of `algorithms/blackbox_2_tree.h`,
with the fields initialised by its constructor and the field `space` (the oracle `eval` is
in `Env`).  The fields `k` and `nMin` are passed as `int`; `maxLeafs`, a budget that is
compared with the `size_t` counter `nbLeafs`, is a natural number. -/
structure BB2TreeConfig where
  apprType : ApproximationType
  k : Int
  minPotGain : ℚ
  maxLeafs : Nat
  nMin : Int
  minDensity : ℚ
  nbTrees : Int
  space : MatrixXd

/-- The constructor `BB2TreeConfig::BB2TreeConfig()`, over a given space. -/
def BB2TreeConfig.default (space : MatrixXd) : BB2TreeConfig :=
  { apprType := .PWC, k := 1, minPotGain := 0, maxLeafs := 0, nMin := 1, minDensity := 0,
    nbTrees := 1, space := space }

/-! ## Candidate split search -/

/-- The access `samples[i]` for a signed index; `none` when it is out of bounds. -/
def subsetAt (samples : Subset) (i : Int) : Option Nat :=
  if 0 ≤ i then samples[i.toNat]? else none

/-- The first loop of `getBestSplitEntry`, over `i = 0 .. k-1`: sort the subset by the probed
dimension, read `sValMin` and `sValMax`, draw a threshold between them and push the
candidate.  `draw + i` numbers the draw of iteration `i`. -/
def candidatesLoop (env : Env) (draw : Nat) (ts : TrainingSet) (space : MatrixXd) (nMin : Int)
    (dimCandidates : List Nat) :
    List Nat → Subset → List OrthogonalSplit → Except Exn (Subset × List OrthogonalSplit)
  | [], samples, splitCandidates => .ok (samples, splitCandidates)
  | i :: is, samples, splitCandidates =>
    match dimCandidates[i]? with
    | none => .error .undefined_behaviour
    | some dim =>
      let samples := ts.sortSubset samples dim
      match subsetAt samples (nMin - 1), subsetAt samples ((samples.length : Int) - nMin) with
      | some lo, some hi =>
        let sValMin := (ts.get lo).getInput dim
        let sValMax := (ts.get hi).getInput dim
        let val := sValMin + env.unitDraw (draw + i) * (sValMax - sValMin)
        if sValMin = sValMax then
          -- the diagnostic printed in this case evaluates `size(space)`
          match size space with
          | .error e => .error e
          | .ok _ =>
            candidatesLoop env draw ts space nMin dimCandidates is samples
              (splitCandidates ++ [⟨dim, val⟩])
        else
          candidatesLoop env draw ts space nMin dimCandidates is samples
            (splitCandidates ++ [⟨dim, val⟩])
      | _, _ => .error .undefined_behaviour

/-- The second loop of `getBestSplitEntry`, over `splitIdx = 1 ..`: keep the first candidate
of strictly greatest score. -/
def bestSplitLoop (env : Env) (ts : TrainingSet) (samples : Subset)
    (apprType : ApproximationType) :
    List OrthogonalSplit → Nat → Nat → ℚ → Except Exn (Nat × ℚ)
  | [], _, bestSplitIdx, bestSplitScore => .ok (bestSplitIdx, bestSplitScore)
  | c :: cs, splitIdx, bestSplitIdx, bestSplitScore =>
    match evalSplitScore env ts samples c apprType with
    | .error e => .error e
    | .ok splitScore =>
      if splitScore > bestSplitScore then
        bestSplitLoop env ts samples apprType cs (splitIdx + 1) splitIdx splitScore
      else
        bestSplitLoop env ts samples apprType cs (splitIdx + 1) bestSplitIdx bestSplitScore

/-- The function `getBestSplitEntry(node, ts, samples, space, k, nMin, apprType)`.  Draw
number `draw` is the choice of the dimensions, `draw + 1 + i` the threshold of iteration
`i`. -/
def getBestSplitEntry (env : Env) (draw : Nat) (node : Nat) (ts : TrainingSet) (samples : Subset)
    (space : MatrixXd) (k nMin : Int) (apprType : ApproximationType) : Except Exn SplitEntry :=
  match env.getKDistinctFromN draw k ts.getInputDim with
  | .error e => .error e
  | .ok dimCandidates =>
    match candidatesLoop env (draw + 1) ts space nMin dimCandidates (List.range k.toNat)
        samples [] with
    | .error e => .error e
    | .ok (samples, splitCandidates) =>
      match splitCandidates with
      | [] => .error (.runtime_error "No possible splits")
      | c0 :: cs =>
        match evalSplitScore env ts samples c0 apprType with
        | .error e => .error e
        | .ok score0 =>
          match bestSplitLoop env ts samples apprType cs 1 0 score0 with
          | .error e => .error e
          | .ok (bestSplitIdx, bestSplitScore) =>
            match size space with
            | .error e => .error e
            | .ok sz =>
              .ok { node := node
                    gain := bestSplitScore * sz
                    split := (c0 :: cs).getD bestSplitIdx c0
                    samples := samples
                    space := space }

/-! ## The grower -/

/-- The state shared by `treat` and `bb2Tree`: training set, heap of nodes, pending set,
number of random draws made so far and log of the oracle calls. -/
structure Machine where
  ts : TrainingSet
  nodes : List RegressionNode
  splitCandidates : List SplitEntry
  draws : Nat
  evalLog : List (List ℚ)

/-- The assignment `node->a = a`. -/
def setApproximation (nodes : List RegressionNode) (node : Nat) (a : Option Approximation) :
    List RegressionNode :=
  nodes.modify (fun n => { n with a := a }) node

/-- The function `treat(node, ts, samples, space, c, splitCandidates)`.  The state that was
mutated before an exception is returned with the exception.  The argument `2 * c.nMin` is an
`int` product: `populate` takes it modulo `2 ^ 32`. -/
def treat (env : Env) (c : BB2TreeConfig) (node : Nat) (m : Machine) (samples : Subset)
    (space : MatrixXd) : Machine × Except Exn Unit :=
  match populate env m.draws ⟨m.ts, samples, m.evalLog⟩ space (2 * c.nMin) c.minDensity with
  | .error e => (m, .error e)
  | .ok p =>
    let a := getApproximation p.ts p.samples c.apprType
    let m1 : Machine :=
      { m with ts := p.ts, evalLog := p.evalLog, draws := m.draws + 2 + c.k.toNat
               nodes := setApproximation m.nodes node (some a) }
    match potentialGain env p.ts p.samples a space with
    | .error e => (m1, .error e)
    | .ok potGain =>
      if (match potGain with | some g => decide (g ≥ c.minPotGain) | none => false) then
        match getBestSplitEntry env (m.draws + 1) node p.ts p.samples space c.k c.nMin
            c.apprType with
        | .ok e => ({ m1 with splitCandidates := setInsert e m1.splitCandidates }, .ok ())
        | .error (.runtime_error _) => (m1, .ok ())
        | .error e => (m1, .error e)
      else (m1, .ok ())

/-- The state of the main loop of `bb2Tree`: the shared state and the counter `nbLeafs`,
together with the history of the loop: for each iteration, the entry that was removed and
the pending set right after its removal. -/
structure LoopState where
  m : Machine
  nbLeafs : Nat
  commits : List (SplitEntry × List SplitEntry)

/-- The statements of one iteration that turn the leaf `entry.node` into an internal node
with two fresh children (allocated at the end of the heap). -/
def commitSplit (nodes : List RegressionNode) (entry : SplitEntry) : List RegressionNode :=
  nodes.modify (fun n =>
      { n with a := none, s := entry.split
               lowerChild := some nodes.length, upperChild := some (nodes.length + 1) })
    entry.node
    ++ [RegressionNode.new, RegressionNode.new]

/-- The body of the main loop of `bb2Tree` for the removed `entry`, up to and including the
`try` block: the mutated state, and the exception that leaves the loop if there is one. -/
def bb2Step (env : Env) (c : BB2TreeConfig) (m : Machine) (entry : SplitEntry) :
    Machine × Except Exn Unit :=
  let lSamples := (m.ts.applySplit entry.split entry.samples).1
  let uSamples := (m.ts.applySplit entry.split entry.samples).2
  let lowerChild := m.nodes.length
  let upperChild := m.nodes.length + 1
  let m0 : Machine :=
    { m with nodes := commitSplit m.nodes entry, splitCandidates := m.splitCandidates.dropLast }
  let lowerSpace := entry.space.set entry.split.dim 1 entry.split.val
  let upperSpace := entry.space.set entry.split.dim 0 entry.split.val
  match treat env c lowerChild m0 lSamples lowerSpace with
  | (m1, .error (.logic_error _)) => (m1, .ok ())
  | (m1, .error e) => (m1, .error e)
  | (m1, .ok ()) =>
    match treat env c upperChild m1 uSamples upperSpace with
    | (m2, .error (.logic_error _)) => (m2, .ok ())
    | (m2, .error e) => (m2, .error e)
    | (m2, .ok ()) => (m2, .ok ())

/-- The main loop of `bb2Tree`, `while (splitCandidates.size() > 0 && nbLeafs < maxLeafs)`,
with a bound on the number of iterations; `none` when the bound is reached. -/
def bb2Loop (env : Env) (c : BB2TreeConfig) : Nat → LoopState → Option (LoopState × Except Exn Unit)
  | fuel, st =>
    match st.m.splitCandidates.getLast?, decide (st.nbLeafs < c.maxLeafs) with
    | some entry, true =>
      match fuel with
      | 0 => none
      | fuel + 1 =>
        match bb2Step env c st.m entry with
        | (m1, .error e) =>
          some ({ st with m := m1
                          commits := st.commits ++ [(entry, st.m.splitCandidates.dropLast)] },
                .error e)
        | (m1, .ok ()) =>
          bb2Loop env c fuel
            { m := m1, nbLeafs := st.nbLeafs + 1
              commits := st.commits ++ [(entry, st.m.splitCandidates.dropLast)] }
    | _, _ => some (st, .ok ())

/-- The function `bb2Tree(config)`.  The returned tree is the heap `m.nodes` with root `0`;
the final state also gives the counter `nbLeafs` that the source prints. -/
def bb2Tree (env : Env) (c : BB2TreeConfig) : Option (LoopState × Except Exn Unit) :=
  let m0 : Machine :=
    { ts := ⟨c.space.rows, []⟩, nodes := [RegressionNode.new], splitCandidates := [],
      draws := 0, evalLog := [] }
  match treat env c 0 m0 [] c.space with
  | (m1, .error e) => some (⟨m1, 1, []⟩, .error e)
  | (m1, .ok ()) => bb2Loop env c c.maxLeafs ⟨m1, 1, []⟩

/-! ## Concrete data used to exercise the definitions -/

/-- An environment whose oracle is the first coordinate and whose draws are fixed. -/
def envFirstCoord : Env where
  eval := fun x => x.getD 0 0
  getUniformSamples := fun n _ count => List.replicate count [(n : ℚ)]
  getKDistinctFromN := fun _ k _ => .ok (List.range k.toNat)
  unitDraw := fun _ => 1 / 2
  pwlFit := fun _ _ _ => 0
  outOfRangeInt := fun _ => -(2 ^ 31)

/-- Two samples on one dimension: `(0, 0)` and `(1, 2)`. -/
def tsTwo : TrainingSet := ⟨1, [⟨[0], 0⟩, ⟨[1], 2⟩]⟩

/-- Three samples on one dimension, at `0`, `1` and `2`. -/
def tsThree : TrainingSet := ⟨1, [⟨[0], 0⟩, ⟨[1], 1⟩, ⟨[2], 4⟩]⟩

/-- The unit interval `[0, 1]` as a one-dimensional space. -/
def unitSpace : MatrixXd := ⟨1, 2, fun _ j => if j = 1 then 1 else 0⟩

/-- The state of `treat` once `populate` has returned `p` and the approximation is fitted. -/
def treatFitted (c : BB2TreeConfig) (node : Nat) (m : Machine) (p : Populated) : Machine :=
  { m with ts := p.ts, evalLog := p.evalLog, draws := m.draws + 2 + c.k.toNat
           nodes := setApproximation m.nodes node
             (some (getApproximation p.ts p.samples c.apprType)) }

/-- The test `potGain >= c.minPotGain` of `treat`, false on not-a-number. -/
def gainReached (c : BB2TreeConfig) (potGain : Option ℚ) : Bool :=
  match potGain with
  | some g => decide (g ≥ c.minPotGain)
  | none => false

/-- A node without children. -/
def RegressionNode.childless (n : RegressionNode) : Bool :=
  n.lowerChild.isNone && n.upperChild.isNone

/-- The number of childless nodes of a heap. -/
def leafCount (nodes : List RegressionNode) : Nat := nodes.countP RegressionNode.childless

/-- An environment for one-dimensional runs: the oracle is the first coordinate, the
sampler returns `count` evenly spaced points strictly inside the space, the dimensions
chosen are `0 .. k-1` and every unit draw is `1/2`. -/
def envGrid : Env where
  eval := fun x => x.getD 0 0
  getUniformSamples := fun _ space count =>
    (List.range count).map (fun j =>
      [space.coeff 0 0
        + (Nat.cast (j + 1) / Nat.cast (count + 1)) * (space.coeff 0 1 - space.coeff 0 0)])
  getKDistinctFromN := fun _ k _ => .ok (List.range k.toNat)
  unitDraw := fun _ => 1 / 2
  pwlFit := fun _ _ _ => 0
  outOfRangeInt := fun _ => -(2 ^ 31)

/-- The default configuration over the unit interval, with a budget of `maxLeafs` leaves. -/
def configUnit (maxLeafs : Nat) : BB2TreeConfig :=
  { BB2TreeConfig.default unitSpace with maxLeafs := maxLeafs }

/-! ## The tree held by a heap -/

/-- The shape of a regression tree: the pointer of each node, leaf or internal. -/
inductive Shape where
  | leaf (p : Nat)
  | inner (p : Nat) (lower upper : Shape)
  deriving DecidableEq, Repr

/-- The pointer of the root of a shape. -/
def Shape.root : Shape → Nat
  | .leaf p => p
  | .inner p _ _ => p

/-- The pointers of all the nodes of a shape. -/
def Shape.ptrs : Shape → List Nat
  | .leaf p => [p]
  | .inner p lower upper => p :: (lower.ptrs ++ upper.ptrs)

/-- The pointers of the leaves of a shape. -/
def Shape.leafPtrs : Shape → List Nat
  | .leaf p => [p]
  | .inner _ lower upper => lower.leafPtrs ++ upper.leafPtrs

/-- The number of leaves of a shape. -/
def Shape.leaves (t : Shape) : Nat := t.leafPtrs.length

/-- The number of nodes on the longest branch of a shape. -/
def Shape.depth : Shape → Nat
  | .leaf _ => 1
  | .inner _ lower upper => max lower.depth upper.depth + 1

/-- The shape in which the leaf `q` has become an internal node with leaves `lo` and `up`. -/
def Shape.graft (q lo up : Nat) : Shape → Shape
  | .leaf p => if p = q then .inner p (.leaf lo) (.leaf up) else .leaf p
  | .inner p lower upper => .inner p (lower.graft q lo up) (upper.graft q lo up)

/-- The tree that hangs from pointer `p` in a heap, followed through the child pointers for
at most `fuel` levels; `none` when a pointer dangles, when a node has a single child or when
the levels are used up. -/
def subtree (nodes : List RegressionNode) : Nat → Nat → Option Shape
  | 0, _ => none
  | fuel + 1, p =>
    match nodes[p]? with
    | none => none
    | some n =>
      match n.lowerChild, n.upperChild with
      | none, none => some (.leaf p)
      | some l, some u =>
        match subtree nodes fuel l, subtree nodes fuel u with
        | some tl, some tu => some (.inner p tl tu)
        | _, _ => none
      | _, _ => none

/-- The heap holds the shape `t`: each leaf of `t` points to a node without children, each
internal node of `t` to a node whose children are the roots of its two sub-shapes. -/
def Represents (nodes : List RegressionNode) : Shape → Prop
  | .leaf p => ∃ n, nodes[p]? = some n ∧ n.lowerChild = none ∧ n.upperChild = none
  | .inner p lower upper =>
    (∃ n, nodes[p]? = some n ∧ n.lowerChild = some lower.root ∧ n.upperChild = some upper.root)
      ∧ Represents nodes lower ∧ Represents nodes upper

/-- The state in which `bb2Tree` calls `treat` on the lower child: `entry` is erased from the
pending set and its node has its two fresh children. -/
def commitState (m : Machine) (entry : SplitEntry) : Machine :=
  { m with nodes := commitSplit m.nodes entry, splitCandidates := m.splitCandidates.dropLast }

/-- The call of `treat` on the lower child in the iteration that commits `entry`. -/
def treatLower (env : Env) (c : BB2TreeConfig) (m : Machine) (entry : SplitEntry) :
    Machine × Except Exn Unit :=
  treat env c m.nodes.length (commitState m entry)
    (m.ts.applySplit entry.split entry.samples).1
    (entry.space.set entry.split.dim 1 entry.split.val)

/-- The call of `treat` on the upper child in the iteration that commits `entry`, made when
the call on the lower child has returned. -/
def treatUpper (env : Env) (c : BB2TreeConfig) (m : Machine) (entry : SplitEntry) :
    Machine × Except Exn Unit :=
  treat env c (m.nodes.length + 1) (treatLower env c m entry).1
    (m.ts.applySplit entry.split entry.samples).2
    (entry.space.set entry.split.dim 0 entry.split.val)

/-- The invariant that ties the heap and the pending set of a state to a shape `t`: the heap
holds `t` from the root pointer `0`, no pointer occurs twice in `t`, every node of the heap
is in `t`, and the pending entries point to distinct leaves of `t`. -/
def TreeInv (m : Machine) (t : Shape) : Prop :=
  Represents m.nodes t ∧ t.root = 0 ∧ t.ptrs.Nodup
    ∧ (∀ p, p < m.nodes.length → p ∈ t.ptrs)
    ∧ (∀ e ∈ m.splitCandidates, e.node ∈ t.leafPtrs)
    ∧ (m.splitCandidates.map (fun e => e.node)).Nodup

/-- The state in which `bb2Tree` calls `treat` on the root: an empty training set, a heap
holding the fresh root and an empty pending set. -/
def rootMachine (c : BB2TreeConfig) : Machine :=
  { ts := ⟨c.space.rows, []⟩, nodes := [RegressionNode.new], splitCandidates := [],
    draws := 0, evalLog := [] }

/-- Whether a run of `bb2Tree` has returned a tree. -/
def returnsTree (r : Option (LoopState × Except Exn Unit)) : Bool :=
  match r with
  | some (_, .ok ()) => true
  | _ => false

/-- The state in which a run of `bb2Tree` has ended. -/
def finalState (r : Option (LoopState × Except Exn Unit)) : LoopState :=
  match r with
  | some (st, _) => st
  | none => ⟨⟨⟨0, []⟩, [], [], 0, []⟩, 0, []⟩

/-- Equality of outcomes is decidable. -/
instance decEqExcept {ε α : Type} [DecidableEq ε] [DecidableEq α] : DecidableEq (Except ε α)
  | .ok a, .ok b => if h : a = b then isTrue (h ▸ rfl) else isFalse (fun h2 => h (Except.ok.inj h2))
  | .error a, .error b =>
    if h : a = b then isTrue (h ▸ rfl) else isFalse (fun h2 => h (Except.error.inj h2))
  | .ok _, .error _ => isFalse (fun h => nomatch h)
  | .error _, .ok _ => isFalse (fun h => nomatch h)

/-- What holds of the loop state of `bb2Tree` at every evaluation of the loop condition
on a run without exception: the heap holds a tree with `nbLeafs` leaves, `nbLeafs` is the
number of iterations made plus one, and it is at most `max(1, maxLeafs)`. -/
def GrowInv (c : BB2TreeConfig) (st : LoopState) : Prop :=
  (∃ t, TreeInv st.m t ∧ t.leaves = st.nbLeafs)
    ∧ st.nbLeafs = st.commits.length + 1
    ∧ st.nbLeafs ≤ max 1 c.maxLeafs

/-- What holds of the loop state of `bb2Tree` at every evaluation of the loop condition:
the pending set is in ascending order, and each entry that was removed had a gain at least
equal to the gain of every entry left in the set at that moment. -/
def PopInv (st : LoopState) : Prop :=
  st.m.splitCandidates.Pairwise (fun a b => a.lt b = true)
    ∧ ∀ p ∈ st.commits, ∀ x ∈ p.2, x.gain ≤ p.1.gain

/-- The default configuration over the unit interval with a budget of three leaves and
`minPotGain = 1`. -/
def configHighGain : BB2TreeConfig := { configUnit 3 with minPotGain := 1 }

/-- The two samples drawn for the root over the unit interval by `envGrid`. -/
def rootPopulated : Populated :=
  ⟨⟨1, [⟨[1 / 3], 1 / 3⟩, ⟨[2 / 3], 2 / 3⟩]⟩, [0, 1], [[1 / 3], [2 / 3]]⟩

/-- A state holding the two samples of `tsTwo` and a single fresh node. -/
def machineTwo : Machine :=
  { ts := tsTwo, nodes := [RegressionNode.new], splitCandidates := [], draws := 0, evalLog := [] }

/-- Two samples on two dimensions, at `(0, 0)` and `(1, 1)`. -/
def tsPlane : TrainingSet := ⟨2, [⟨[0, 0], 0⟩, ⟨[1, 1], 2⟩]⟩

/-- The unit square as a two-dimensional space. -/
def unitSquare : MatrixXd := ⟨2, 2, fun _ j => if j = 1 then 1 else 0⟩

/-- Four samples on one dimension, at `0`, `1`, `1` and `2`. -/
def tsFlat : TrainingSet := ⟨1, [⟨[0], 0⟩, ⟨[1], 1⟩, ⟨[1], 1⟩, ⟨[2], 2⟩]⟩

/-- The interval `[0, 2]` as a one-dimensional space. -/
def wideSpace : MatrixXd := ⟨1, 2, fun _ j => if j = 1 then 2 else 0⟩

/-- The one-dimensional space `[0, 0]`, of zero width. -/
def zeroSpace : MatrixXd := ⟨1, 2, fun _ _ => 0⟩

/-- The default configuration over the zero-width space `[0, 0]`. -/
def configZero : BB2TreeConfig := BB2TreeConfig.default zeroSpace

/-- The strip `[0, 1] x [0, 0]`: a two-dimensional space whose second dimension has zero
width. -/
def stripSpace : MatrixXd := ⟨2, 2, fun i j => if i = 0 ∧ j = 1 then 1 else 0⟩

/-- The default configuration over the strip, with a budget of two leaves. -/
def configStrip : BB2TreeConfig := { BB2TreeConfig.default stripSpace with maxLeafs := 2 }

/-- An environment for runs over the strip: the oracle is the first coordinate, the sampler
returns points evenly spaced along the first dimension at the minimum of the second one, the
dimension chosen is `0` at draw `1` (the root) and `1` afterwards, every unit draw is
`1/2`. -/
def envStrip : Env where
  eval := fun x => x.getD 0 0
  getUniformSamples := fun _ space count =>
    (List.range count).map (fun j =>
      [space.coeff 0 0
        + (Nat.cast (j + 1) / Nat.cast (count + 1)) * (space.coeff 0 1 - space.coeff 0 0),
       space.coeff 1 0])
  getKDistinctFromN := fun n _ _ => if n = 1 then .ok [0] else .ok [1]
  unitDraw := fun _ => 1 / 2
  pwlFit := fun _ _ _ => 0
  outOfRangeInt := fun _ => -(2 ^ 31)

/-- A node as the data model allows it: a leaf that holds an approximation and has no
children, or an internal node that has both children and holds no approximation. -/
def RegressionNode.leafOrInternal (n : RegressionNode) : Bool :=
  (n.a.isSome && n.lowerChild.isNone && n.upperChild.isNone)
    || (n.a.isNone && n.lowerChild.isSome && n.upperChild.isSome)

/-- The loop state of the run over the strip when the loop condition is first evaluated. -/
def stripRootState : LoopState :=
  ⟨(treat envStrip configStrip 0 (rootMachine configStrip) [] stripSpace).1, 1, []⟩

/-- The entry inserted for the root in the run over the strip. -/
def stripEntry : SplitEntry := ⟨0, 0, ⟨0, 1 / 2⟩, [0, 1], stripSpace⟩

/-- The entry that the first iteration of the run over the strip removes from the pending
set. -/
def stripPopped : SplitEntry := stripRootState.m.splitCandidates.getLast?.getD stripEntry

/-- The states in which the main loop of `bb2Tree` evaluates its condition: the state left
by `treat` on the root, and the state left by an iteration that ends normally from such a
state. -/
inductive LoopReach (env : Env) (c : BB2TreeConfig) : LoopState → Prop where
  | root (m1 : Machine) (h : treat env c 0 (rootMachine c) [] c.space = (m1, .ok ())) :
      LoopReach env c ⟨m1, 1, []⟩
  | step (st : LoopState) (entry : SplitEntry) (m1 : Machine) (hst : LoopReach env c st)
      (hlast : st.m.splitCandidates.getLast? = some entry) (hlt : st.nbLeafs < c.maxLeafs)
      (hstep : bb2Step env c st.m entry = (m1, .ok ())) :
      LoopReach env c
        { m := m1, nbLeafs := st.nbLeafs + 1
          commits := st.commits ++ [(entry, st.m.splitCandidates.dropLast)] }

/-- What holds of every pending entry: the indices of its stored subset are in the training
set, and its stored split cuts its stored subset in two non-empty parts. -/
def PendingInv (m : Machine) : Prop :=
  ∀ e ∈ m.splitCandidates,
    (∀ i ∈ e.samples, i < m.ts.data.length)
      ∧ (m.ts.applySplit e.split e.samples).1 ≠ []
      ∧ (m.ts.applySplit e.split e.samples).2 ≠ []

/-- The interval from `0` to the double `0.9` as a one-dimensional space. -/
def spaceNineTenths : MatrixXd := ⟨1, 2, fun _ j => if j = 1 then binary64 (9 / 10) else 0⟩

/-- The default configuration over the unit interval with `nMin = 2 ^ 30`. -/
def configLargeNMin : BB2TreeConfig := { configUnit 3 with nMin := 2 ^ 30 }

/-- The loop state of the run of `envGrid` over the unit interval, with a budget of three
leaves, when the loop condition is first evaluated. -/
def gridRootState : LoopState :=
  ⟨(treat envGrid (configUnit 3) 0 (rootMachine (configUnit 3)) [] (configUnit 3).space).1, 1, []⟩

/-! # Theorems -/

/-! ## Split scoring: theorems -/

/-- C1. When both partitions of the subset are non-empty, `evalSplitScore` returns `0` if
`varAll = 0` and `(varAll - weighted) / varAll` otherwise, with `varAll`, `varLower`,
`varUpper` the `avgSquaredErrors` of the subset, of its lower and of its upper partition and
`weighted = (varLower * |lower| + varUpper * |upper|) / |samples|`. -/
theorem evalSplitScore_formula (env : Env) (ls : TrainingSet) (samples : Subset)
    (split : OrthogonalSplit) (apprType : ApproximationType)
    (hLower : (ls.applySplit split samples).1 ≠ [])
    (hUpper : (ls.applySplit split samples).2 ≠ []) :
    evalSplitScore env ls samples split apprType =
      .ok (if avgSquaredErrors env ls samples apprType = 0 then 0
        else (avgSquaredErrors env ls samples apprType
              - (avgSquaredErrors env ls (ls.applySplit split samples).1 apprType
                    * ((ls.applySplit split samples).1.length : ℚ)
                  + avgSquaredErrors env ls (ls.applySplit split samples).2 apprType
                    * ((ls.applySplit split samples).2.length : ℚ))
                / (samples.length : ℚ))
            / avgSquaredErrors env ls samples apprType) := by
  have h1 : (ls.applySplit split samples).1.length ≠ 0 := fun h => hLower (List.length_eq_zero.mp h)
  have h2 : (ls.applySplit split samples).2.length ≠ 0 := fun h => hUpper (List.length_eq_zero.mp h)
  unfold evalSplitScore
  simp only [h1, h2, or_self, if_false]
  split <;> rfl

/-- C2. `evalSplitScore` throws a logic error exactly when the lower partition (values below
the threshold) or the upper partition (values at or above it) is empty, and returns a score
in every other case. -/
theorem evalSplitScore_error_iff (env : Env) (ls : TrainingSet) (samples : Subset)
    (split : OrthogonalSplit) (apprType : ApproximationType) :
    ((∃ what, evalSplitScore env ls samples split apprType = .error (.logic_error what))
        ↔ (samples.filter (fun i => decide ((ls.get i).getInput split.dim < split.val)) = []
            ∨ samples.filter (fun i => decide (split.val ≤ (ls.get i).getInput split.dim)) = []))
      ∧ ((∃ score, evalSplitScore env ls samples split apprType = .ok score)
        ↔ ¬ (samples.filter (fun i => decide ((ls.get i).getInput split.dim < split.val)) = []
            ∨ samples.filter (fun i => decide (split.val ≤ (ls.get i).getInput split.dim)) = []))
      ∧ (∀ e, evalSplitScore env ls samples split apprType = .error e →
          e = .logic_error "Empty sample set provided to evalSplitScore") := by
  unfold evalSplitScore TrainingSet.applySplit
  simp only [List.length_eq_zero]
  by_cases h : (samples.filter (fun i => decide ((ls.get i).getInput split.dim < split.val)) = []
            ∨ samples.filter (fun i => decide (split.val ≤ (ls.get i).getInput split.dim)) = [])
  · simp only [h, if_true, not_true_eq_false, iff_false, iff_true]
    refine ⟨⟨_, rfl⟩, ?_, ?_⟩
    · rintro ⟨s, hs⟩; cases hs
    · intro e he; cases he; rfl
  · simp only [h, if_false, not_false_eq_true, iff_true, iff_false]
    refine ⟨?_, ?_, ?_⟩
    · rintro ⟨w, hw⟩; split at hw <;> cases hw
    · split <;> exact ⟨_, rfl⟩
    · intro e he; split at he <;> cases he

/-- C1, at a concrete input: two samples split at `1/2`. -/
theorem evalSplitScore_formula_witness :
    evalSplitScore envFirstCoord tsTwo [0, 1] ⟨0, 1 / 2⟩ .PWC =
      .ok (if avgSquaredErrors envFirstCoord tsTwo [0, 1] .PWC = 0 then 0
        else (avgSquaredErrors envFirstCoord tsTwo [0, 1] .PWC
              - (avgSquaredErrors envFirstCoord tsTwo (tsTwo.applySplit ⟨0, 1 / 2⟩ [0, 1]).1 .PWC
                    * (((tsTwo.applySplit ⟨0, 1 / 2⟩ [0, 1]).1.length : ℕ) : ℚ)
                  + avgSquaredErrors envFirstCoord tsTwo (tsTwo.applySplit ⟨0, 1 / 2⟩ [0, 1]).2 .PWC
                    * (((tsTwo.applySplit ⟨0, 1 / 2⟩ [0, 1]).2.length : ℕ) : ℚ))
                / ((([0, 1] : Subset).length : ℕ) : ℚ))
            / avgSquaredErrors envFirstCoord tsTwo [0, 1] .PWC) :=
  evalSplitScore_formula envFirstCoord tsTwo [0, 1] ⟨0, 1 / 2⟩ .PWC
    (by norm_num [TrainingSet.applySplit, TrainingSet.get, tsTwo, Sample.getInput, List.filter_cons])
    (by norm_num [TrainingSet.applySplit, TrainingSet.get, tsTwo, Sample.getInput, List.filter_cons])

theorem pow2_eq_zpow (k : Int) : pow2 k = (2 : ℚ) ^ k := by
  unfold pow2
  split
  · rename_i h
    have hk : k = (k.toNat : Int) := (Int.toNat_of_nonneg h).symm
    conv_rhs => rw [hk]
    rw [zpow_natCast]
    push_cast
    rfl
  · rename_i h
    have hk : k = -((-k).toNat : Int) := by omega
    conv_rhs => rw [hk]
    rw [zpow_neg, zpow_natCast]
    push_cast
    rw [one_div]

theorem pow2_pos (k : Int) : 0 < pow2 k := by
  rw [pow2_eq_zpow]
  positivity

theorem le_roundHalfEven (q : ℚ) (N : Int) (h : (N : ℚ) ≤ q) : N ≤ roundHalfEven q := by
  have h0 : N ≤ ⌊q⌋ := Int.le_floor.mpr h
  unfold roundHalfEven
  split
  · exact h0
  · split
    · omega
    · split
      · exact h0
      · omega

theorem binary64_nonneg (x : ℚ) (hx : 0 ≤ x) : 0 ≤ binary64 x := by
  unfold binary64
  split
  · exact le_refl _
  · apply mul_nonneg _ (pow2_pos _).le
    have : (0 : Int) ≤ roundHalfEven (x / pow2 (binade x - 52)) :=
      le_roundHalfEven _ 0 (by
        rw [Int.cast_zero]
        exact div_nonneg hx (pow2_pos _).le)
    exact_mod_cast this

/-- The subset returned by `sortSubset` is sorted by the probed dimension. -/
theorem sortSubset_sorted (ts : TrainingSet) (samples : Subset) (dim : Nat) :
    (ts.sortSubset samples dim).Pairwise
      (fun i j => (ts.get i).getInput dim ≤ (ts.get j).getInput dim) := by
  unfold TrainingSet.sortSubset
  haveI : IsTotal Nat (fun i j => (ts.get i).getInput dim ≤ (ts.get j).getInput dim) :=
    ⟨fun a b => le_total _ _⟩
  haveI : IsTrans Nat (fun i j => (ts.get i).getInput dim ≤ (ts.get j).getInput dim) :=
    ⟨fun a b c hab hbc => le_trans hab hbc⟩
  exact List.sorted_insertionSort _ samples

/-- In a subset sorted by `dim`, the first `m` samples are below any threshold above the
value of the `m`-th smallest, so the lower partition holds at least `m` samples. -/
theorem lower_partition_length (ts : TrainingSet) (samples : Subset) (dim : Nat) (val : ℚ)
    (m lo : Nat)
    (hs : samples.Pairwise (fun i j => (ts.get i).getInput dim ≤ (ts.get j).getInput dim))
    (hm : 1 ≤ m) (hlo : samples[m - 1]? = some lo) (hval : (ts.get lo).getInput dim < val) :
    m ≤ (ts.applySplit ⟨dim, val⟩ samples).1.length := by
  obtain ⟨hlt, hget⟩ := List.getElem?_eq_some.mp hlo
  have hall : ∀ x ∈ samples.take m, decide ((ts.get x).getInput dim < val) = true := by
    intro x hx
    obtain ⟨i, hi, rfl⟩ := List.mem_take_iff_getElem.mp hx
    have hi2 : i < samples.length := by omega
    have him : i < m := by omega
    apply decide_eq_true
    rcases Nat.lt_or_ge i (m - 1) with hlt2 | hge
    · have := List.pairwise_iff_getElem.mp hs i (m - 1) hi2 hlt hlt2
      rw [hget] at this
      exact lt_of_le_of_lt this hval
    · have : i = m - 1 := by omega
      subst this
      rw [hget]
      exact hval
  have hfilter := List.filter_eq_self.mpr hall
  have hsplit : samples = samples.take m ++ samples.drop m := (List.take_append_drop m samples).symm
  unfold TrainingSet.applySplit
  show m ≤ (samples.filter _).length
  rw [hsplit, List.filter_append, List.length_append, hfilter, List.length_take]
  omega

/-- In a subset sorted by `dim`, the last `m` samples are above any threshold below the
value of the `m`-th largest, so the upper partition holds at least `m` samples. -/
theorem upper_partition_length (ts : TrainingSet) (samples : Subset) (dim : Nat) (val : ℚ)
    (m hi : Nat)
    (hs : samples.Pairwise (fun i j => (ts.get i).getInput dim ≤ (ts.get j).getInput dim))
    (hm : m ≤ samples.length) (hhi : samples[samples.length - m]? = some hi)
    (hval : val < (ts.get hi).getInput dim) :
    m ≤ (ts.applySplit ⟨dim, val⟩ samples).2.length := by
  obtain ⟨hlt, hget⟩ := List.getElem?_eq_some.mp hhi
  have hall : ∀ x ∈ samples.drop (samples.length - m),
      decide (val ≤ (ts.get x).getInput dim) = true := by
    intro x hx
    obtain ⟨i, hi2, rfl⟩ := List.mem_drop_iff_getElem.mp hx
    apply decide_eq_true
    rcases Nat.eq_zero_or_pos i with h0 | hpos
    · subst h0
      simp only [Nat.add_zero]
      rw [hget]
      exact hval.le
    · have := List.pairwise_iff_getElem.mp hs (samples.length - m) (samples.length - m + i)
        hlt (by omega) (by omega)
      rw [hget] at this
      exact le_trans hval.le this
  have hfilter := List.filter_eq_self.mpr hall
  have hsplit : samples = samples.take (samples.length - m) ++ samples.drop (samples.length - m) :=
    (List.take_append_drop _ samples).symm
  unfold TrainingSet.applySplit
  show m ≤ (samples.filter _).length
  rw [hsplit, List.filter_append, List.length_append, hfilter, List.length_drop]
  omega

/-- C4. In a subset of `n` samples sorted by a dimension, with `1 ≤ nMin ≤ n`, a threshold
strictly between `sValMin` (value of `samples[nMin - 1]`) and `sValMax` (value of
`samples[n - nMin]`) leaves at least `nMin` samples in the lower partition and at least
`nMin` in the upper one, so neither is empty. -/
theorem split_inside_range_keeps_nMin (ts : TrainingSet) (samples : Subset) (dim : Nat)
    (nMin : Int) (val : ℚ) (lo hi : Nat)
    (hs : samples.Pairwise (fun i j => (ts.get i).getInput dim ≤ (ts.get j).getInput dim))
    (hMin : 1 ≤ nMin) (hMax : nMin ≤ (samples.length : Int))
    (hlo : subsetAt samples (nMin - 1) = some lo)
    (hhi : subsetAt samples ((samples.length : Int) - nMin) = some hi)
    (hAbove : (ts.get lo).getInput dim < val) (hBelow : val < (ts.get hi).getInput dim) :
    nMin ≤ ((ts.applySplit ⟨dim, val⟩ samples).1.length : Int)
      ∧ nMin ≤ ((ts.applySplit ⟨dim, val⟩ samples).2.length : Int)
      ∧ (ts.applySplit ⟨dim, val⟩ samples).1 ≠ []
      ∧ (ts.applySplit ⟨dim, val⟩ samples).2 ≠ [] := by
  obtain ⟨m, rfl⟩ : ∃ m : Nat, nMin = (m : Int) := ⟨nMin.toNat, by omega⟩
  have hm1 : 1 ≤ m := by omega
  have hm2 : m ≤ samples.length := by omega
  have e1 : ((m : Int) - 1).toNat = m - 1 := by omega
  have e2 : ((samples.length : Int) - (m : Int)).toNat = samples.length - m := by omega
  unfold subsetAt at hlo hhi
  rw [if_pos (by omega), e1] at hlo
  rw [if_pos (by omega), e2] at hhi
  have hL := lower_partition_length ts samples dim val m lo hs hm1 hlo hAbove
  have hU := upper_partition_length ts samples dim val m hi hs hm2 hhi hBelow
  refine ⟨by exact_mod_cast hL, by exact_mod_cast hU, ?_, ?_⟩
  · intro h; rw [h] at hL; simp at hL; omega
  · intro h; rw [h] at hU; simp at hU; omega

/-- C4, at a concrete input: samples at `0, 1, 2`, `nMin = 1`, threshold `1/2`. -/
theorem split_inside_range_keeps_nMin_witness :
    (1 : Int) ≤ ((tsThree.applySplit ⟨0, 1 / 2⟩ [0, 1, 2]).1.length : Int)
      ∧ (1 : Int) ≤ ((tsThree.applySplit ⟨0, 1 / 2⟩ [0, 1, 2]).2.length : Int)
      ∧ (tsThree.applySplit ⟨0, 1 / 2⟩ [0, 1, 2]).1 ≠ []
      ∧ (tsThree.applySplit ⟨0, 1 / 2⟩ [0, 1, 2]).2 ≠ [] :=
  split_inside_range_keeps_nMin tsThree [0, 1, 2] 0 1 (1 / 2) 0 2
    (by norm_num [TrainingSet.get, tsThree, Sample.getInput])
    (by decide) (by decide) (by decide) (by decide)
    (by norm_num [TrainingSet.get, tsThree, Sample.getInput])
    (by norm_num [TrainingSet.get, tsThree, Sample.getInput])

/-! ## Space: theorems -/

theorem sizeLoop_ok (space : MatrixXd) (rows : List Nat) (prod : ℚ)
    (h : ∀ row ∈ rows, space.coeff row 0 ≤ space.coeff row 1) :
    sizeLoop space rows prod
      = .ok (prod * (rows.map (fun row => space.coeff row 1 - space.coeff row 0)).prod) := by
  induction rows generalizing prod with
  | nil => simp [sizeLoop]
  | cons row rows ih =>
    have h0 : ¬ space.coeff row 1 - space.coeff row 0 < 0 := by
      have := h row (List.mem_cons_self _ _)
      linarith
    simp only [sizeLoop, h0, if_false, List.map_cons, List.prod_cons]
    rw [ih _ (fun r hr => h r (List.mem_cons_of_mem _ hr)), mul_assoc]

theorem populateLoop_eq (eval : List ℚ → ℚ) (inputs : List (List ℚ)) (st : Populated) :
    populateLoop eval inputs st =
      { ts := ⟨st.ts.inputDim, st.ts.data ++ inputs.map (fun i => ⟨i, eval i⟩)⟩
        samples := st.samples ++ List.range' st.ts.size inputs.length
        evalLog := st.evalLog ++ inputs } := by
  induction inputs generalizing st with
  | nil => simp [populateLoop]
  | cons i inputs ih =>
    rw [populateLoop, ih]
    simp [TrainingSet.push, TrainingSet.size, List.range'_succ, Nat.add_comm]

/-! ## 32-bit integers: theorems -/

theorem int32_of_fits (x : Int) (hlo : -(2 ^ 31) ≤ x) (hhi : x < 2 ^ 31) : int32 x = x := by
  unfold int32
  omega

theorem int32_range (x : Int) : -(2 ^ 31) ≤ int32 x ∧ int32 x < 2 ^ 31 := by
  unfold int32
  omega

theorem doubleToInt_of_fits (env : Env) (x : Int) (hlo : -(2 ^ 31) ≤ x) (hhi : x < 2 ^ 31) :
    doubleToInt env x = x := by
  unfold doubleToInt
  rw [if_pos ⟨hlo, hhi⟩]

theorem doubleToInt_range (env : Env) (x : Int) :
    -(2 ^ 31) ≤ doubleToInt env x ∧ doubleToInt env x < 2 ^ 31 := by
  unfold doubleToInt
  split
  · assumption
  · exact int32_range _

/-- The function `populate` once `size(space)` has returned `sz`. -/
theorem populate_of_size (env : Env) (draw : Nat) (st : Populated) (space : MatrixXd)
    (minSize : Int) (minDensity sz : ℚ) (hsz : size space = .ok sz) :
    populate env draw st space minSize minDensity =
      if int32 (max (int32 minSize) (doubleToInt env ⌈minDensity * sz⌉)
          - (st.samples.length : Int)) ≤ 0 then .ok st
      else .ok (populateLoop env.eval (env.getUniformSamples draw space
        (int32 (max (int32 minSize) (doubleToInt env ⌈minDensity * sz⌉)
          - (st.samples.length : Int))).toNat) st) := by
  unfold populate
  rw [hsz]

theorem splitEntry_lt_iff (e other : SplitEntry) :
    e.lt other = true ↔ e.gain < other.gain ∨ (e.gain = other.gain ∧ e.node < other.node) := by
  unfold SplitEntry.lt
  by_cases h : e.gain = other.gain
  · simp [h]
  · simp only [h, if_false, decide_eq_true_eq, false_and, or_false]

theorem splitEntry_lt_trans {a b d : SplitEntry} (hab : a.lt b = true) (hbd : b.lt d = true) :
    a.lt d = true := by
  rw [splitEntry_lt_iff] at *
  rcases hab with h1 | ⟨h1, h1n⟩ <;> rcases hbd with h2 | ⟨h2, h2n⟩
  · exact Or.inl (lt_trans h1 h2)
  · exact Or.inl (h2 ▸ h1)
  · exact Or.inl (h1 ▸ h2)
  · exact Or.inr ⟨h1.trans h2, Nat.lt_trans h1n h2n⟩

theorem splitEntry_gain_le_of_lt {a b : SplitEntry} (hab : a.lt b = true) : a.gain ≤ b.gain := by
  rw [splitEntry_lt_iff] at hab
  rcases hab with h | ⟨h, _⟩
  · exact h.le
  · exact h.le

theorem mem_setInsert {e y : SplitEntry} {l : List SplitEntry} (h : y ∈ setInsert e l) :
    y = e ∨ y ∈ l := by
  induction l with
  | nil => simpa [setInsert] using h
  | cons x xs ih =>
    unfold setInsert at h
    split at h
    · rcases List.mem_cons.mp h with h1 | h1
      · exact Or.inl h1
      · exact Or.inr h1
    · split at h
      · rcases List.mem_cons.mp h with h1 | h1
        · exact Or.inr (h1 ▸ List.mem_cons_self _ _)
        · rcases ih h1 with h2 | h2
          · exact Or.inl h2
          · exact Or.inr (List.mem_cons_of_mem _ h2)
      · exact Or.inr h

/-- Inserting in the set either adds the entry or leaves the set as it is. -/
theorem setInsert_perm (e : SplitEntry) (l : List SplitEntry) :
    (setInsert e l).Perm (e :: l) ∨ setInsert e l = l := by
  induction l with
  | nil => left; simp [setInsert]
  | cons x xs ih =>
    unfold setInsert
    split
    · left; exact List.Perm.refl _
    · split
      · rcases ih with h | h
        · left
          exact (List.Perm.cons x h).trans (List.Perm.swap e x xs)
        · right; rw [h]
      · right; rfl

/-- The set stays in ascending order of `operator<` under insertion. -/
theorem setInsert_sorted (e : SplitEntry) (l : List SplitEntry)
    (hs : l.Pairwise (fun a b => a.lt b = true)) :
    (setInsert e l).Pairwise (fun a b => a.lt b = true) := by
  induction l with
  | nil => simp [setInsert]
  | cons x xs ih =>
    rw [List.pairwise_cons] at hs
    unfold setInsert
    split
    · rename_i hex
      refine List.Pairwise.cons ?_ (List.Pairwise.cons hs.1 hs.2)
      intro y hy
      rcases List.mem_cons.mp hy with rfl | hy
      · exact hex
      · exact splitEntry_lt_trans hex (hs.1 y hy)
    · split
      · rename_i hxe
        refine List.Pairwise.cons ?_ (ih hs.2)
        intro y hy
        rcases mem_setInsert hy with rfl | hy
        · exact hxe
        · exact hs.1 y hy
      · exact List.Pairwise.cons hs.1 hs.2

/-- The last element of an ascending set is above all the others. -/
theorem last_is_max (l : List SplitEntry) (entry : SplitEntry)
    (hs : l.Pairwise (fun a b => a.lt b = true)) (hlast : l.getLast? = some entry) :
    ∀ x ∈ l.dropLast, x.lt entry = true := by
  have hl : l = l.dropLast ++ [entry] := (List.dropLast_append_getLast? entry hlast).symm
  rw [hl, List.pairwise_append] at hs
  intro x hx
  exact hs.2.2 x hx entry (List.mem_singleton.mpr rfl)

theorem mem_of_getLast? {l : List SplitEntry} {entry : SplitEntry}
    (hlast : l.getLast? = some entry) : entry ∈ l :=
  List.mem_of_getLast?_eq_some hlast

/-! ## The grower: what `treat` changes -/

theorem getBestSplitEntry_node (env : Env) (draw node : Nat) (ts : TrainingSet) (samples : Subset)
    (space : MatrixXd) (k nMin : Int) (apprType : ApproximationType) (e : SplitEntry)
    (h : getBestSplitEntry env draw node ts samples space k nMin apprType = .ok e) :
    e.node = node := by
  unfold getBestSplitEntry at h
  repeat' split at h
  all_goals first
    | (cases h; rfl)
    | cases h

theorem treat_populate_error (env : Env) (c : BB2TreeConfig) (node : Nat) (m : Machine)
    (samples : Subset) (space : MatrixXd) (e : Exn)
    (hp : populate env m.draws ⟨m.ts, samples, m.evalLog⟩ space (2 * c.nMin) c.minDensity
      = .error e) :
    treat env c node m samples space = (m, .error e) := by
  unfold treat
  rw [hp]

theorem treat_gain_error (env : Env) (c : BB2TreeConfig) (node : Nat) (m : Machine)
    (samples : Subset) (space : MatrixXd) (p : Populated) (e : Exn)
    (hp : populate env m.draws ⟨m.ts, samples, m.evalLog⟩ space (2 * c.nMin) c.minDensity = .ok p)
    (hg : potentialGain env p.ts p.samples (getApproximation p.ts p.samples c.apprType) space
      = .error e) :
    treat env c node m samples space = (treatFitted c node m p, .error e) := by
  unfold treat
  rw [hp]
  simp only [hg]
  rfl

theorem treat_low_gain (env : Env) (c : BB2TreeConfig) (node : Nat) (m : Machine)
    (samples : Subset) (space : MatrixXd) (p : Populated) (g : Option ℚ)
    (hp : populate env m.draws ⟨m.ts, samples, m.evalLog⟩ space (2 * c.nMin) c.minDensity = .ok p)
    (hg : potentialGain env p.ts p.samples (getApproximation p.ts p.samples c.apprType) space
      = .ok g)
    (hlow : gainReached c g = false) :
    treat env c node m samples space = (treatFitted c node m p, .ok ()) := by
  unfold treat
  rw [hp]
  simp only [hg]
  unfold gainReached at hlow
  rw [if_neg (by rw [hlow]; simp)]
  rfl

theorem treat_split_found (env : Env) (c : BB2TreeConfig) (node : Nat) (m : Machine)
    (samples : Subset) (space : MatrixXd) (p : Populated) (g : Option ℚ) (entry : SplitEntry)
    (hp : populate env m.draws ⟨m.ts, samples, m.evalLog⟩ space (2 * c.nMin) c.minDensity = .ok p)
    (hg : potentialGain env p.ts p.samples (getApproximation p.ts p.samples c.apprType) space
      = .ok g)
    (hhigh : gainReached c g = true)
    (hb : getBestSplitEntry env (m.draws + 1) node p.ts p.samples space c.k c.nMin c.apprType
      = .ok entry) :
    treat env c node m samples space
      = ({ treatFitted c node m p with
            splitCandidates := setInsert entry m.splitCandidates }, .ok ()) := by
  unfold treat
  rw [hp]
  simp only [hg]
  unfold gainReached at hhigh
  rw [if_pos hhigh]
  simp only [hb]
  rfl

theorem treat_split_error (env : Env) (c : BB2TreeConfig) (node : Nat) (m : Machine)
    (samples : Subset) (space : MatrixXd) (p : Populated) (g : Option ℚ) (e : Exn)
    (hp : populate env m.draws ⟨m.ts, samples, m.evalLog⟩ space (2 * c.nMin) c.minDensity = .ok p)
    (hg : potentialGain env p.ts p.samples (getApproximation p.ts p.samples c.apprType) space
      = .ok g)
    (hhigh : gainReached c g = true)
    (hb : getBestSplitEntry env (m.draws + 1) node p.ts p.samples space c.k c.nMin c.apprType
      = .error e) :
    treat env c node m samples space
      = (treatFitted c node m p,
          match e with
          | .runtime_error _ => .ok ()
          | e => .error e) := by
  unfold treat
  rw [hp]
  simp only [hg]
  unfold gainReached at hhigh
  rw [if_pos hhigh]
  simp only [hb]
  cases e <;> rfl

/-- The call `treat(node, ...)` changes no node but the approximation of `node`, and changes the
pending set by at most the insertion of one entry for `node`. -/
theorem treat_effect (env : Env) (c : BB2TreeConfig) (node : Nat) (m : Machine) (samples : Subset)
    (space : MatrixXd) :
    ((treat env c node m samples space).1.nodes = m.nodes
        ∨ ∃ a, (treat env c node m samples space).1.nodes = setApproximation m.nodes node a)
      ∧ ((treat env c node m samples space).1.splitCandidates = m.splitCandidates
        ∨ ∃ e, e.node = node
            ∧ (treat env c node m samples space).1.splitCandidates
                = setInsert e m.splitCandidates) := by
  cases hp : populate env m.draws ⟨m.ts, samples, m.evalLog⟩ space (2 * c.nMin) c.minDensity with
  | error e =>
    rw [treat_populate_error env c node m samples space e hp]
    exact ⟨Or.inl rfl, Or.inl rfl⟩
  | ok p =>
    cases hg : potentialGain env p.ts p.samples (getApproximation p.ts p.samples c.apprType)
        space with
    | error e =>
      rw [treat_gain_error env c node m samples space p e hp hg]
      exact ⟨Or.inr ⟨_, rfl⟩, Or.inl rfl⟩
    | ok g =>
      cases hr : gainReached c g with
      | false =>
        rw [treat_low_gain env c node m samples space p g hp hg hr]
        exact ⟨Or.inr ⟨_, rfl⟩, Or.inl rfl⟩
      | true =>
        cases hb : getBestSplitEntry env (m.draws + 1) node p.ts p.samples space c.k c.nMin
            c.apprType with
        | error e =>
          rw [treat_split_error env c node m samples space p g e hp hg hr hb]
          exact ⟨Or.inr ⟨_, rfl⟩, Or.inl rfl⟩
        | ok entry =>
          rw [treat_split_found env c node m samples space p g entry hp hg hr hb]
          exact ⟨Or.inr ⟨_, rfl⟩,
            Or.inr ⟨entry, getBestSplitEntry_node _ _ _ _ _ _ _ _ _ _ hb, rfl⟩⟩

/-! ## The tree held by a heap: theorems -/

theorem Shape.depth_pos (t : Shape) : 1 ≤ t.depth := by
  cases t <;> simp [Shape.depth]

theorem Shape.depth_le_ptrs (t : Shape) : t.depth ≤ t.ptrs.length := by
  induction t with
  | leaf p => simp [Shape.depth, Shape.ptrs]
  | inner p l u ihl ihu =>
    simp only [Shape.depth, Shape.ptrs, List.length_cons, List.length_append]
    omega

theorem Shape.leafPtrs_subset (t : Shape) : ∀ x ∈ t.leafPtrs, x ∈ t.ptrs := by
  induction t with
  | leaf p => simp [Shape.leafPtrs, Shape.ptrs]
  | inner p l u ihl ihu =>
    intro x hx
    simp only [Shape.leafPtrs, List.mem_append] at hx
    simp only [Shape.ptrs, List.mem_cons, List.mem_append]
    rcases hx with h | h
    · exact Or.inr (Or.inl (ihl x h))
    · exact Or.inr (Or.inr (ihu x h))

theorem Shape.leafPtrs_nodup (t : Shape) (h : t.ptrs.Nodup) : t.leafPtrs.Nodup := by
  induction t with
  | leaf p => simp [Shape.leafPtrs]
  | inner p l u ihl ihu =>
    simp only [Shape.ptrs, List.nodup_cons, List.nodup_append] at h
    simp only [Shape.leafPtrs, List.nodup_append]
    refine ⟨ihl h.2.1, ihu h.2.2.1, ?_⟩
    intro x hxl hxu
    exact h.2.2.2 (Shape.leafPtrs_subset l x hxl) (Shape.leafPtrs_subset u x hxu)

theorem Shape.root_mem_ptrs (t : Shape) : t.root ∈ t.ptrs := by
  cases t <;> simp [Shape.root, Shape.ptrs]

theorem Shape.graft_root (q lo up : Nat) (t : Shape) : (t.graft q lo up).root = t.root := by
  cases t with
  | leaf p =>
    simp only [Shape.graft]
    split <;> rfl
  | inner p l u => rfl

theorem Shape.graft_of_not_mem (q lo up : Nat) (t : Shape) (h : q ∉ t.leafPtrs) :
    t.graft q lo up = t := by
  induction t with
  | leaf p =>
    simp only [Shape.leafPtrs, List.mem_singleton] at h
    simp only [Shape.graft]
    rw [if_neg (fun hp => h hp.symm)]
  | inner p l u ihl ihu =>
    simp only [Shape.leafPtrs, List.mem_append, not_or] at h
    simp only [Shape.graft, ihl h.1, ihu h.2]

/-- Every pointer of a shape held by a heap is inside the heap. -/
theorem Represents.ptr_lt {nodes : List RegressionNode} {t : Shape} (h : Represents nodes t) :
    ∀ p ∈ t.ptrs, p < nodes.length := by
  induction t with
  | leaf p =>
    intro x hx
    simp only [Shape.ptrs, List.mem_singleton] at hx
    subst hx
    obtain ⟨n, hn, _⟩ := h
    exact (List.getElem?_eq_some.mp hn).1
  | inner p l u ihl ihu =>
    intro x hx
    obtain ⟨⟨n, hn, _⟩, hl, hu⟩ := h
    simp only [Shape.ptrs, List.mem_cons, List.mem_append] at hx
    rcases hx with rfl | hx | hx
    · exact (List.getElem?_eq_some.mp hn).1
    · exact ihl hl x hx
    · exact ihu hu x hx

/-- A heap that agrees with another on the children of the nodes of a shape holds that
shape too. -/
theorem Represents.frame {nodes nodes1 : List RegressionNode} {t : Shape}
    (h : Represents nodes t)
    (hsame : ∀ p ∈ t.ptrs, ∀ n, nodes[p]? = some n →
      ∃ n1, nodes1[p]? = some n1 ∧ n1.lowerChild = n.lowerChild ∧ n1.upperChild = n.upperChild) :
    Represents nodes1 t := by
  induction t with
  | leaf p =>
    obtain ⟨n, hn, h1, h2⟩ := h
    obtain ⟨n1, hn1, e1, e2⟩ := hsame p (by simp [Shape.ptrs]) n hn
    exact ⟨n1, hn1, e1.trans h1, e2.trans h2⟩
  | inner p l u ihl ihu =>
    obtain ⟨⟨n, hn, h1, h2⟩, hl, hu⟩ := h
    obtain ⟨n1, hn1, e1, e2⟩ := hsame p (by simp [Shape.ptrs]) n hn
    refine ⟨⟨n1, hn1, e1.trans h1, e2.trans h2⟩, ihl hl ?_, ihu hu ?_⟩
    · intro q hq
      exact hsame q (by simp [Shape.ptrs, hq])
    · intro q hq
      exact hsame q (by simp [Shape.ptrs, hq])

/-- Following the child pointers from the root of a shape held by a heap rebuilds that
shape, as soon as the number of levels allowed reaches its depth. -/
theorem subtree_of_represents {nodes : List RegressionNode} {t : Shape}
    (h : Represents nodes t) : ∀ fuel, t.depth ≤ fuel → subtree nodes fuel t.root = some t := by
  induction t with
  | leaf p =>
    intro fuel hf
    obtain ⟨n, hn, h1, h2⟩ := h
    cases fuel with
    | zero => simp [Shape.depth] at hf
    | succ fuel =>
      show subtree nodes (fuel + 1) p = some (Shape.leaf p)
      simp only [subtree, hn, h1, h2]
  | inner p l u ihl ihu =>
    intro fuel hf
    obtain ⟨⟨n, hn, h1, h2⟩, hl, hu⟩ := h
    cases fuel with
    | zero => simp [Shape.depth] at hf
    | succ fuel =>
      simp only [Shape.depth] at hf
      have hfl : l.depth ≤ fuel := by omega
      have hfu : u.depth ≤ fuel := by omega
      show subtree nodes (fuel + 1) p = some (Shape.inner p l u)
      simp only [subtree, hn, h1, h2, ihl hl fuel hfl, ihu hu fuel hfu]

theorem Shape.mem_ptrs_graft {q lo up x : Nat} {t : Shape} (h : x ∈ (t.graft q lo up).ptrs) :
    x ∈ t.ptrs ∨ (q ∈ t.leafPtrs ∧ (x = lo ∨ x = up)) := by
  induction t with
  | leaf p =>
    simp only [Shape.graft] at h
    split at h
    · rename_i hp
      simp only [Shape.ptrs, List.mem_cons, List.singleton_append, List.mem_singleton,
        List.not_mem_nil, or_false] at h
      rcases h with h | h | h
      · exact Or.inl (by simp [Shape.ptrs, h])
      · exact Or.inr ⟨by simp [Shape.leafPtrs, hp], Or.inl h⟩
      · exact Or.inr ⟨by simp [Shape.leafPtrs, hp], Or.inr h⟩
    · exact Or.inl h
  | inner p l u ihl ihu =>
    simp only [Shape.graft, Shape.ptrs, List.mem_cons, List.mem_append] at h
    simp only [Shape.ptrs, Shape.leafPtrs, List.mem_cons, List.mem_append]
    rcases h with h | h | h
    · exact Or.inl (Or.inl h)
    · rcases ihl h with h1 | ⟨h1, h2⟩
      · exact Or.inl (Or.inr (Or.inl h1))
      · exact Or.inr ⟨Or.inl h1, h2⟩
    · rcases ihu h with h1 | ⟨h1, h2⟩
      · exact Or.inl (Or.inr (Or.inr h1))
      · exact Or.inr ⟨Or.inr h1, h2⟩

theorem Shape.mem_leafPtrs_graft {q lo up x : Nat} {t : Shape}
    (h : x ∈ t.leafPtrs) (hx : x ≠ q) : x ∈ (t.graft q lo up).leafPtrs := by
  induction t with
  | leaf p =>
    simp only [Shape.leafPtrs, List.mem_singleton] at h
    subst h
    simp only [Shape.graft]
    rw [if_neg hx]
    simp [Shape.leafPtrs]
  | inner p l u ihl ihu =>
    simp only [Shape.leafPtrs, List.mem_append] at h
    simp only [Shape.graft, Shape.leafPtrs, List.mem_append]
    rcases h with h | h
    · exact Or.inl (ihl h)
    · exact Or.inr (ihu h)

theorem Shape.new_mem_leafPtrs_graft {q lo up : Nat} {t : Shape} (h : q ∈ t.leafPtrs) :
    lo ∈ (t.graft q lo up).leafPtrs ∧ up ∈ (t.graft q lo up).leafPtrs := by
  induction t with
  | leaf p =>
    simp only [Shape.leafPtrs, List.mem_singleton] at h
    subst h
    simp [Shape.graft, Shape.leafPtrs]
  | inner p l u ihl ihu =>
    simp only [Shape.leafPtrs, List.mem_append] at h
    simp only [Shape.graft, Shape.leafPtrs, List.mem_append]
    rcases h with h | h
    · exact ⟨Or.inl (ihl h).1, Or.inl (ihl h).2⟩
    · exact ⟨Or.inr (ihu h).1, Or.inr (ihu h).2⟩

/-- Grafting two fresh leaves on a leaf adds one leaf to the shape. -/
theorem Shape.leaves_graft {q lo up : Nat} {t : Shape} (hnd : t.ptrs.Nodup)
    (h : q ∈ t.leafPtrs) : (t.graft q lo up).leaves = t.leaves + 1 := by
  induction t with
  | leaf p =>
    simp only [Shape.leafPtrs, List.mem_singleton] at h
    subst h
    simp [Shape.graft, Shape.leaves, Shape.leafPtrs]
  | inner p l u ihl ihu =>
    simp only [Shape.ptrs, List.nodup_cons, List.nodup_append] at hnd
    simp only [Shape.leafPtrs, List.mem_append] at h
    simp only [Shape.leaves, Shape.graft, Shape.leafPtrs, List.length_append] at ihl ihu ⊢
    rcases h with h | h
    · have hu : q ∉ u.leafPtrs := fun hu =>
        hnd.2.2.2 (Shape.leafPtrs_subset l q h) (Shape.leafPtrs_subset u q hu)
      rw [Shape.graft_of_not_mem q lo up u hu, ihl hnd.2.1 h]
      omega
    · have hl : q ∉ l.leafPtrs := fun hl =>
        hnd.2.2.2 (Shape.leafPtrs_subset l q hl) (Shape.leafPtrs_subset u q h)
      rw [Shape.graft_of_not_mem q lo up l hl, ihu hnd.2.2.1 h]
      omega

theorem Shape.ptrs_graft_nodup {q lo up : Nat} {t : Shape} (hnd : t.ptrs.Nodup)
    (hlo : lo ∉ t.ptrs) (hup : up ∉ t.ptrs) (hne : lo ≠ up) :
    (t.graft q lo up).ptrs.Nodup := by
  induction t with
  | leaf p =>
    simp only [Shape.ptrs, List.mem_singleton] at hlo hup
    simp only [Shape.graft]
    split
    · simp only [Shape.ptrs, List.singleton_append, List.nodup_cons, List.mem_cons,
        List.mem_singleton, List.not_mem_nil, not_false_eq_true, List.nodup_nil, and_true,
        not_or]
      exact ⟨⟨fun h => hlo h.symm, fun h => hup h.symm⟩, hne⟩
    · simp [Shape.ptrs]
  | inner p l u ihl ihu =>
    simp only [Shape.ptrs, List.mem_cons, List.mem_append, not_or] at hlo hup
    simp only [Shape.ptrs, List.nodup_cons, List.nodup_append, List.mem_append, not_or] at hnd
    simp only [Shape.graft, Shape.ptrs, List.nodup_cons, List.nodup_append, List.mem_append,
      not_or]
    have hql : q ∈ l.leafPtrs → q ∉ u.leafPtrs := fun h1 h2 =>
      hnd.2.2.2 (Shape.leafPtrs_subset l q h1) (Shape.leafPtrs_subset u q h2)
    refine ⟨⟨?_, ?_⟩, ihl hnd.2.1 hlo.2.1 hup.2.1, ihu hnd.2.2.1 hlo.2.2 hup.2.2, ?_⟩
    · intro h
      rcases Shape.mem_ptrs_graft h with h1 | ⟨_, h2 | h2⟩
      · exact hnd.1.1 h1
      · exact hlo.1 h2.symm
      · exact hup.1 h2.symm
    · intro h
      rcases Shape.mem_ptrs_graft h with h1 | ⟨_, h2 | h2⟩
      · exact hnd.1.2 h1
      · exact hlo.1 h2.symm
      · exact hup.1 h2.symm
    · intro x hxl hxu
      rcases Shape.mem_ptrs_graft hxl with h1 | ⟨hq1, h1⟩
      · rcases Shape.mem_ptrs_graft hxu with h2 | ⟨_, h2 | h2⟩
        · exact hnd.2.2.2 h1 h2
        · exact hlo.2.1 (h2 ▸ h1)
        · exact hup.2.1 (h2 ▸ h1)
      · rcases Shape.mem_ptrs_graft hxu with h2 | ⟨hq2, _⟩
        · rcases h1 with h1 | h1
          · exact hlo.2.2 (h1 ▸ h2)
          · exact hup.2.2 (h1 ▸ h2)
        · exact hql hq1 hq2

/-! ## The heap under `treat` and under a commit -/

theorem represents_setApproximation {nodes : List RegressionNode} {t : Shape} (node : Nat)
    (a : Option Approximation) (h : Represents nodes t) :
    Represents (setApproximation nodes node a) t := by
  apply h.frame
  intro p _ n hn
  unfold setApproximation
  rw [List.getElem?_modify, hn]
  by_cases hp : node = p
  · exact ⟨{ n with a := a }, by simp only [hp, if_true, Option.map_eq_map, Option.map_some'],
      rfl, rfl⟩
  · exact ⟨n, by simp only [hp, if_false, Option.map_eq_map, Option.map_some'], rfl, rfl⟩

theorem commitSplit_getElem?_other (nodes : List RegressionNode) (entry : SplitEntry) (p : Nat)
    (hlt : p < nodes.length) (hne : p ≠ entry.node) :
    (commitSplit nodes entry)[p]? = nodes[p]? := by
  unfold commitSplit
  rw [List.getElem?_append_left (by simpa using hlt), List.getElem?_modify_ne _ _ (Ne.symm hne)]

theorem commitSplit_getElem?_node (nodes : List RegressionNode) (entry : SplitEntry)
    (n : RegressionNode) (hn : nodes[entry.node]? = some n) :
    (commitSplit nodes entry)[entry.node]?
      = some { n with a := none, s := entry.split, lowerChild := some nodes.length
                      upperChild := some (nodes.length + 1) } := by
  have hlt : entry.node < nodes.length := (List.getElem?_eq_some.mp hn).1
  unfold commitSplit
  rw [List.getElem?_append_left (by simpa using hlt), List.getElem?_modify_eq, hn]
  rfl

theorem commitSplit_getElem?_lower (nodes : List RegressionNode) (entry : SplitEntry) :
    (commitSplit nodes entry)[nodes.length]? = some RegressionNode.new := by
  unfold commitSplit
  rw [List.getElem?_append_right (by simp)]
  simp

theorem commitSplit_getElem?_upper (nodes : List RegressionNode) (entry : SplitEntry) :
    (commitSplit nodes entry)[nodes.length + 1]? = some RegressionNode.new := by
  unfold commitSplit
  rw [List.getElem?_append_right (by simp)]
  simp

theorem commitSplit_length (nodes : List RegressionNode) (entry : SplitEntry) :
    (commitSplit nodes entry).length = nodes.length + 2 := by
  simp [commitSplit]

/-- Committing the split of a leaf turns the shape held by the heap into the shape grafted
at that leaf with the two freshly allocated children. -/
theorem represents_commitSplit {nodes : List RegressionNode} {t : Shape} (entry : SplitEntry)
    (h : Represents nodes t) (hnd : t.ptrs.Nodup) (hq : entry.node ∈ t.leafPtrs) :
    Represents (commitSplit nodes entry)
      (t.graft entry.node nodes.length (nodes.length + 1)) := by
  induction t with
  | leaf p =>
    simp only [Shape.leafPtrs, List.mem_singleton] at hq
    obtain ⟨n, hn, _, _⟩ := h
    subst hq
    simp only [Shape.graft, if_true]
    refine ⟨⟨_, commitSplit_getElem?_node nodes entry n hn, rfl, rfl⟩, ?_, ?_⟩
    · exact ⟨_, commitSplit_getElem?_lower nodes entry, rfl, rfl⟩
    · exact ⟨_, commitSplit_getElem?_upper nodes entry, rfl, rfl⟩
  | inner p l u ihl ihu =>
    have hlt := h.ptr_lt
    obtain ⟨⟨n, hn, h1, h2⟩, hl, hu⟩ := h
    simp only [Shape.ptrs, List.nodup_cons, List.nodup_append, List.mem_append, not_or] at hnd
    simp only [Shape.leafPtrs, List.mem_append] at hq
    have hpne : p ≠ entry.node := by
      rintro rfl
      rcases hq with hq | hq
      · exact hnd.1.1 (Shape.leafPtrs_subset l _ hq)
      · exact hnd.1.2 (Shape.leafPtrs_subset u _ hq)
    have hp : (commitSplit nodes entry)[p]? = some n := by
      rw [commitSplit_getElem?_other nodes entry p (hlt p (by simp [Shape.ptrs])) hpne, hn]
    have keep : ∀ s : Shape, Represents nodes s → entry.node ∉ s.ptrs →
        Represents (commitSplit nodes entry) s := by
      intro s hs hnot
      apply hs.frame
      intro x hx m hm
      have hxne : x ≠ entry.node := fun hxe => hnot (hxe ▸ hx)
      exact ⟨m, by rw [commitSplit_getElem?_other nodes entry x (hs.ptr_lt x hx) hxne, hm],
        rfl, rfl⟩
    simp only [Shape.graft]
    refine ⟨⟨n, hp, ?_, ?_⟩, ?_, ?_⟩
    · rw [Shape.graft_root]; exact h1
    · rw [Shape.graft_root]; exact h2
    · by_cases hql : entry.node ∈ l.leafPtrs
      · exact ihl hl hnd.2.1 hql
      · rw [Shape.graft_of_not_mem _ _ _ l hql]
        apply keep l hl
        intro hmem
        rcases hq with hq | hq
        · exact hql hq
        · exact hnd.2.2.2 hmem (Shape.leafPtrs_subset u _ hq)
    · by_cases hqu : entry.node ∈ u.leafPtrs
      · exact ihu hu hnd.2.2.1 hqu
      · rw [Shape.graft_of_not_mem _ _ _ u hqu]
        apply keep u hu
        intro hmem
        rcases hq with hq | hq
        · exact hnd.2.2.2 (Shape.leafPtrs_subset l _ hq) hmem
        · exact hqu hq

theorem Shape.mem_ptrs_graft_of_mem {q lo up x : Nat} {t : Shape} (h : x ∈ t.ptrs) :
    x ∈ (t.graft q lo up).ptrs := by
  induction t with
  | leaf p =>
    simp only [Shape.ptrs, List.mem_singleton] at h
    subst h
    simp only [Shape.graft]
    split <;> simp [Shape.ptrs]
  | inner p l u ihl ihu =>
    simp only [Shape.ptrs, List.mem_cons, List.mem_append] at h
    simp only [Shape.graft, Shape.ptrs, List.mem_cons, List.mem_append]
    rcases h with h | h | h
    · exact Or.inl h
    · exact Or.inr (Or.inl (ihl h))
    · exact Or.inr (Or.inr (ihu h))

/-- One iteration ends in the state left by `treat` on the lower child or in the state left
by `treat` on the upper child. -/
theorem bb2Step_cases (env : Env) (c : BB2TreeConfig) (m : Machine) (entry : SplitEntry) :
    (∃ r, bb2Step env c m entry = ((treatLower env c m entry).1, r)
        ∧ ∃ e, (treatLower env c m entry).2 = .error e)
      ∨ (∃ r, bb2Step env c m entry = ((treatUpper env c m entry).1, r)
        ∧ (treatLower env c m entry).2 = .ok ()) := by
  unfold bb2Step treatUpper
  have hL : treat env c m.nodes.length
      { m with nodes := commitSplit m.nodes entry, splitCandidates := m.splitCandidates.dropLast }
      (m.ts.applySplit entry.split entry.samples).1
      (entry.space.set entry.split.dim 1 entry.split.val) = treatLower env c m entry := rfl
  simp only [hL]
  rcases treatLower env c m entry with ⟨m1, r1⟩
  rcases r1 with e | u
  · left
    cases e <;> exact ⟨_, rfl, _, rfl⟩
  · right
    cases u
    simp only []
    rcases treat env c (m.nodes.length + 1) m1 (m.ts.applySplit entry.split entry.samples).2
      (entry.space.set entry.split.dim 0 entry.split.val) with ⟨m2, r2⟩
    rcases r2 with e | u
    · cases e <;> exact ⟨_, rfl, trivial⟩
    · cases u
      exact ⟨_, rfl, trivial⟩

theorem treat_nodes_length (env : Env) (c : BB2TreeConfig) (node : Nat) (m : Machine)
    (samples : Subset) (space : MatrixXd) :
    (treat env c node m samples space).1.nodes.length = m.nodes.length := by
  rcases (treat_effect env c node m samples space).1 with h | ⟨a, h⟩
  · rw [h]
  · rw [h]; simp [setApproximation]

theorem treat_candidates_mem (env : Env) (c : BB2TreeConfig) (node : Nat) (m : Machine)
    (samples : Subset) (space : MatrixXd) :
    ∀ e ∈ (treat env c node m samples space).1.splitCandidates,
      e ∈ m.splitCandidates ∨ e.node = node := by
  intro e he
  rcases (treat_effect env c node m samples space).2 with h | ⟨e1, hnode, h⟩
  · rw [h] at he; exact Or.inl he
  · rw [h] at he
    rcases mem_setInsert he with rfl | h2
    · exact Or.inr hnode
    · exact Or.inl h2

theorem treat_sorted (env : Env) (c : BB2TreeConfig) (node : Nat) (m : Machine)
    (samples : Subset) (space : MatrixXd)
    (hs : m.splitCandidates.Pairwise (fun a b => a.lt b = true)) :
    (treat env c node m samples space).1.splitCandidates.Pairwise
      (fun a b => a.lt b = true) := by
  rcases (treat_effect env c node m samples space).2 with h | ⟨e1, _, h⟩
  · rw [h]; exact hs
  · rw [h]; exact setInsert_sorted e1 _ hs

/-- The call `treat(node, ...)` on a leaf that has no pending entry keeps the invariant. -/
theorem treat_treeInv (env : Env) (c : BB2TreeConfig) (node : Nat) (m : Machine)
    (samples : Subset) (space : MatrixXd) (t : Shape) (h : TreeInv m t)
    (hnode : node ∈ t.leafPtrs) (hfresh : ∀ e ∈ m.splitCandidates, e.node ≠ node) :
    TreeInv (treat env c node m samples space).1 t := by
  obtain ⟨hrep, hroot, hnd, hcover, hmem, hdistinct⟩ := h
  refine ⟨?_, hroot, hnd, ?_, ?_, ?_⟩
  · rcases (treat_effect env c node m samples space).1 with h | ⟨a, h⟩
    · rw [h]; exact hrep
    · rw [h]; exact represents_setApproximation node a hrep
  · rw [treat_nodes_length]; exact hcover
  · intro e he
    rcases treat_candidates_mem env c node m samples space e he with h1 | h1
    · exact hmem e h1
    · rw [h1]; exact hnode
  · rcases (treat_effect env c node m samples space).2 with h | ⟨e1, hn1, h⟩
    · rw [h]; exact hdistinct
    · rw [h]
      rcases setInsert_perm e1 m.splitCandidates with hp | hp
      · refine (List.Perm.nodup_iff (List.Perm.map _ hp)).mpr ?_
        simp only [List.map_cons, List.nodup_cons]
        refine ⟨?_, hdistinct⟩
        intro hin
        obtain ⟨e2, he2, heq⟩ := List.mem_map.mp hin
        exact hfresh e2 he2 (heq.trans hn1)
      · rw [hp]; exact hdistinct

/-- Erasing the best entry and attaching two fresh children to its node keeps the
invariant, for the grafted shape; the remaining entries point to older nodes. -/
theorem commitState_treeInv (m : Machine) (entry : SplitEntry) (t : Shape) (h : TreeInv m t)
    (hlast : m.splitCandidates.getLast? = some entry) :
    TreeInv (commitState m entry) (t.graft entry.node m.nodes.length (m.nodes.length + 1))
      ∧ entry.node ∈ t.leafPtrs
      ∧ (∀ e ∈ (commitState m entry).splitCandidates, e.node < m.nodes.length) := by
  obtain ⟨hrep, hroot, hnd, hcover, hmem, hdistinct⟩ := h
  have hentry : entry.node ∈ t.leafPtrs := hmem entry (mem_of_getLast? hlast)
  have hl : m.splitCandidates = m.splitCandidates.dropLast ++ [entry] :=
    (List.dropLast_append_getLast? entry hlast).symm
  have hlt := hrep.ptr_lt
  have hfreshLo : m.nodes.length ∉ t.ptrs := fun hin => Nat.lt_irrefl _ (hlt _ hin)
  have hfreshUp : m.nodes.length + 1 ∉ t.ptrs := fun hin => by
    have := hlt _ hin
    omega
  rw [hl, List.map_append, List.nodup_append] at hdistinct
  refine ⟨⟨?_, ?_, ?_, ?_, ?_, ?_⟩, hentry, ?_⟩
  · exact represents_commitSplit entry hrep hnd hentry
  · rw [Shape.graft_root]; exact hroot
  · exact Shape.ptrs_graft_nodup hnd hfreshLo hfreshUp (by omega)
  · intro p hp
    have hp2 : p < m.nodes.length + 2 := by
      simpa [commitState, commitSplit_length] using hp
    rcases Nat.lt_or_ge p m.nodes.length with h1 | h1
    · exact Shape.mem_ptrs_graft_of_mem (hcover p h1)
    · have hnew : m.nodes.length
            ∈ (t.graft entry.node m.nodes.length (m.nodes.length + 1)).leafPtrs
          ∧ m.nodes.length + 1
            ∈ (t.graft entry.node m.nodes.length (m.nodes.length + 1)).leafPtrs :=
        Shape.new_mem_leafPtrs_graft hentry
      rcases Nat.eq_or_lt_of_le h1 with h2 | h2
      · rw [← h2]; exact Shape.leafPtrs_subset _ _ hnew.1
      · have : p = m.nodes.length + 1 := by omega
        rw [this]; exact Shape.leafPtrs_subset _ _ hnew.2
  · intro e he
    have he1 : e ∈ m.splitCandidates := List.dropLast_subset _ he
    apply Shape.mem_leafPtrs_graft (hmem e he1)
    intro heq
    exact hdistinct.2.2 (List.mem_map.mpr ⟨e, he, heq⟩) (by simp)
  · exact hdistinct.1
  · intro e he
    have he1 : e ∈ m.splitCandidates := List.dropLast_subset _ he
    exact hlt _ (Shape.leafPtrs_subset t _ (hmem e he1))

/-- One iteration of the main loop keeps the invariant, for the shape grafted at the node
of the committed entry. -/
theorem bb2Step_treeInv (env : Env) (c : BB2TreeConfig) (m : Machine) (entry : SplitEntry)
    (t : Shape) (h : TreeInv m t) (hlast : m.splitCandidates.getLast? = some entry) :
    TreeInv (bb2Step env c m entry).1
      (t.graft entry.node m.nodes.length (m.nodes.length + 1)) := by
  obtain ⟨h0, hentry, hold⟩ := commitState_treeInv m entry t h hlast
  have hnew : m.nodes.length
        ∈ (t.graft entry.node m.nodes.length (m.nodes.length + 1)).leafPtrs
      ∧ m.nodes.length + 1
        ∈ (t.graft entry.node m.nodes.length (m.nodes.length + 1)).leafPtrs :=
    Shape.new_mem_leafPtrs_graft hentry
  have hLower : TreeInv (treatLower env c m entry).1
      (t.graft entry.node m.nodes.length (m.nodes.length + 1)) := by
    apply treat_treeInv _ _ _ _ _ _ _ h0 hnew.1
    intro e he
    exact Nat.ne_of_lt (hold e he)
  have hUpper : TreeInv (treatUpper env c m entry).1
      (t.graft entry.node m.nodes.length (m.nodes.length + 1)) := by
    apply treat_treeInv _ _ _ _ _ _ _ hLower hnew.2
    intro e he
    rcases treat_candidates_mem _ _ _ _ _ _ e he with h1 | h1
    · exact Nat.ne_of_lt (Nat.lt_succ_of_lt (hold e h1))
    · rw [h1]; omega
  rcases bb2Step_cases env c m entry with ⟨r, hr, _⟩ | ⟨r, hr, _⟩
  · rw [hr]; exact hLower
  · rw [hr]; exact hUpper

theorem bb2Step_sorted (env : Env) (c : BB2TreeConfig) (m : Machine) (entry : SplitEntry)
    (hs : m.splitCandidates.Pairwise (fun a b => a.lt b = true)) :
    (bb2Step env c m entry).1.splitCandidates.Pairwise (fun a b => a.lt b = true) := by
  have h0 : (commitState m entry).splitCandidates.Pairwise (fun a b => a.lt b = true) :=
    List.Pairwise.sublist (List.dropLast_sublist _) hs
  have hLower := treat_sorted env c m.nodes.length (commitState m entry)
    (m.ts.applySplit entry.split entry.samples).1
    (entry.space.set entry.split.dim 1 entry.split.val) h0
  have hUpper := treat_sorted env c (m.nodes.length + 1) (treatLower env c m entry).1
    (m.ts.applySplit entry.split entry.samples).2
    (entry.space.set entry.split.dim 0 entry.split.val) hLower
  rcases bb2Step_cases env c m entry with ⟨r, hr, _⟩ | ⟨r, hr, _⟩
  · rw [hr]; exact hLower
  · rw [hr]; exact hUpper

/-! ## The main loop -/

theorem bb2Loop_exit (env : Env) (c : BB2TreeConfig) (fuel : Nat) (st : LoopState)
    (h : st.m.splitCandidates.getLast? = none ∨ ¬ st.nbLeafs < c.maxLeafs) :
    bb2Loop env c fuel st = some (st, .ok ()) := by
  unfold bb2Loop
  rcases h with h | h
  · rw [h]
  · have : decide (st.nbLeafs < c.maxLeafs) = false := decide_eq_false h
    rw [this]
    cases st.m.splitCandidates.getLast? <;> rfl

theorem bb2Loop_iterate (env : Env) (c : BB2TreeConfig) (fuel : Nat) (st : LoopState)
    (entry : SplitEntry) (hlast : st.m.splitCandidates.getLast? = some entry)
    (hlt : st.nbLeafs < c.maxLeafs) :
    bb2Loop env c (fuel + 1) st =
      match bb2Step env c st.m entry with
      | (m1, .error e) =>
        some ({ st with m := m1
                        commits := st.commits ++ [(entry, st.m.splitCandidates.dropLast)] },
              .error e)
      | (m1, .ok ()) =>
        bb2Loop env c fuel
          { m := m1, nbLeafs := st.nbLeafs + 1
            commits := st.commits ++ [(entry, st.m.splitCandidates.dropLast)] } := by
  rw [bb2Loop]
  have : decide (st.nbLeafs < c.maxLeafs) = true := decide_eq_true hlt
  rw [hlast, this]

/-- The bound on the iterations is never reached: `maxLeafs - nbLeafs` iterations are
enough for the loop to end. -/
theorem bb2Loop_total (env : Env) (c : BB2TreeConfig) :
    ∀ (fuel : Nat) (st : LoopState), c.maxLeafs ≤ fuel + st.nbLeafs →
      ∃ r, bb2Loop env c fuel st = some r := by
  intro fuel
  induction fuel with
  | zero =>
    intro st h
    exact ⟨_, bb2Loop_exit env c 0 st (Or.inr (by omega))⟩
  | succ fuel ih =>
    intro st h
    by_cases hlt : st.nbLeafs < c.maxLeafs
    · cases hlast : st.m.splitCandidates.getLast? with
      | none => exact ⟨_, bb2Loop_exit env c _ st (Or.inl hlast)⟩
      | some entry =>
        rw [bb2Loop_iterate env c fuel st entry hlast hlt]
        rcases bb2Step env c st.m entry with ⟨m1, r1⟩
        rcases r1 with e | u
        · exact ⟨_, rfl⟩
        · cases u
          exact ih _ (by simp only []; omega)
    · exact ⟨_, bb2Loop_exit env c _ st (Or.inr hlt)⟩

/-- A property of the loop state that every iteration keeps, whether it ends normally or
by an exception, holds when the loop is left. -/
theorem bb2Loop_invariant (env : Env) (c : BB2TreeConfig) (P : LoopState → Prop)
    (hok : ∀ st entry m1, P st → st.m.splitCandidates.getLast? = some entry →
      st.nbLeafs < c.maxLeafs → bb2Step env c st.m entry = (m1, .ok ()) →
      P { m := m1, nbLeafs := st.nbLeafs + 1
          commits := st.commits ++ [(entry, st.m.splitCandidates.dropLast)] })
    (herr : ∀ st entry m1 e, P st → st.m.splitCandidates.getLast? = some entry →
      st.nbLeafs < c.maxLeafs → bb2Step env c st.m entry = (m1, .error e) →
      P { st with m := m1
                  commits := st.commits ++ [(entry, st.m.splitCandidates.dropLast)] }) :
    ∀ (fuel : Nat) (st st1 : LoopState) (r : Except Exn Unit), P st →
      bb2Loop env c fuel st = some (st1, r) → P st1 := by
  intro fuel
  induction fuel with
  | zero =>
    intro st st1 r hP h
    by_cases hlt : st.nbLeafs < c.maxLeafs
    · cases hlast : st.m.splitCandidates.getLast? with
      | none =>
        rw [bb2Loop_exit env c _ st (Or.inl hlast)] at h
        cases h; exact hP
      | some entry =>
        unfold bb2Loop at h
        rw [hlast, decide_eq_true hlt] at h
        cases h
    · rw [bb2Loop_exit env c _ st (Or.inr hlt)] at h
      cases h; exact hP
  | succ fuel ih =>
    intro st st1 r hP h
    by_cases hlt : st.nbLeafs < c.maxLeafs
    · cases hlast : st.m.splitCandidates.getLast? with
      | none =>
        rw [bb2Loop_exit env c _ st (Or.inl hlast)] at h
        cases h; exact hP
      | some entry =>
        rw [bb2Loop_iterate env c fuel st entry hlast hlt] at h
        rcases hstep : bb2Step env c st.m entry with ⟨m1, r1⟩
        rw [hstep] at h
        rcases r1 with e | u
        · simp only [Option.some.injEq, Prod.mk.injEq] at h
          rw [← h.1]
          exact herr st entry m1 e hP hlast hlt hstep
        · cases u
          exact ih _ st1 r (hok st entry m1 hP hlast hlt hstep) h
    · rw [bb2Loop_exit env c _ st (Or.inr hlt)] at h
      cases h; exact hP

/-- A property that every iteration ending normally keeps holds when the loop returns. -/
theorem bb2Loop_invariant_ok (env : Env) (c : BB2TreeConfig) (P : LoopState → Prop)
    (hok : ∀ st entry m1, P st → st.m.splitCandidates.getLast? = some entry →
      st.nbLeafs < c.maxLeafs → bb2Step env c st.m entry = (m1, .ok ()) →
      P { m := m1, nbLeafs := st.nbLeafs + 1
          commits := st.commits ++ [(entry, st.m.splitCandidates.dropLast)] }) :
    ∀ (fuel : Nat) (st st1 : LoopState), P st →
      bb2Loop env c fuel st = some (st1, .ok ()) →
      P st1 ∧ (st1.m.splitCandidates = [] ∨ ¬ st1.nbLeafs < c.maxLeafs) := by
  intro fuel
  induction fuel with
  | zero =>
    intro st st1 hP h
    by_cases hlt : st.nbLeafs < c.maxLeafs
    · cases hlast : st.m.splitCandidates.getLast? with
      | none =>
        rw [bb2Loop_exit env c _ st (Or.inl hlast)] at h
        cases h
        exact ⟨hP, Or.inl (List.getLast?_eq_none_iff.mp hlast)⟩
      | some entry =>
        unfold bb2Loop at h
        rw [hlast, decide_eq_true hlt] at h
        cases h
    · rw [bb2Loop_exit env c _ st (Or.inr hlt)] at h
      cases h; exact ⟨hP, Or.inr hlt⟩
  | succ fuel ih =>
    intro st st1 hP h
    by_cases hlt : st.nbLeafs < c.maxLeafs
    · cases hlast : st.m.splitCandidates.getLast? with
      | none =>
        rw [bb2Loop_exit env c _ st (Or.inl hlast)] at h
        cases h
        exact ⟨hP, Or.inl (List.getLast?_eq_none_iff.mp hlast)⟩
      | some entry =>
        rw [bb2Loop_iterate env c fuel st entry hlast hlt] at h
        rcases hstep : bb2Step env c st.m entry with ⟨m1, r1⟩
        rw [hstep] at h
        rcases r1 with e | u
        · simp only [Option.some.injEq, Prod.mk.injEq] at h
          exact absurd h.2 (by simp)
        · cases u
          exact ih _ st1 (hok st entry m1 hP hlast hlt hstep) h
    · rw [bb2Loop_exit env c _ st (Or.inr hlt)] at h
      cases h; exact ⟨hP, Or.inr hlt⟩

/-! ## `bb2Tree` -/

theorem bb2Tree_eq (env : Env) (c : BB2TreeConfig) :
    bb2Tree env c =
      match treat env c 0 (rootMachine c) [] c.space with
      | (m1, .error e) => some (⟨m1, 1, []⟩, .error e)
      | (m1, .ok ()) => bb2Loop env c c.maxLeafs ⟨m1, 1, []⟩ := rfl

/-- The function `bb2Tree` always ends: by an exception or by returning. -/
theorem bb2Tree_total (env : Env) (c : BB2TreeConfig) : ∃ r, bb2Tree env c = some r := by
  rw [bb2Tree_eq]
  rcases treat env c 0 (rootMachine c) [] c.space with ⟨m1, r1⟩
  rcases r1 with e | u
  · exact ⟨_, rfl⟩
  · cases u
    exact bb2Loop_total env c c.maxLeafs _ (by simp only []; omega)

theorem returnsTree_eq (r : Option (LoopState × Except Exn Unit)) (h : returnsTree r = true) :
    r = some (finalState r, .ok ()) := by
  rcases r with _ | ⟨st, e | u⟩
  · simp [returnsTree] at h
  · simp [returnsTree] at h
  · cases u; rfl

theorem treeInv_root (env : Env) (c : BB2TreeConfig) :
    TreeInv (treat env c 0 (rootMachine c) [] c.space).1 (.leaf 0) := by
  apply treat_treeInv
  · refine ⟨⟨RegressionNode.new, rfl, rfl, rfl⟩, rfl, by simp [Shape.ptrs], ?_, ?_, ?_⟩
    · intro p hp
      simp only [rootMachine, List.length_singleton] at hp
      simp only [Shape.ptrs, List.mem_singleton]
      omega
    · intro e he
      simp [rootMachine] at he
    · simp [rootMachine]
  · simp [Shape.leafPtrs]
  · intro e he
    simp [rootMachine] at he

theorem growInv_bb2Tree (env : Env) (c : BB2TreeConfig) (st : LoopState)
    (h : bb2Tree env c = some (st, .ok ())) : GrowInv c st := by
  rw [bb2Tree_eq] at h
  have hroot := treeInv_root env c
  rcases htr : treat env c 0 (rootMachine c) [] c.space with ⟨m1, r1⟩
  rw [htr] at h hroot
  rcases r1 with e | u
  · simp only [Option.some.injEq, Prod.mk.injEq] at h
    exact absurd h.2 (by simp)
  · cases u
    simp only [] at h
    refine (bb2Loop_invariant_ok env c (GrowInv c) ?_ c.maxLeafs ⟨m1, 1, []⟩ st ?_ h).1
    · intro st0 entry m2 hP hlast hlt hstep
      obtain ⟨⟨t, ht, hleaves⟩, hcount, _⟩ := hP
      have hinv := bb2Step_treeInv env c st0.m entry t ht hlast
      rw [hstep] at hinv
      have hentry : entry.node ∈ t.leafPtrs := ht.2.2.2.2.1 entry (mem_of_getLast? hlast)
      refine ⟨⟨_, hinv, ?_⟩, ?_, ?_⟩
      · rw [Shape.leaves_graft ht.2.2.1 hentry, hleaves]
      · simp only [List.length_append, List.length_singleton]
        omega
      · show st0.nbLeafs + 1 ≤ max 1 c.maxLeafs
        omega
    · exact ⟨⟨.leaf 0, hroot, rfl⟩, rfl, by simp⟩

theorem popInv_step (env : Env) (c : BB2TreeConfig) (st : LoopState) (entry : SplitEntry)
    (m1 : Machine) (r : Except Exn Unit) (nb : Nat) (hP : PopInv st)
    (hlast : st.m.splitCandidates.getLast? = some entry)
    (hstep : bb2Step env c st.m entry = (m1, r)) :
    PopInv { m := m1, nbLeafs := nb
             commits := st.commits ++ [(entry, st.m.splitCandidates.dropLast)] } := by
  obtain ⟨hs, hc⟩ := hP
  have hsorted := bb2Step_sorted env c st.m entry hs
  rw [hstep] at hsorted
  refine ⟨hsorted, ?_⟩
  intro p hp x hx
  rcases List.mem_append.mp hp with h1 | h1
  · exact hc p h1 x hx
  · simp only [List.mem_singleton] at h1
    subst h1
    exact splitEntry_gain_le_of_lt (last_is_max _ entry hs hlast x hx)

theorem popInv_bb2Tree (env : Env) (c : BB2TreeConfig) (st : LoopState) (r : Except Exn Unit)
    (h : bb2Tree env c = some (st, r)) : PopInv st := by
  rw [bb2Tree_eq] at h
  have hsorted := treat_sorted env c 0 (rootMachine c) [] c.space
    (by simp [rootMachine])
  rcases htr : treat env c 0 (rootMachine c) [] c.space with ⟨m1, r1⟩
  rw [htr] at h hsorted
  have hinit : PopInv ⟨m1, 1, []⟩ := ⟨hsorted, by simp⟩
  rcases r1 with e | u
  · simp only [Option.some.injEq, Prod.mk.injEq] at h
    rw [← h.1]
    exact hinit
  · cases u
    simp only [] at h
    refine bb2Loop_invariant env c PopInv ?_ ?_ c.maxLeafs ⟨m1, 1, []⟩ st r hinit h
    · intro st0 entry m2 hP hlast _ hstep
      exact popInv_step env c st0 entry m2 _ _ hP hlast hstep
    · intro st0 entry m2 e hP hlast _ hstep
      exact popInv_step env c st0 entry m2 _ _ hP hlast hstep

/-- C7 as stated fails: with the default budget `maxLeafs = 0`, `bb2Tree` returns a tree and
its counter `nbLeafs` is `1`, above `maxLeafs`. -/
theorem nbLeafs_above_maxLeafs_default :
    ∃ st, bb2Tree envGrid (BB2TreeConfig.default unitSpace) = some (st, .ok ())
      ∧ st.nbLeafs = 1 ∧ (BB2TreeConfig.default unitSpace).maxLeafs = 0
      ∧ ¬ st.nbLeafs ≤ (BB2TreeConfig.default unitSpace).maxLeafs :=
  ⟨finalState (bb2Tree envGrid (BB2TreeConfig.default unitSpace)),
    returnsTree_eq _ (by decide!), by decide!, rfl, by decide!⟩

/-- C7, amended. When `bb2Tree` returns a tree, the counter `nbLeafs` is at most
`max(1, maxLeafs)`: at most `maxLeafs` as soon as `maxLeafs ≥ 1`, and `1` otherwise. -/
theorem nbLeafs_le_maxLeafs (env : Env) (c : BB2TreeConfig) (st : LoopState)
    (h : bb2Tree env c = some (st, .ok ())) :
    st.nbLeafs ≤ max 1 c.maxLeafs
      ∧ (1 ≤ c.maxLeafs → st.nbLeafs ≤ c.maxLeafs)
      ∧ (c.maxLeafs = 0 → st.nbLeafs = 1) := by
  obtain ⟨_, hcount, hle⟩ := growInv_bb2Tree env c st h
  refine ⟨hle, fun h1 => by omega, fun h0 => by omega⟩

/-- C7 amended, at a concrete input: a budget of three leaves over the unit interval. -/
theorem nbLeafs_le_maxLeafs_witness :
    (finalState (bb2Tree envGrid (configUnit 3))).nbLeafs ≤ max 1 (configUnit 3).maxLeafs
      ∧ (1 ≤ (configUnit 3).maxLeafs →
          (finalState (bb2Tree envGrid (configUnit 3))).nbLeafs ≤ (configUnit 3).maxLeafs)
      ∧ ((configUnit 3).maxLeafs = 0
          → (finalState (bb2Tree envGrid (configUnit 3))).nbLeafs = 1) :=
  nbLeafs_le_maxLeafs envGrid (configUnit 3) _ (returnsTree_eq _ (by decide!))

/-- C8. When `bb2Tree` returns, the tree found in the heap from the root pointer has as many
leaves as the number of iterations of the main loop plus one, which is the final value of
`nbLeafs`; every node of the heap is a node of that tree. -/
theorem leaves_eq_commits_succ (env : Env) (c : BB2TreeConfig) (st : LoopState)
    (h : bb2Tree env c = some (st, .ok ())) :
    ∃ t, subtree st.m.nodes st.m.nodes.length 0 = some t
      ∧ t.leaves = st.commits.length + 1
      ∧ t.leaves = st.nbLeafs
      ∧ (∀ p, p < st.m.nodes.length → p ∈ t.ptrs) := by
  obtain ⟨⟨t, ⟨hrep, hroot, hnd, hcover, _, _⟩, hleaves⟩, hcount, _⟩ :=
    growInv_bb2Tree env c st h
  refine ⟨t, ?_, by omega, hleaves, hcover⟩
  rw [← hroot]
  apply subtree_of_represents hrep
  have h1 := Shape.depth_le_ptrs t
  have h2 : t.ptrs.length ≤ st.m.nodes.length := by
    have hsub : t.ptrs ⊆ List.range st.m.nodes.length := fun p hp =>
      List.mem_range.mpr (hrep.ptr_lt p hp)
    have := (List.subperm_of_subset hnd hsub).length_le
    simpa using this
  omega

/-- C8, at a concrete input: a budget of three leaves over the unit interval. -/
theorem leaves_eq_commits_succ_witness :
    ∃ t, subtree (finalState (bb2Tree envGrid (configUnit 3))).m.nodes
          (finalState (bb2Tree envGrid (configUnit 3))).m.nodes.length 0 = some t
      ∧ t.leaves = (finalState (bb2Tree envGrid (configUnit 3))).commits.length + 1
      ∧ t.leaves = (finalState (bb2Tree envGrid (configUnit 3))).nbLeafs
      ∧ (∀ p, p < (finalState (bb2Tree envGrid (configUnit 3))).m.nodes.length → p ∈ t.ptrs) :=
  leaves_eq_commits_succ envGrid (configUnit 3) _ (returnsTree_eq _ (by decide!))

/-- C9. At every iteration of the main loop of `bb2Tree`, on every run, the entry removed
from the pending set has a gain at least equal to the gain of every entry that remains. -/
theorem popped_entry_has_max_gain (env : Env) (c : BB2TreeConfig) (st : LoopState)
    (r : Except Exn Unit) (h : bb2Tree env c = some (st, r)) :
    ∀ p ∈ st.commits, ∀ x ∈ p.2, x.gain ≤ p.1.gain :=
  (popInv_bb2Tree env c st r h).2

/-- C9, at a concrete input: a budget of three leaves over the unit interval, where the loop
makes two iterations and the second one removes an entry while another one stays pending. -/
theorem popped_entry_has_max_gain_witness :
    (finalState (bb2Tree envGrid (configUnit 3))).commits.length = 2
      ∧ (finalState (bb2Tree envGrid (configUnit 3))).commits.all
          (fun p => p.2.all (fun x => decide (x.gain ≤ p.1.gain))) = true := by
  refine ⟨by decide!, ?_⟩
  rw [List.all_eq_true]
  intro p hp
  rw [List.all_eq_true]
  intro x hx
  exact decide_eq_true
    (popped_entry_has_max_gain envGrid (configUnit 3) _ (.ok ())
      (returnsTree_eq _ (by decide!)) p hp x hx)

/-- C10. If the potential gain of the root, computed by `potentialGain` from the fitted
approximation over the populated subset, is strictly below `minPotGain`, then `treat` inserts
no entry for the root, the main loop makes no iteration, and `bb2Tree` returns a tree whose
root is a leaf holding that approximation, whatever `maxLeafs`. -/
theorem bb2Tree_single_leaf_of_low_gain (env : Env) (c : BB2TreeConfig) (p : Populated) (g : ℚ)
    (hPop : populate env 0 ⟨⟨c.space.rows, []⟩, [], []⟩ c.space (2 * c.nMin) c.minDensity
      = .ok p)
    (hGain : potentialGain env p.ts p.samples (getApproximation p.ts p.samples c.apprType)
      c.space = .ok (some g))
    (hLow : g < c.minPotGain) :
    (treat env c 0 (rootMachine c) [] c.space).1.splitCandidates = []
      ∧ ∃ st, bb2Tree env c = some (st, .ok ())
          ∧ st.m.splitCandidates = []
          ∧ st.commits = []
          ∧ st.nbLeafs = 1
          ∧ st.m.nodes = [{ a := some (getApproximation p.ts p.samples c.apprType)
                            s := ⟨0, 0⟩, lowerChild := none, upperChild := none }]
          ∧ subtree st.m.nodes st.m.nodes.length 0 = some (.leaf 0) := by
  have hlow : gainReached c (some g) = false := by
    unfold gainReached
    exact decide_eq_false (not_le.mpr hLow)
  have htreat := treat_low_gain env c 0 (rootMachine c) [] c.space p (some g) hPop hGain hlow
  refine ⟨by rw [htreat]; rfl, ?_⟩
  have hexit := bb2Loop_exit env c c.maxLeafs ⟨treatFitted c 0 (rootMachine c) p, 1, []⟩
    (Or.inl rfl)
  rw [bb2Tree_eq, htreat]
  exact ⟨_, hexit, rfl, rfl, rfl, rfl, rfl⟩

/-- C10, at a concrete input: over the unit interval the root has potential gain `1/36`,
below `minPotGain = 1`, with a budget of three leaves. -/
theorem bb2Tree_single_leaf_of_low_gain_witness :
    (treat envGrid configHighGain 0 (rootMachine configHighGain) []
        configHighGain.space).1.splitCandidates = []
      ∧ ∃ st, bb2Tree envGrid configHighGain = some (st, .ok ())
          ∧ st.m.splitCandidates = []
          ∧ st.commits = []
          ∧ st.nbLeafs = 1
          ∧ st.m.nodes = [{ a := some (getApproximation rootPopulated.ts rootPopulated.samples
                                configHighGain.apprType)
                            s := ⟨0, 0⟩, lowerChild := none, upperChild := none }]
          ∧ subtree st.m.nodes st.m.nodes.length 0 = some (.leaf 0) :=
  bb2Tree_single_leaf_of_low_gain envGrid configHighGain rootPopulated (1 / 36)
    (by decide!) (by decide!) (by decide!)

/-! ## The order on split entries -/

/-- On a valid space, `size` returns the product of the extents. -/
theorem size_of_valid (space : MatrixXd) (hCols : space.cols = 2)
    (hValid : ∀ row, row < space.rows → space.coeff row 0 ≤ space.coeff row 1) :
    size space = .ok (((List.range space.rows).map
      (fun row => space.coeff row 1 - space.coeff row 0)).prod) := by
  unfold size
  rw [if_neg (by simp [hCols]), sizeLoop_ok, one_mul]
  intro row hrow
  exact hValid row (List.mem_range.mp hrow)

theorem prod_range_congr (f g : Nat → ℚ) (n : Nat) (h : ∀ i, i < n → f i = g i) :
    ((List.range n).map f).prod = ((List.range n).map g).prod := by
  congr 1
  apply List.map_congr_left
  intro i hi
  exact h i (List.mem_range.mp hi)

/-- Products over `0 .. n-1` of three families that agree everywhere but at `d`, where the
third is the sum of the first two. -/
theorem prod_range_split (f g h : Nat → ℚ) (d : Nat) (hsum : f d + g d = h d)
    (hf : ∀ i, i ≠ d → f i = h i) (hg : ∀ i, i ≠ d → g i = h i) :
    ∀ n, d < n →
      ((List.range n).map f).prod + ((List.range n).map g).prod
        = ((List.range n).map h).prod := by
  intro n
  induction n with
  | zero => intro hd; omega
  | succ n ih =>
    intro hd
    simp only [List.range_succ, List.map_append, List.map_cons, List.map_nil, List.prod_append,
      List.prod_cons, List.prod_nil, mul_one]
    rcases Nat.lt_or_ge d n with hlt | hge
    · have hne : n ≠ d := by omega
      rw [hf n hne, hg n hne, ← add_mul, ih hlt]
    · have hdn : d = n := by omega
      subst hdn
      rw [prod_range_congr f h d (fun i hi => hf i (by omega)),
        prod_range_congr g h d (fun i hi => hg i (by omega)), ← mul_add, hsum]

/-! ## Oracle calls made by `treat` -/

/-- The training set and the oracle log that `treat` leaves are those left by `populate`. -/
theorem treat_ts_evalLog (env : Env) (c : BB2TreeConfig) (node : Nat) (m : Machine)
    (samples : Subset) (space : MatrixXd) :
    (∃ e, populate env m.draws ⟨m.ts, samples, m.evalLog⟩ space (2 * c.nMin) c.minDensity
          = .error e
        ∧ treat env c node m samples space = (m, .error e))
      ∨ (∃ p, populate env m.draws ⟨m.ts, samples, m.evalLog⟩ space (2 * c.nMin) c.minDensity
          = .ok p
        ∧ (treat env c node m samples space).1.ts = p.ts
        ∧ (treat env c node m samples space).1.evalLog = p.evalLog) := by
  cases hp : populate env m.draws ⟨m.ts, samples, m.evalLog⟩ space (2 * c.nMin) c.minDensity with
  | error e =>
    exact Or.inl ⟨e, rfl, treat_populate_error env c node m samples space e hp⟩
  | ok p =>
    refine Or.inr ⟨p, rfl, ?_⟩
    cases hg : potentialGain env p.ts p.samples (getApproximation p.ts p.samples c.apprType)
        space with
    | error e =>
      rw [treat_gain_error env c node m samples space p e hp hg]
      exact ⟨rfl, rfl⟩
    | ok g =>
      cases hr : gainReached c g with
      | false =>
        rw [treat_low_gain env c node m samples space p g hp hg hr]
        exact ⟨rfl, rfl⟩
      | true =>
        cases hb : getBestSplitEntry env (m.draws + 1) node p.ts p.samples space c.k c.nMin
            c.apprType with
        | error e =>
          rw [treat_split_error env c node m samples space p g e hp hg hr hb]
          exact ⟨rfl, rfl⟩
        | ok entry =>
          rw [treat_split_found env c node m samples space p g entry hp hg hr hb]
          exact ⟨rfl, rfl⟩

/-- When `populate` returns, `size(space)` has returned, and either nothing was wished and
the state is unchanged, or the wished number of points was requested from the sampler. -/
theorem populate_ok_cases (env : Env) (draw : Nat) (st p : Populated) (space : MatrixXd)
    (minSize : Int) (minDensity : ℚ)
    (hp : populate env draw st space minSize minDensity = .ok p) :
    ∃ sz, size space = .ok sz
      ∧ ((int32 (max (int32 minSize) (doubleToInt env ⌈minDensity * sz⌉)
              - (st.samples.length : Int)) ≤ 0 ∧ p = st)
        ∨ (0 < int32 (max (int32 minSize) (doubleToInt env ⌈minDensity * sz⌉)
              - (st.samples.length : Int))
            ∧ p = populateLoop env.eval (env.getUniformSamples draw space
                (int32 (max (int32 minSize) (doubleToInt env ⌈minDensity * sz⌉)
                  - (st.samples.length : Int))).toNat) st)) := by
  cases hsz : size space with
  | error e =>
    unfold populate at hp
    rw [hsz] at hp
    cases hp
  | ok sz =>
    refine ⟨sz, rfl, ?_⟩
    rw [populate_of_size env draw st space minSize minDensity sz hsz] at hp
    by_cases hw : int32 (max (int32 minSize) (doubleToInt env ⌈minDensity * sz⌉)
        - (st.samples.length : Int)) ≤ 0
    · rw [if_pos hw] at hp
      cases hp
      exact Or.inl ⟨hw, rfl⟩
    · rw [if_neg hw] at hp
      cases hp
      exact Or.inr ⟨by omega, rfl⟩

/-- With `minDensity = 0`, `populate` leaves as it is a subset of fewer than `2 ^ 31` samples
that holds at least `minSize` of them. -/
theorem populate_nothing_to_add (env : Env) (draw : Nat) (st p : Populated) (space : MatrixXd)
    (minSize : Int) (hEnough : int32 minSize ≤ (st.samples.length : Int))
    (hLen : (st.samples.length : Int) < 2 ^ 31)
    (hp : populate env draw st space minSize 0 = .ok p) : p = st := by
  obtain ⟨sz, _, ⟨_, h⟩ | ⟨hw, _⟩⟩ := populate_ok_cases env draw st p space minSize 0 hp
  · exact h
  · exfalso
    rw [zero_mul, Int.ceil_zero, doubleToInt_of_fits env 0 (by decide) (by decide)] at hw
    have hr := int32_range minSize
    rw [int32_of_fits _ (by omega) (by omega)] at hw
    omega

/-- C11 as stated fails: with `minDensity = 0` and `nMin = 1`, `treat` on a node whose subset
already holds one sample calls the oracle once and appends one sample to the training set. -/
theorem treat_calls_oracle_with_nMin_samples :
    (configUnit 3).minDensity = 0
      ∧ (configUnit 3).nMin ≤ ((([0] : Subset).length : ℕ) : Int)
      ∧ (treat envGrid (configUnit 3) 0 machineTwo [0] unitSpace).1.evalLog.length
          = machineTwo.evalLog.length + 1
      ∧ (treat envGrid (configUnit 3) 0 machineTwo [0] unitSpace).1.ts.data.length
          = machineTwo.ts.data.length + 1 := by
  refine ⟨rfl, by decide, by decide!, by decide!⟩

/-- The `int` product `2 * nMin` wraps around when `nMin` is below `-2 ^ 30`: with
`nMin = -2 ^ 30 - 1` and `minDensity = 0`, over a subset of two samples, which is more than
`2 * nMin`, `populate` requests `2 ^ 31 - 4` points from the sampler. -/
theorem populate_requests_points_when_product_wraps (env : Env) :
    2 * (-(2 ^ 30) - 1 : Int) ≤ (((⟨tsTwo, [0, 1], []⟩ : Populated).samples.length : ℕ) : Int)
      ∧ populate env 0 ⟨tsTwo, [0, 1], []⟩ unitSpace (2 * (-(2 ^ 30) - 1)) 0
          = .ok (populateLoop env.eval (env.getUniformSamples 0 unitSpace 2147483644)
              ⟨tsTwo, [0, 1], []⟩) := by
  refine ⟨by decide, ?_⟩
  rw [populate_of_size env 0 _ unitSpace _ 0 1 (by decide!), zero_mul, Int.ceil_zero,
    doubleToInt_of_fits env 0 (by decide) (by decide)]
  have h1 : int32 (2 * (-(2 ^ 30) - 1)) = 2147483646 := by decide
  rw [h1]
  have h2 : int32 (max 2147483646 0
      - (((⟨tsTwo, [0, 1], []⟩ : Populated).samples.length : ℕ) : Int)) = 2147483644 := by
    decide
  rw [h2, if_neg (by decide)]
  rfl

/-- C11, amended. With `minDensity = 0`, `treat` on a node whose subset already holds at
least `2 * nMin` samples makes no oracle call: `populate` adds nothing to the subset, and
the training set and the log of oracle calls are unchanged.  The counts are those of the
32-bit `int` arithmetic of `populate`: `nMin` is an `int` not below `-2 ^ 30`, so that
`2 * nMin` does not wrap around to a positive number, and the subset holds fewer than
`2 ^ 31` samples. -/
theorem treat_no_oracle_call (env : Env) (c : BB2TreeConfig) (node : Nat) (m : Machine)
    (samples : Subset) (space : MatrixXd) (hDensity : c.minDensity = 0)
    (hEnough : 2 * c.nMin ≤ (samples.length : Int))
    (hNMin : -(2 ^ 30) ≤ c.nMin ∧ c.nMin < 2 ^ 31)
    (hLen : (samples.length : Int) < 2 ^ 31) :
    (treat env c node m samples space).1.evalLog = m.evalLog
      ∧ (treat env c node m samples space).1.ts = m.ts
      ∧ ∀ p, populate env m.draws ⟨m.ts, samples, m.evalLog⟩ space (2 * c.nMin) c.minDensity
          = .ok p → p = ⟨m.ts, samples, m.evalLog⟩ := by
  have hpop : ∀ p, populate env m.draws ⟨m.ts, samples, m.evalLog⟩ space (2 * c.nMin)
      c.minDensity = .ok p → p = ⟨m.ts, samples, m.evalLog⟩ := by
    intro p hp
    rw [hDensity] at hp
    refine populate_nothing_to_add env m.draws _ p space (2 * c.nMin) ?_ hLen hp
    show int32 (2 * c.nMin) ≤ (samples.length : Int)
    unfold int32
    omega
  rcases treat_ts_evalLog env c node m samples space with ⟨e, _, ht⟩ | ⟨p, hp, hts, hlog⟩
  · rw [ht]
    exact ⟨rfl, rfl, hpop⟩
  · rw [hts, hlog, hpop p hp]
    exact ⟨rfl, rfl, hpop⟩

/-- C11 amended, at a concrete input: a subset of two samples, `nMin = 1`. -/
theorem treat_no_oracle_call_witness :
    (treat envGrid (configUnit 3) 0 machineTwo [0, 1] unitSpace).1.evalLog = machineTwo.evalLog
      ∧ (treat envGrid (configUnit 3) 0 machineTwo [0, 1] unitSpace).1.ts = machineTwo.ts
      ∧ ∀ p, populate envGrid machineTwo.draws ⟨machineTwo.ts, [0, 1], machineTwo.evalLog⟩
          unitSpace (2 * (configUnit 3).nMin) (configUnit 3).minDensity
          = .ok p → p = ⟨machineTwo.ts, [0, 1], machineTwo.evalLog⟩ :=
  treat_no_oracle_call envGrid (configUnit 3) 0 machineTwo [0, 1] unitSpace rfl (by decide)
    (by decide) (by decide)

/-! ## Bounds after `populate` -/

/-- When `populate` returns, `size(space)` has returned too, and with a sampler that returns
as many points as requested the subset holds at least `minSize` samples, provided `minSize`
is representable as an `int`. -/
theorem populate_ok_length (env : Env) (draw : Nat) (st p : Populated) (space : MatrixXd)
    (minSize : Int) (minDensity : ℚ)
    (hSampler : ∀ count, (env.getUniformSamples draw space count).length = count)
    (hlo : -(2 ^ 31) ≤ minSize) (hhi : minSize < 2 ^ 31)
    (hp : populate env draw st space minSize minDensity = .ok p) :
    (∃ sz, size space = .ok sz) ∧ minSize ≤ (p.samples.length : Int) := by
  obtain ⟨sz, hsz, ⟨hw, h⟩ | ⟨hw, h⟩⟩ := populate_ok_cases env draw st p space minSize
    minDensity hp
  · refine ⟨⟨sz, hsz⟩, ?_⟩
    rw [h]
    rw [int32_of_fits _ hlo hhi] at hw
    have hr := doubleToInt_range env ⌈minDensity * sz⌉
    unfold int32 at hw
    omega
  · refine ⟨⟨sz, hsz⟩, ?_⟩
    rw [h, populateLoop_eq]
    simp only [List.length_append, List.length_range', hSampler]
    rw [int32_of_fits _ hlo hhi] at hw ⊢
    have hr := doubleToInt_range env ⌈minDensity * sz⌉
    unfold int32 at hw ⊢
    push_cast
    omega

theorem populate_returns_of_size (env : Env) (draw : Nat) (st : Populated) (space : MatrixXd)
    (minSize : Int) (minDensity sz : ℚ) (hsz : size space = .ok sz) :
    ∃ p, populate env draw st space minSize minDensity = .ok p := by
  rw [populate_of_size env draw st space minSize minDensity sz hsz]
  split
  · exact ⟨_, rfl⟩
  · exact ⟨_, rfl⟩

/-! ## Outcomes that are not undefined behaviour -/

theorem sizeLoop_defined (space : MatrixXd) (rows : List Nat) (prod : ℚ) :
    sizeLoop space rows prod ≠ .error .undefined_behaviour := by
  induction rows generalizing prod with
  | nil => simp [sizeLoop]
  | cons row rows ih =>
    unfold sizeLoop
    simp only []
    split
    · simp
    · exact ih _

theorem size_defined (space : MatrixXd) : size space ≠ .error .undefined_behaviour := by
  unfold size
  split
  · simp
  · exact sizeLoop_defined _ _ _

theorem evalSplitScore_defined (env : Env) (ls : TrainingSet) (samples : Subset)
    (split : OrthogonalSplit) (apprType : ApproximationType) :
    evalSplitScore env ls samples split apprType ≠ .error .undefined_behaviour := by
  unfold evalSplitScore
  simp only []
  split
  · simp
  · split <;> simp

theorem bestSplitLoop_defined (env : Env) (ts : TrainingSet) (samples : Subset)
    (apprType : ApproximationType) (cs : List OrthogonalSplit) :
    ∀ (splitIdx bestSplitIdx : Nat) (bestSplitScore : ℚ),
      bestSplitLoop env ts samples apprType cs splitIdx bestSplitIdx bestSplitScore
        ≠ .error .undefined_behaviour := by
  induction cs with
  | nil =>
    intro splitIdx bestSplitIdx bestSplitScore
    simp [bestSplitLoop]
  | cons c cs ih =>
    intro splitIdx bestSplitIdx bestSplitScore
    unfold bestSplitLoop
    cases he : evalSplitScore env ts samples c apprType with
    | error e =>
      simp only []
      intro h
      apply evalSplitScore_defined env ts samples c apprType
      rw [he, Except.error.inj h]
    | ok splitScore =>
      simp only []
      split
      · exact ih _ _ _
      · exact ih _ _ _

/-- With `nMin ≥ 1`, over a subset of at least `2 * nMin` samples, the first loop of
`getBestSplitEntry` reads `samples[nMin - 1]` and `samples[size - nMin]` within the bounds of
the sorted subset at every iteration: it does not end in undefined behaviour as long as the
indices it is given lie within `dimCandidates`. -/
theorem candidatesLoop_defined (env : Env) (draw : Nat) (ts : TrainingSet) (space : MatrixXd)
    (nMin : Int) (dimCandidates : List Nat) (hMin : 1 ≤ nMin) :
    ∀ (is : List Nat) (samples : Subset) (acc : List OrthogonalSplit),
      (∀ i ∈ is, i < dimCandidates.length) → 2 * nMin ≤ (samples.length : Int) →
      candidatesLoop env draw ts space nMin dimCandidates is samples acc
        ≠ .error .undefined_behaviour := by
  intro is
  induction is with
  | nil =>
    intro samples acc _ _
    simp [candidatesLoop]
  | cons i is ih =>
    intro samples acc hin hlen
    have hi : i < dimCandidates.length := hin i (List.mem_cons_self _ _)
    have hl : (ts.sortSubset samples dimCandidates[i]).length = samples.length := by
      unfold TrainingSet.sortSubset
      rw [List.length_insertionSort]
    have e1 : (nMin - 1).toNat < (ts.sortSubset samples dimCandidates[i]).length := by omega
    have e2 : (((ts.sortSubset samples dimCandidates[i]).length : Int) - nMin).toNat
        < (ts.sortSubset samples dimCandidates[i]).length := by omega
    have h1 : subsetAt (ts.sortSubset samples dimCandidates[i]) (nMin - 1)
        = some (ts.sortSubset samples dimCandidates[i])[(nMin - 1).toNat] := by
      unfold subsetAt
      rw [if_pos (by omega), List.getElem?_eq_getElem e1]
    have h2 : subsetAt (ts.sortSubset samples dimCandidates[i])
        (((ts.sortSubset samples dimCandidates[i]).length : Int) - nMin)
        = some (ts.sortSubset samples dimCandidates[i])[
            (((ts.sortSubset samples dimCandidates[i]).length : Int) - nMin).toNat] := by
      unfold subsetAt
      rw [if_pos (by omega), List.getElem?_eq_getElem e2]
    have hrest : ∀ j ∈ is, j < dimCandidates.length :=
      fun j hj => hin j (List.mem_cons_of_mem _ hj)
    unfold candidatesLoop
    rw [List.getElem?_eq_getElem hi]
    simp only [h1, h2]
    split
    · split
      · rename_i e he
        intro h
        apply size_defined space
        rw [he, Except.error.inj h]
      · exact ih _ _ hrest (by rw [hl]; exact hlen)
    · exact ih _ _ hrest (by rw [hl]; exact hlen)

/-- When the dimensions drawn by `getKDistinctFromN` number at least `k` and the first loop
does not end in undefined behaviour, neither does `getBestSplitEntry`. -/
theorem getBestSplitEntry_defined (env : Env) (draw node : Nat) (ts : TrainingSet)
    (samples : Subset) (space : MatrixXd) (k nMin : Int) (apprType : ApproximationType)
    (hDraw : env.getKDistinctFromN draw k ts.getInputDim ≠ .error .undefined_behaviour)
    (hLoop : ∀ dimCandidates, env.getKDistinctFromN draw k ts.getInputDim = .ok dimCandidates →
      candidatesLoop env (draw + 1) ts space nMin dimCandidates (List.range k.toNat) samples []
        ≠ .error .undefined_behaviour) :
    getBestSplitEntry env draw node ts samples space k nMin apprType
      ≠ .error .undefined_behaviour := by
  unfold getBestSplitEntry
  cases hk : env.getKDistinctFromN draw k ts.getInputDim with
  | error e =>
    simp only []
    intro h
    apply hDraw
    rw [hk, Except.error.inj h]
  | ok dimCandidates =>
    simp only []
    cases hc : candidatesLoop env (draw + 1) ts space nMin dimCandidates (List.range k.toNat)
        samples [] with
    | error e =>
      simp only []
      intro h
      apply hLoop dimCandidates hk
      rw [hc, Except.error.inj h]
    | ok r =>
      obtain ⟨sorted, cands⟩ := r
      simp only []
      cases cands with
      | nil => simp
      | cons c0 cs =>
        simp only []
        cases h0 : evalSplitScore env ts sorted c0 apprType with
        | error e =>
          simp only []
          intro h
          apply evalSplitScore_defined env ts sorted c0 apprType
          rw [h0, Except.error.inj h]
        | ok score0 =>
          simp only []
          cases hb : bestSplitLoop env ts sorted apprType cs 1 0 score0 with
          | error e =>
            simp only []
            intro h
            apply bestSplitLoop_defined env ts sorted apprType cs 1 0 score0
            rw [hb, Except.error.inj h]
          | ok r =>
            simp only []
            cases hs : size space with
            | error e =>
              simp only []
              intro h
              apply size_defined space
              rw [hs, Except.error.inj h]
            | ok sz => simp

/-- C20 as stated fails: with `nMin = 2 ^ 30` over the unit interval, a valid space, the
`int` product `2 * nMin` wraps around to `-2 ^ 31`; `populate` adds nothing to the empty
subset of the root, which then holds fewer than `2 * nMin` samples, and `potentialGain`
divides zero by the size zero of the subset (not-a-number). -/
theorem treat_divides_by_zero_when_nMin_overflows :
    1 ≤ configLargeNMin.nMin
      ∧ unitSpace.cols = 2
      ∧ (∀ row, row < unitSpace.rows → unitSpace.coeff row 0 ≤ unitSpace.coeff row 1)
      ∧ populate envGrid 0 ⟨⟨1, []⟩, [], []⟩ unitSpace (2 * configLargeNMin.nMin)
          configLargeNMin.minDensity = .ok ⟨⟨1, []⟩, [], []⟩
      ∧ ¬ (2 * configLargeNMin.nMin ≤ ((([] : Subset).length : ℕ) : Int))
      ∧ potentialGain envGrid ⟨1, []⟩ []
          (getApproximation ⟨1, []⟩ [] configLargeNMin.apprType) unitSpace = .ok none
      ∧ (treat envGrid configLargeNMin 0 (rootMachine configLargeNMin) [] unitSpace).1.ts
          = ⟨1, []⟩ := by
  refine ⟨by decide, rfl, ?_, by decide!, by decide, by decide!, by decide!⟩
  intro row _
  unfold unitSpace
  simp

/-- C20, amended. With `1 ≤ nMin < 2 ^ 30`, so that the `int` product `2 * nMin` does not
overflow, a valid space and a sampler that returns as many points as requested, in every
call of `treat` the subset holds at least `2 * nMin ≥ 2` samples once `populate` has run:
`potentialGain` divides by a non-zero size and returns a number; the accesses
`samples[nMin - 1]` and `samples[size - nMin]` to the sorted subset are within bounds, with
`nMin - 1 < size - nMin`; the first loop of `getBestSplitEntry` never ends in undefined
behaviour on indices within `dimCandidates`; and when `getKDistinctFromN` returns at least
`k` dimensions, neither `getBestSplitEntry` nor `treat` ends in undefined behaviour. -/
theorem treat_subset_accesses_in_bounds (env : Env) (c : BB2TreeConfig) (node : Nat)
    (m : Machine) (samples : Subset) (space : MatrixXd) (hMin : 1 ≤ c.nMin)
    (hMinInt : c.nMin < 2 ^ 30)
    (hSampler : ∀ count, (env.getUniformSamples m.draws space count).length = count)
    (hCols : space.cols = 2)
    (hValid : ∀ row, row < space.rows → space.coeff row 0 ≤ space.coeff row 1) :
    ∃ p, populate env m.draws ⟨m.ts, samples, m.evalLog⟩ space (2 * c.nMin) c.minDensity
          = .ok p
      ∧ (treat env c node m samples space).1.ts = p.ts
      ∧ 2 * c.nMin ≤ (p.samples.length : Int)
      ∧ 2 ≤ p.samples.length
      ∧ (p.samples.length : ℚ) ≠ 0
      ∧ (∃ g, potentialGain env p.ts p.samples
            (getApproximation p.ts p.samples c.apprType) space = .ok (some g))
      ∧ (∀ (sorted : Subset) (dim : Nat), sorted.length = p.samples.length →
          (∃ lo, subsetAt (p.ts.sortSubset sorted dim) (c.nMin - 1) = some lo)
            ∧ (∃ hi, subsetAt (p.ts.sortSubset sorted dim)
                (((p.ts.sortSubset sorted dim).length : Int) - c.nMin) = some hi)
            ∧ c.nMin - 1 < ((p.ts.sortSubset sorted dim).length : Int) - c.nMin)
      ∧ (∀ (draw : Nat) (dimCandidates is : List Nat) (acc : List OrthogonalSplit),
          (∀ i ∈ is, i < dimCandidates.length) →
          candidatesLoop env draw p.ts space c.nMin dimCandidates is p.samples acc
            ≠ .error .undefined_behaviour)
      ∧ (env.getKDistinctFromN (m.draws + 1) c.k p.ts.getInputDim
            ≠ .error .undefined_behaviour →
          (∀ dimCandidates,
            env.getKDistinctFromN (m.draws + 1) c.k p.ts.getInputDim = .ok dimCandidates →
            c.k.toNat ≤ dimCandidates.length) →
          getBestSplitEntry env (m.draws + 1) node p.ts p.samples space c.k c.nMin c.apprType
              ≠ .error .undefined_behaviour
            ∧ (treat env c node m samples space).2 ≠ .error .undefined_behaviour) := by
  obtain ⟨p, hp⟩ := populate_returns_of_size env m.draws ⟨m.ts, samples, m.evalLog⟩ space
    (2 * c.nMin) c.minDensity _ (size_of_valid space hCols hValid)
  obtain ⟨⟨sz, hsz⟩, hlen⟩ := populate_ok_length env m.draws _ p space _ _ hSampler
    (by omega) (by omega) hp
  have h2 : 2 ≤ p.samples.length := by omega
  have hne : p.samples.length ≠ 0 := by omega
  have hts : (treat env c node m samples space).1.ts = p.ts := by
    rcases treat_ts_evalLog env c node m samples space with ⟨e, he, _⟩ | ⟨q, hq, hqts, _⟩
    · rw [hp] at he
      cases he
    · rw [hp] at hq
      cases hq
      exact hqts
  have hgain : ∃ g, potentialGain env p.ts p.samples
      (getApproximation p.ts p.samples c.apprType) space = .ok (some g) := by
    unfold potentialGain
    rw [hsz]
    simp only [hne, if_false]
    exact ⟨_, rfl⟩
  have hloop : ∀ (draw : Nat) (dimCandidates is : List Nat) (acc : List OrthogonalSplit),
      (∀ i ∈ is, i < dimCandidates.length) →
      candidatesLoop env draw p.ts space c.nMin dimCandidates is p.samples acc
        ≠ .error .undefined_behaviour :=
    fun draw dimCandidates is acc hin =>
      candidatesLoop_defined env draw p.ts space c.nMin dimCandidates hMin is p.samples acc hin
        hlen
  refine ⟨p, hp, hts, hlen, h2, by exact_mod_cast hne, hgain, ?_, hloop, ?_⟩
  · intro sorted dim hs
    have hl : (p.ts.sortSubset sorted dim).length = p.samples.length := by
      unfold TrainingSet.sortSubset
      rw [List.length_insertionSort, hs]
    rw [hl]
    have e1 : (c.nMin - 1).toNat < (p.ts.sortSubset sorted dim).length := by omega
    have e2 : ((p.samples.length : Int) - c.nMin).toNat
        < (p.ts.sortSubset sorted dim).length := by omega
    refine ⟨⟨(p.ts.sortSubset sorted dim)[(c.nMin - 1).toNat], ?_⟩,
      ⟨(p.ts.sortSubset sorted dim)[((p.samples.length : Int) - c.nMin).toNat], ?_⟩, by omega⟩
    · unfold subsetAt
      rw [if_pos (by omega), List.getElem?_eq_getElem e1]
    · unfold subsetAt
      rw [if_pos (by omega), List.getElem?_eq_getElem e2]
  · intro hDraw hK
    have hbest : getBestSplitEntry env (m.draws + 1) node p.ts p.samples space c.k c.nMin
        c.apprType ≠ .error .undefined_behaviour := by
      refine getBestSplitEntry_defined env (m.draws + 1) node p.ts p.samples space c.k c.nMin
        c.apprType hDraw ?_
      intro dimCandidates hk
      refine hloop _ dimCandidates _ _ ?_
      intro i hi
      have := hK dimCandidates hk
      have := List.mem_range.mp hi
      omega
    refine ⟨hbest, ?_⟩
    obtain ⟨g, hg⟩ := hgain
    cases hr : gainReached c (some g) with
    | false =>
      rw [treat_low_gain env c node m samples space p (some g) hp hg hr]
      simp
    | true =>
      cases hb : getBestSplitEntry env (m.draws + 1) node p.ts p.samples space c.k c.nMin
          c.apprType with
      | ok entry =>
        rw [treat_split_found env c node m samples space p (some g) entry hp hg hr hb]
        simp
      | error e =>
        rw [treat_split_error env c node m samples space p (some g) e hp hg hr hb]
        rw [hb] at hbest
        cases e <;> simp at hbest ⊢

/-- C20 amended, at a concrete input: `treat` on a subset of one sample over the unit
interval, with `nMin = 1`. -/
theorem treat_subset_accesses_in_bounds_witness :
    ∃ p, populate envGrid machineTwo.draws ⟨machineTwo.ts, [0], machineTwo.evalLog⟩ unitSpace
          (2 * (configUnit 3).nMin) (configUnit 3).minDensity = .ok p
      ∧ (treat envGrid (configUnit 3) 0 machineTwo [0] unitSpace).1.ts = p.ts
      ∧ 2 * (configUnit 3).nMin ≤ ((p.samples.length : ℕ) : Int)
      ∧ 2 ≤ p.samples.length
      ∧ ((p.samples.length : ℕ) : ℚ) ≠ 0
      ∧ (∃ g, potentialGain envGrid p.ts p.samples
            (getApproximation p.ts p.samples (configUnit 3).apprType) unitSpace
              = .ok (some g))
      ∧ (∀ (sorted : Subset) (dim : Nat), sorted.length = p.samples.length →
          (∃ lo, subsetAt (p.ts.sortSubset sorted dim) ((configUnit 3).nMin - 1) = some lo)
            ∧ (∃ hi, subsetAt (p.ts.sortSubset sorted dim)
                ((((p.ts.sortSubset sorted dim).length : ℕ) : Int) - (configUnit 3).nMin)
                  = some hi)
            ∧ (configUnit 3).nMin - 1
                < (((p.ts.sortSubset sorted dim).length : ℕ) : Int) - (configUnit 3).nMin)
      ∧ (∀ (draw : Nat) (dimCandidates is : List Nat) (acc : List OrthogonalSplit),
          (∀ i ∈ is, i < dimCandidates.length) →
          candidatesLoop envGrid draw p.ts unitSpace (configUnit 3).nMin dimCandidates is
            p.samples acc ≠ .error .undefined_behaviour)
      ∧ (envGrid.getKDistinctFromN (machineTwo.draws + 1) (configUnit 3).k p.ts.getInputDim
            ≠ .error .undefined_behaviour →
          (∀ dimCandidates,
            envGrid.getKDistinctFromN (machineTwo.draws + 1) (configUnit 3).k p.ts.getInputDim
              = .ok dimCandidates →
            (configUnit 3).k.toNat ≤ dimCandidates.length) →
          getBestSplitEntry envGrid (machineTwo.draws + 1) 0 p.ts p.samples unitSpace
              (configUnit 3).k (configUnit 3).nMin (configUnit 3).apprType
              ≠ .error .undefined_behaviour
            ∧ (treat envGrid (configUnit 3) 0 machineTwo [0] unitSpace).2
              ≠ .error .undefined_behaviour) :=
  treat_subset_accesses_in_bounds envGrid (configUnit 3) 0 machineTwo [0] unitSpace (by decide)
    (by decide) (fun count => by simp only [envGrid, List.length_map, List.length_range]) rfl
    (fun row _ => by unfold unitSpace; simp)

/-! ## Candidate split search: theorems -/

/-- The first loop of `getBestSplitEntry` pushes one candidate per iteration, and returns a
rearrangement of the subset it was given. -/
theorem candidatesLoop_spec (env : Env) (draw : Nat) (ts : TrainingSet) (space : MatrixXd)
    (nMin : Int) (dimCandidates : List Nat) :
    ∀ (is : List Nat) (samples : Subset) (acc : List OrthogonalSplit) (sorted : Subset)
      (cands : List OrthogonalSplit),
      candidatesLoop env draw ts space nMin dimCandidates is samples acc = .ok (sorted, cands) →
      cands.length = acc.length + is.length ∧ sorted.Perm samples := by
  intro is
  induction is with
  | nil =>
    intro samples acc sorted cands h
    simp only [candidatesLoop, Except.ok.injEq, Prod.mk.injEq] at h
    rw [← h.1, ← h.2]
    exact ⟨rfl, List.Perm.refl _⟩
  | cons i is ih =>
    intro samples acc sorted cands h
    have hperm : (ts.sortSubset samples (dimCandidates.getD i 0)).Perm samples := by
      unfold TrainingSet.sortSubset
      exact List.perm_insertionSort _ _
    unfold candidatesLoop at h
    split at h
    · cases h
    · rename_i dim hdim
      have hd : dimCandidates.getD i 0 = dim := by
        rw [List.getD_eq_getElem?_getD, hdim]
        rfl
      rw [hd] at hperm
      simp only [] at h
      split at h
      · split at h
        · split at h
          · cases h
          · obtain ⟨h1, h2⟩ := ih _ _ _ _ h
            refine ⟨?_, h2.trans hperm⟩
            simp only [List.length_append, List.length_singleton, List.length_cons, List.length_nil] at h1 ⊢
            omega
        · obtain ⟨h1, h2⟩ := ih _ _ _ _ h
          refine ⟨?_, h2.trans hperm⟩
          simp only [List.length_append, List.length_singleton, List.length_cons, List.length_nil] at h1 ⊢
          omega
      · cases h

/-- The second loop of `getBestSplitEntry` ends on the first index of greatest score. -/
theorem bestSplitLoop_spec (env : Env) (ts : TrainingSet) (samples : Subset)
    (apprType : ApproximationType) :
    ∀ (cs : List OrthogonalSplit) (scores : List ℚ) (splitIdx bestSplitIdx : Nat)
      (bestSplitScore : ℚ),
      cs.map (fun c => evalSplitScore env ts samples c apprType) = scores.map Except.ok →
      ∃ i best,
        bestSplitLoop env ts samples apprType cs splitIdx bestSplitIdx bestSplitScore
            = .ok (i, best)
          ∧ (∀ s ∈ scores, s ≤ best) ∧ bestSplitScore ≤ best
          ∧ ((i = bestSplitIdx ∧ best = bestSplitScore)
            ∨ (splitIdx ≤ i ∧ scores[i - splitIdx]? = some best ∧ bestSplitScore < best
                ∧ ∀ j s, j < i - splitIdx → scores[j]? = some s → s < best)) := by
  intro cs
  induction cs with
  | nil =>
    intro scores splitIdx bestSplitIdx bestSplitScore h
    have hs : scores = [] := by
      cases scores with
      | nil => rfl
      | cons s ss => simp at h
    subst hs
    exact ⟨bestSplitIdx, bestSplitScore, rfl, by simp, le_refl _, Or.inl ⟨rfl, rfl⟩⟩
  | cons c cs ih =>
    intro scores splitIdx bestSplitIdx bestSplitScore h
    cases scores with
    | nil => simp at h
    | cons s ss =>
      simp only [List.map_cons, List.cons.injEq] at h
      obtain ⟨hc, hrest⟩ := h
      unfold bestSplitLoop
      rw [hc]
      simp only []
      by_cases hgt : s > bestSplitScore
      · rw [if_pos hgt]
        obtain ⟨i, best, hrun, hall, hle, hcase⟩ := ih ss (splitIdx + 1) splitIdx s hrest
        refine ⟨i, best, hrun, ?_, le_trans hgt.le hle, Or.inr ?_⟩
        · intro x hx
          rcases List.mem_cons.mp hx with rfl | hx
          · exact hle
          · exact hall x hx
        · rcases hcase with ⟨hi, hb⟩ | ⟨hi, hget, hlt, hbefore⟩
          · subst hi
            subst hb
            refine ⟨le_refl _, by simp, hgt, ?_⟩
            intro j x hj
            omega
          · have e : i - splitIdx = (i - (splitIdx + 1)) + 1 := by omega
            refine ⟨by omega, ?_, lt_trans hgt hlt, ?_⟩
            · rw [e, List.getElem?_cons_succ]
              exact hget
            · intro j x hj hx
              cases j with
              | zero =>
                simp only [List.getElem?_cons_zero, Option.some.injEq] at hx
                rw [← hx]
                exact hlt
              | succ j =>
                rw [List.getElem?_cons_succ] at hx
                exact hbefore j x (by omega) hx
      · rw [if_neg hgt]
        have hsle : s ≤ bestSplitScore := not_lt.mp hgt
        obtain ⟨i, best, hrun, hall, hle, hcase⟩ :=
          ih ss (splitIdx + 1) bestSplitIdx bestSplitScore hrest
        refine ⟨i, best, hrun, ?_, hle, ?_⟩
        · intro x hx
          rcases List.mem_cons.mp hx with rfl | hx
          · exact le_trans hsle hle
          · exact hall x hx
        · rcases hcase with hkeep | ⟨hi, hget, hlt, hbefore⟩
          · exact Or.inl hkeep
          · have e : i - splitIdx = (i - (splitIdx + 1)) + 1 := by omega
            refine Or.inr ⟨by omega, ?_, hlt, ?_⟩
            · rw [e, List.getElem?_cons_succ]
              exact hget
            · intro j x hj hx
              cases j with
              | zero =>
                simp only [List.getElem?_cons_zero, Option.some.injEq] at hx
                rw [← hx]
                exact lt_of_le_of_lt hsle hlt
              | succ j =>
                rw [List.getElem?_cons_succ] at hx
                exact hbefore j x (by omega) hx

/-- C16. When `k ≥ 1` and the `k` candidates pushed by the first loop all score without
error, `getBestSplitEntry` returns the candidate of greatest score, the earliest in probe
order among those of greatest score, with a gain equal to that score times
`size(space)`. -/
theorem getBestSplitEntry_first_max (env : Env) (draw node : Nat) (ts : TrainingSet)
    (samples : Subset) (space : MatrixXd) (k nMin : Int) (apprType : ApproximationType)
    (dimCandidates : List Nat) (sorted : Subset) (cands : List OrthogonalSplit)
    (scores : List ℚ) (sz : ℚ)
    (hK : 1 ≤ k)
    (hDims : env.getKDistinctFromN draw k ts.getInputDim = .ok dimCandidates)
    (hCands : candidatesLoop env (draw + 1) ts space nMin dimCandidates (List.range k.toNat)
      samples [] = .ok (sorted, cands))
    (hScores : cands.map (fun c => evalSplitScore env ts sorted c apprType)
      = scores.map Except.ok)
    (hSize : size space = .ok sz) :
    (cands.length : Int) = k
      ∧ ∃ e i best,
          getBestSplitEntry env draw node ts samples space k nMin apprType = .ok e
            ∧ cands[i]? = some e.split
            ∧ scores[i]? = some best
            ∧ (∀ s ∈ scores, s ≤ best)
            ∧ (∀ (j : Nat) (s : ℚ), j < i → scores[j]? = some s → s < best)
            ∧ e.gain = best * sz
            ∧ e.node = node ∧ e.samples = sorted := by
  have hlen := (candidatesLoop_spec env (draw + 1) ts space nMin dimCandidates _ _ _ _ _
    hCands).1
  simp only [List.length_nil, List.length_range, Nat.zero_add] at hlen
  refine ⟨by omega, ?_⟩
  cases cands with
  | nil =>
    simp only [List.length_nil] at hlen
    omega
  | cons c0 cs =>
    cases scores with
    | nil => simp at hScores
    | cons s0 ss =>
      simp only [List.map_cons, List.cons.injEq] at hScores
      obtain ⟨h0, hrest⟩ := hScores
      obtain ⟨i, best, hrun, hall, hle, hcase⟩ :=
        bestSplitLoop_spec env ts sorted apprType cs ss 1 0 s0 hrest
      have hres : getBestSplitEntry env draw node ts samples space k nMin apprType
          = .ok { node := node, gain := best * sz, split := (c0 :: cs).getD i c0
                  samples := sorted, space := space } := by
        unfold getBestSplitEntry
        rw [hDims]
        simp only []
        rw [hCands]
        simp only []
        rw [h0]
        simp only []
        rw [hrun]
        simp only []
        rw [hSize]
      refine ⟨_, i, best, hres, ?_, ?_, ?_, ?_, rfl, rfl, rfl⟩
      · rcases hcase with ⟨hi, _⟩ | ⟨hi, hget, _, _⟩
        · subst hi
          simp
        · have hi2 : i - 1 < ss.length := (List.getElem?_eq_some.mp hget).1
          have hlen2 : cs.length = ss.length := by
            have := congrArg List.length hrest
            simpa using this
          have hi3 : i < (c0 :: cs).length := by
            simp only [List.length_cons]
            omega
          show (c0 :: cs)[i]? = some ((c0 :: cs).getD i c0)
          rw [List.getD_eq_getElem _ _ hi3, List.getElem?_eq_getElem hi3]
      · rcases hcase with ⟨hi, hb⟩ | ⟨hi, hget, _, _⟩
        · subst hi
          subst hb
          simp
        · have e : i = (i - 1) + 1 := by omega
          rw [e, List.getElem?_cons_succ]
          exact hget
      · intro s hs
        rcases List.mem_cons.mp hs with rfl | hs
        · exact hle
        · exact hall s hs
      · intro j s hj hs
        rcases hcase with ⟨hi, _⟩ | ⟨hi, _, hlt, hbefore⟩
        · omega
        · cases j with
          | zero =>
            simp only [List.getElem?_cons_zero, Option.some.injEq] at hs
            rw [← hs]
            exact hlt
          | succ j =>
            rw [List.getElem?_cons_succ] at hs
            exact hbefore j s (by omega) hs

/-- C16, at a concrete input: two samples of the plane probed on both dimensions, where the
two candidates have the same score `1` and the first one is returned. -/
theorem getBestSplitEntry_first_max_witness :
    ((([⟨0, 1 / 2⟩, ⟨1, 1 / 2⟩] : List OrthogonalSplit).length : ℕ) : Int) = 2
      ∧ ∃ e i best,
          getBestSplitEntry envGrid 0 0 tsPlane [0, 1] unitSquare 2 1 .PWC = .ok e
            ∧ ([⟨0, 1 / 2⟩, ⟨1, 1 / 2⟩] : List OrthogonalSplit)[i]? = some e.split
            ∧ ([1, 1] : List ℚ)[i]? = some best
            ∧ (∀ s ∈ ([1, 1] : List ℚ), s ≤ best)
            ∧ (∀ (j : Nat) (s : ℚ), j < i → ([1, 1] : List ℚ)[j]? = some s → s < best)
            ∧ e.gain = best * 1
            ∧ e.node = 0 ∧ e.samples = [0, 1] :=
  getBestSplitEntry_first_max envGrid 0 0 tsPlane [0, 1] unitSquare 2 1 .PWC [0, 1] [0, 1]
    [⟨0, 1 / 2⟩, ⟨1, 1 / 2⟩] [1, 1] 1 (by decide) (by decide!) (by decide!) (by decide!)
    (by decide!)

/-! ## Degenerate dimensions: what the code does -/

/-- C12, the code at a failing input: over the zero-width space `[0, 0]` with the default
configuration, the root has potential gain `0 = minPotGain` and its only dimension is
degenerate (`sValMin = sValMax = 0`); `treat` lets the logic error of `evalSplitScore`
escape, and `bb2Tree` ends by that exception. -/
theorem treat_throws_on_degenerate_dimension :
    populate envGrid 0 ⟨⟨1, []⟩, [], []⟩ zeroSpace (2 * configZero.nMin) configZero.minDensity
        = .ok ⟨⟨1, [⟨[0], 0⟩, ⟨[0], 0⟩]⟩, [0, 1], [[0], [0]]⟩
      ∧ potentialGain envGrid ⟨1, [⟨[0], 0⟩, ⟨[0], 0⟩]⟩ [0, 1] (.PWC 0) zeroSpace = .ok (some 0)
      ∧ configZero.minPotGain = 0
      ∧ candidatesLoop envGrid 2 ⟨1, [⟨[0], 0⟩, ⟨[0], 0⟩]⟩ zeroSpace configZero.nMin [0] [0]
          [0, 1] [] = .ok ([0, 1], [⟨0, 0⟩])
      ∧ (treat envGrid configZero 0 (rootMachine configZero) [] zeroSpace).2
          = .error (.logic_error "Empty sample set provided to evalSplitScore")
      ∧ (treat envGrid configZero 0 (rootMachine configZero) [] zeroSpace).1.nodes
          = [⟨some (.PWC 0), ⟨0, 0⟩, none, none⟩]
      ∧ returnsTree (bb2Tree envGrid configZero) = false := by
  refine ⟨by decide!, by decide!, rfl, by decide!, by decide!, by decide!, by decide!⟩

/-- C17, the code at a failing input: with `nMin = 2` and samples at `0, 1, 1, 2` the probed
dimension is degenerate (`sValMin = sValMax = 1`), yet its candidate `(0, 1)` is pushed and
returned as the split of the entry; over the zero-width space with `nMin = 1` the outcome is
the logic error of `evalSplitScore`, not the runtime error "No possible splits". -/
theorem getBestSplitEntry_keeps_degenerate_dimension :
    (tsFlat.get 1).getInput 0 = (tsFlat.get 2).getInput 0
      ∧ candidatesLoop envGrid 1 tsFlat wideSpace 2 [0] [0] [0, 1, 2, 3] []
          = .ok ([0, 1, 2, 3], [⟨0, 1⟩])
      ∧ (getBestSplitEntry envGrid 0 0 tsFlat [0, 1, 2, 3] wideSpace 1 2 .PWC).map
          (fun e => e.split) = .ok ⟨0, 1⟩
      ∧ (getBestSplitEntry envGrid 0 0 ⟨1, [⟨[0], 0⟩, ⟨[0], 0⟩]⟩ [0, 1] zeroSpace 1 1 .PWC).map
          (fun e => e.split)
          = .error (.logic_error "Empty sample set provided to evalSplitScore") := by
  refine ⟨by decide!, by decide!, by decide!, by decide!⟩

/-- C13, the code at a failing input: over the strip `[0, 1] x [0, 0]` with a budget of two
leaves, the root is split on dimension `0`, `treat` on the lower child probes the zero-width
dimension `1` and throws the logic error, which the main loop catches; `treat` is never
called on the upper child, and the tree that `bb2Tree` returns has, as upper child of its
root, a node with neither an approximation nor children. -/
theorem bb2Tree_returns_node_without_approximation :
    returnsTree (bb2Tree envStrip configStrip) = true
      ∧ (treatLower envStrip configStrip
            (treat envStrip configStrip 0 (rootMachine configStrip) [] stripSpace).1
            ⟨0, 0, ⟨0, 1 / 2⟩, [0, 1], stripSpace⟩).2
          = .error (.logic_error "Empty sample set provided to evalSplitScore")
      ∧ (finalState (bb2Tree envStrip configStrip)).nbLeafs = 2
      ∧ (finalState (bb2Tree envStrip configStrip)).m.nodes
          = [⟨none, ⟨0, 1 / 2⟩, some 1, some 2⟩,
             ⟨some (.PWC (7 / 24)), ⟨0, 0⟩, none, none⟩,
             ⟨none, ⟨0, 0⟩, none, none⟩]
      ∧ subtree (finalState (bb2Tree envStrip configStrip)).m.nodes 3 0
          = some (.inner 0 (.leaf 1) (.leaf 2))
      ∧ ((finalState (bb2Tree envStrip configStrip)).m.nodes.map
          RegressionNode.leafOrInternal) = [true, true, false] := by
  refine ⟨by decide!, by decide!, by decide!, by decide!, by decide!, by decide!⟩

/-! ## Logic errors raised under the main loop -/

/-- The value of one iteration according to the outcomes of the two calls of `treat`. -/
theorem bb2Step_eq (env : Env) (c : BB2TreeConfig) (m : Machine) (entry : SplitEntry) :
    bb2Step env c m entry =
      match treatLower env c m entry with
      | (m1, .error (.logic_error _)) => (m1, .ok ())
      | (m1, .error e) => (m1, .error e)
      | (_, .ok ()) =>
        match treatUpper env c m entry with
        | (m2, .error (.logic_error _)) => (m2, .ok ())
        | (m2, .error e) => (m2, .error e)
        | (m2, .ok ()) => (m2, .ok ()) := by
  unfold bb2Step treatUpper
  have hL : treat env c m.nodes.length
      { m with nodes := commitSplit m.nodes entry, splitCandidates := m.splitCandidates.dropLast }
      (m.ts.applySplit entry.split entry.samples).1
      (entry.space.set entry.split.dim 1 entry.split.val) = treatLower env c m entry := rfl
  simp only [hL]
  rcases treatLower env c m entry with ⟨m1, r1⟩
  rcases r1 with e | u
  · cases e <;> rfl
  · cases u
    rfl

theorem bb2Step_of_lower_logic_error (env : Env) (c : BB2TreeConfig) (m : Machine)
    (entry : SplitEntry) (what : String)
    (h : (treatLower env c m entry).2 = .error (.logic_error what)) :
    bb2Step env c m entry = ((treatLower env c m entry).1, .ok ()) := by
  rw [bb2Step_eq]
  rcases hL : treatLower env c m entry with ⟨m1, r1⟩
  rw [hL] at h
  simp only [] at h
  subst h
  rfl

theorem bb2Step_of_upper_logic_error (env : Env) (c : BB2TreeConfig) (m : Machine)
    (entry : SplitEntry) (what : String)
    (hl : (treatLower env c m entry).2 = .ok ())
    (h : (treatUpper env c m entry).2 = .error (.logic_error what)) :
    bb2Step env c m entry = ((treatUpper env c m entry).1, .ok ()) := by
  rw [bb2Step_eq]
  rcases hL : treatLower env c m entry with ⟨m1, r1⟩
  rw [hL] at hl
  simp only [] at hl
  subst hl
  simp only []
  rcases hU : treatUpper env c m entry with ⟨m2, r2⟩
  rw [hU] at h
  simp only [] at h
  subst h
  rfl

/-- No iteration of the main loop ends by a logic error. -/
theorem bb2Step_not_logic_error (env : Env) (c : BB2TreeConfig) (m : Machine)
    (entry : SplitEntry) (what : String) :
    (bb2Step env c m entry).2 ≠ .error (.logic_error what) := by
  rw [bb2Step_eq]
  rcases treatLower env c m entry with ⟨m1, r1⟩
  rcases r1 with e | u
  · cases e <;> simp
  · cases u
    simp only []
    rcases treatUpper env c m entry with ⟨m2, r2⟩
    rcases r2 with e | u
    · cases e <;> simp
    · cases u
      simp

/-- The main loop never ends by a logic error. -/
theorem bb2Loop_not_logic_error (env : Env) (c : BB2TreeConfig) :
    ∀ (fuel : Nat) (st st1 : LoopState) (what : String),
      bb2Loop env c fuel st ≠ some (st1, .error (.logic_error what)) := by
  intro fuel
  induction fuel with
  | zero =>
    intro st st1 what h
    by_cases hlt : st.nbLeafs < c.maxLeafs
    · cases hlast : st.m.splitCandidates.getLast? with
      | none =>
        rw [bb2Loop_exit env c _ st (Or.inl hlast)] at h
        simp at h
      | some entry =>
        unfold bb2Loop at h
        rw [hlast, decide_eq_true hlt] at h
        cases h
    · rw [bb2Loop_exit env c _ st (Or.inr hlt)] at h
      simp at h
  | succ fuel ih =>
    intro st st1 what h
    by_cases hlt : st.nbLeafs < c.maxLeafs
    · cases hlast : st.m.splitCandidates.getLast? with
      | none =>
        rw [bb2Loop_exit env c _ st (Or.inl hlast)] at h
        simp at h
      | some entry =>
        rw [bb2Loop_iterate env c fuel st entry hlast hlt] at h
        have hne := bb2Step_not_logic_error env c st.m entry what
        rcases hstep : bb2Step env c st.m entry with ⟨m1, r1⟩
        rw [hstep] at h hne
        rcases r1 with e | u
        · simp only [Option.some.injEq, Prod.mk.injEq] at h
          exact hne h.2
        · cases u
          exact ih _ st1 what h
    · rw [bb2Loop_exit env c _ st (Or.inr hlt)] at h
      simp at h

/-- A call of `treat` that throws leaves the pending set as it was. -/
theorem treat_error_keeps_candidates (env : Env) (c : BB2TreeConfig) (node : Nat) (m : Machine)
    (samples : Subset) (space : MatrixXd) (e : Exn)
    (h : (treat env c node m samples space).2 = .error e) :
    (treat env c node m samples space).1.splitCandidates = m.splitCandidates := by
  cases hp : populate env m.draws ⟨m.ts, samples, m.evalLog⟩ space (2 * c.nMin) c.minDensity with
  | error e1 =>
    rw [treat_populate_error env c node m samples space e1 hp]
  | ok p =>
    cases hg : potentialGain env p.ts p.samples (getApproximation p.ts p.samples c.apprType)
        space with
    | error e1 =>
      rw [treat_gain_error env c node m samples space p e1 hp hg]
      rfl
    | ok g =>
      cases hr : gainReached c g with
      | false =>
        rw [treat_low_gain env c node m samples space p g hp hg hr]
        rfl
      | true =>
        cases hb : getBestSplitEntry env (m.draws + 1) node p.ts p.samples space c.k c.nMin
            c.apprType with
        | error e1 =>
          rw [treat_split_error env c node m samples space p g e1 hp hg hr hb]
          rfl
        | ok entry =>
          rw [treat_split_found env c node m samples space p g entry hp hg hr hb] at h
          simp at h

theorem some_getD_of_isSome {α : Type} (o : Option α) (d : α) (h : o.isSome = true) :
    o = some (o.getD d) := by
  cases o with
  | none => simp at h
  | some a => rfl

/-- C14. When, in an iteration of the main loop, `treat` on the lower or on the upper child
throws the logic error, the iteration ends normally in the state left by that call: the
pending set holds the remaining entries (and the entry of the lower child if it was
inserted), `nbLeafs` is incremented and the loop goes on from its condition.  No logic error
raised under the loop ends `bb2Tree`: the only one that can is that of the call on the
root. -/
theorem logic_error_in_child_is_caught (env : Env) (c : BB2TreeConfig) (fuel : Nat)
    (st : LoopState) (entry : SplitEntry) (what : String)
    (hlast : st.m.splitCandidates.getLast? = some entry)
    (hlt : st.nbLeafs < c.maxLeafs)
    (hErr : (treatLower env c st.m entry).2 = .error (.logic_error what)
      ∨ ((treatLower env c st.m entry).2 = .ok ()
        ∧ (treatUpper env c st.m entry).2 = .error (.logic_error what))) :
    (∃ m1, bb2Step env c st.m entry = (m1, .ok ())
        ∧ (m1 = (treatLower env c st.m entry).1 ∨ m1 = (treatUpper env c st.m entry).1)
        ∧ (∀ e ∈ m1.splitCandidates,
            e ∈ st.m.splitCandidates.dropLast ∨ e.node = st.m.nodes.length)
        ∧ bb2Loop env c (fuel + 1) st
            = bb2Loop env c fuel
                { m := m1, nbLeafs := st.nbLeafs + 1
                  commits := st.commits ++ [(entry, st.m.splitCandidates.dropLast)] })
      ∧ (∀ st1 w, bb2Loop env c (fuel + 1) st ≠ some (st1, .error (.logic_error w)))
      ∧ (∀ st1 w, bb2Tree env c = some (st1, .error (.logic_error w)) →
          (treat env c 0 (rootMachine c) [] c.space).2 = .error (.logic_error w)) := by
  have hmemL : ∀ e ∈ (treatLower env c st.m entry).1.splitCandidates,
      e ∈ st.m.splitCandidates.dropLast ∨ e.node = st.m.nodes.length := fun e he =>
    treat_candidates_mem env c _ _ _ _ e he
  refine ⟨?_, fun st1 w => bb2Loop_not_logic_error env c _ st st1 w, ?_⟩
  · rcases hErr with hL | ⟨hL, hU⟩
    · have hstep := bb2Step_of_lower_logic_error env c st.m entry what hL
      refine ⟨_, hstep, Or.inl rfl, hmemL, ?_⟩
      rw [bb2Loop_iterate env c fuel st entry hlast hlt, hstep]
    · have hstep := bb2Step_of_upper_logic_error env c st.m entry what hL hU
      refine ⟨_, hstep, Or.inr rfl, ?_, ?_⟩
      · intro e he
        have hkeep := treat_error_keeps_candidates env c (st.m.nodes.length + 1)
          (treatLower env c st.m entry).1 (st.m.ts.applySplit entry.split entry.samples).2
          (entry.space.set entry.split.dim 0 entry.split.val) (.logic_error what) hU
        unfold treatUpper at he
        rw [hkeep] at he
        exact hmemL e he
      · rw [bb2Loop_iterate env c fuel st entry hlast hlt, hstep]
  · intro st1 w h
    rw [bb2Tree_eq] at h
    rcases htr : treat env c 0 (rootMachine c) [] c.space with ⟨m1, r1⟩
    rw [htr] at h
    rcases r1 with e | u
    · simp only [Option.some.injEq, Prod.mk.injEq] at h
      exact h.2
    · cases u
      exact absurd h (bb2Loop_not_logic_error env c _ _ st1 w)

/-- C14, at a concrete input: the first iteration of the run over the strip, where `treat` on
the lower child throws the logic error. -/
theorem logic_error_in_child_is_caught_witness :
    (∃ m1, bb2Step envStrip configStrip stripRootState.m stripPopped = (m1, .ok ())
        ∧ (m1 = (treatLower envStrip configStrip stripRootState.m stripPopped).1
          ∨ m1 = (treatUpper envStrip configStrip stripRootState.m stripPopped).1)
        ∧ (∀ e ∈ m1.splitCandidates,
            e ∈ stripRootState.m.splitCandidates.dropLast
              ∨ e.node = stripRootState.m.nodes.length)
        ∧ bb2Loop envStrip configStrip (1 + 1) stripRootState
            = bb2Loop envStrip configStrip 1
                { m := m1, nbLeafs := stripRootState.nbLeafs + 1
                  commits := stripRootState.commits
                    ++ [(stripPopped, stripRootState.m.splitCandidates.dropLast)] })
      ∧ (∀ st1 w, bb2Loop envStrip configStrip (1 + 1) stripRootState
          ≠ some (st1, .error (.logic_error w)))
      ∧ (∀ st1 w, bb2Tree envStrip configStrip = some (st1, .error (.logic_error w)) →
          (treat envStrip configStrip 0 (rootMachine configStrip) [] configStrip.space).2
            = .error (.logic_error w)) :=
  logic_error_in_child_is_caught envStrip configStrip 1 stripRootState stripPopped
    "Empty sample set provided to evalSplitScore"
    (some_getD_of_isSome _ _ (by decide!)) (by decide) (Or.inl (by decide!))

/-! ## Pending entries and their stored subsets -/

theorem evalSplitScore_ok_nonempty (env : Env) (ls : TrainingSet) (samples : Subset)
    (split : OrthogonalSplit) (apprType : ApproximationType) (score : ℚ)
    (h : evalSplitScore env ls samples split apprType = .ok score) :
    (ls.applySplit split samples).1 ≠ [] ∧ (ls.applySplit split samples).2 ≠ [] := by
  unfold evalSplitScore at h
  simp only [List.length_eq_zero] at h
  split at h
  · cases h
  · rename_i hne
    rw [not_or] at hne
    exact hne

theorem bestSplitLoop_ok_all (env : Env) (ts : TrainingSet) (samples : Subset)
    (apprType : ApproximationType) :
    ∀ (cs : List OrthogonalSplit) (splitIdx bestSplitIdx : Nat) (bestSplitScore : ℚ)
      (r : Nat × ℚ),
      bestSplitLoop env ts samples apprType cs splitIdx bestSplitIdx bestSplitScore = .ok r →
      ∀ c ∈ cs, ∃ s, evalSplitScore env ts samples c apprType = .ok s := by
  intro cs
  induction cs with
  | nil => intro _ _ _ _ _ c hc; simp at hc
  | cons c0 cs ih =>
    intro splitIdx bestSplitIdx bestSplitScore r h c hc
    unfold bestSplitLoop at h
    split at h
    · cases h
    · rename_i s hs
      have hrest : ∀ c ∈ cs, ∃ s, evalSplitScore env ts samples c apprType = .ok s := by
        split at h
        · exact ih _ _ _ _ h
        · exact ih _ _ _ _ h
      rcases List.mem_cons.mp hc with rfl | hc
      · exact ⟨s, hs⟩
      · exact hrest c hc

theorem getD_mem_cons {α : Type} (c0 : α) (cs : List α) (i : Nat) :
    (c0 :: cs).getD i c0 ∈ c0 :: cs := by
  by_cases hi : i < (c0 :: cs).length
  · rw [List.getD_eq_getElem _ _ hi]
    exact List.getElem_mem _
  · rw [List.getD_eq_default _ _ (not_lt.mp hi)]
    exact List.mem_cons_self _ _

/-- The entry returned by `getBestSplitEntry` stores a rearrangement of the subset and a
split that cuts it in two non-empty parts. -/
theorem getBestSplitEntry_partitions (env : Env) (draw node : Nat) (ts : TrainingSet)
    (samples : Subset) (space : MatrixXd) (k nMin : Int) (apprType : ApproximationType)
    (e : SplitEntry)
    (h : getBestSplitEntry env draw node ts samples space k nMin apprType = .ok e) :
    e.samples.Perm samples
      ∧ (ts.applySplit e.split e.samples).1 ≠ []
      ∧ (ts.applySplit e.split e.samples).2 ≠ [] := by
  unfold getBestSplitEntry at h
  split at h
  · cases h
  · split at h
    · cases h
    · rename_i sorted cands hcands
      split at h
      · cases h
      · rename_i c0 cs
        split at h
        · cases h
        · rename_i s0 h0
          split at h
          · cases h
          · rename_i i best hrun
            split at h
            · cases h
            · cases h
              have hperm := (candidatesLoop_spec env (draw + 1) ts space nMin _ _ _ _ _ _
                hcands).2
              have hall := bestSplitLoop_ok_all env ts sorted apprType cs 1 0 s0 _ hrun
              have hmem := getD_mem_cons c0 cs i
              have hok : ∃ s, evalSplitScore env ts sorted ((c0 :: cs).getD i c0) apprType
                  = .ok s := by
                rcases List.mem_cons.mp hmem with heq | hin
                · rw [heq]; exact ⟨s0, h0⟩
                · exact hall _ hin
              obtain ⟨s, hs⟩ := hok
              exact ⟨hperm, evalSplitScore_ok_nonempty env ts sorted _ apprType s hs⟩

theorem TrainingSet.get_extend (ts ts1 : TrainingSet) (extra : List Sample)
    (hext : ts1.data = ts.data ++ extra) (i : Nat) (hi : i < ts.data.length) :
    ts1.get i = ts.get i := by
  unfold TrainingSet.get
  rw [hext, List.getD_eq_getElem?_getD, List.getD_eq_getElem?_getD,
    List.getElem?_append_left hi]

/-- Appending samples to the training set does not change the partition of a subset whose
indices were already in it. -/
theorem applySplit_extend (ts ts1 : TrainingSet) (extra : List Sample)
    (hext : ts1.data = ts.data ++ extra) (split : OrthogonalSplit) (samples : Subset)
    (hvalid : ∀ i ∈ samples, i < ts.data.length) :
    ts1.applySplit split samples = ts.applySplit split samples := by
  unfold TrainingSet.applySplit
  congr 1
  · apply List.filter_congr
    intro i hi
    rw [TrainingSet.get_extend ts ts1 extra hext i (hvalid i hi)]
  · apply List.filter_congr
    intro i hi
    rw [TrainingSet.get_extend ts ts1 extra hext i (hvalid i hi)]

/-- The function `populate` only appends to the training set, and keeps the indices of the
subset inside it. -/
theorem populate_extends (env : Env) (draw : Nat) (st p : Populated) (space : MatrixXd)
    (minSize : Int) (minDensity : ℚ)
    (hp : populate env draw st space minSize minDensity = .ok p)
    (hvalid : ∀ i ∈ st.samples, i < st.ts.data.length) :
    (∃ extra, p.ts.data = st.ts.data ++ extra)
      ∧ (∀ i ∈ p.samples, i < p.ts.data.length) := by
  obtain ⟨sz, _, ⟨_, h⟩ | ⟨_, h⟩⟩ := populate_ok_cases env draw st p space minSize minDensity hp
  · rw [h]
    exact ⟨⟨[], by simp⟩, hvalid⟩
  · rw [h, populateLoop_eq]
    refine ⟨⟨_, rfl⟩, ?_⟩
    intro i hi
    simp only [List.mem_append, List.mem_range'_1] at hi
    simp only [List.length_append, List.length_map]
    rcases hi with h1 | ⟨_, h2⟩
    · have := hvalid i h1
      omega
    · unfold TrainingSet.size at h2
      exact h2

/-- An entry found in the pending set after `treat` was there before, or is the entry that
`getBestSplitEntry` returned over the training set and the subset left by `populate`. -/
theorem treat_inserted (env : Env) (c : BB2TreeConfig) (node : Nat) (m : Machine)
    (samples : Subset) (space : MatrixXd) :
    ∀ e ∈ (treat env c node m samples space).1.splitCandidates,
      e ∈ m.splitCandidates
        ∨ ∃ p, populate env m.draws ⟨m.ts, samples, m.evalLog⟩ space (2 * c.nMin) c.minDensity
              = .ok p
            ∧ getBestSplitEntry env (m.draws + 1) node p.ts p.samples space c.k c.nMin
                c.apprType = .ok e
            ∧ (treat env c node m samples space).1.ts = p.ts := by
  intro e he
  cases hp : populate env m.draws ⟨m.ts, samples, m.evalLog⟩ space (2 * c.nMin) c.minDensity with
  | error e1 =>
    rw [treat_populate_error env c node m samples space e1 hp] at he
    exact Or.inl he
  | ok p =>
    cases hg : potentialGain env p.ts p.samples (getApproximation p.ts p.samples c.apprType)
        space with
    | error e1 =>
      rw [treat_gain_error env c node m samples space p e1 hp hg] at he
      exact Or.inl he
    | ok g =>
      cases hr : gainReached c g with
      | false =>
        rw [treat_low_gain env c node m samples space p g hp hg hr] at he
        exact Or.inl he
      | true =>
        cases hb : getBestSplitEntry env (m.draws + 1) node p.ts p.samples space c.k c.nMin
            c.apprType with
        | error e1 =>
          rw [treat_split_error env c node m samples space p g e1 hp hg hr hb] at he
          exact Or.inl he
        | ok entry =>
          rw [treat_split_found env c node m samples space p g entry hp hg hr hb] at he ⊢
          rcases mem_setInsert he with rfl | h2
          · exact Or.inr ⟨p, rfl, hb, rfl⟩
          · exact Or.inl h2

/-- The call `treat` only appends to the training set. -/
theorem treat_ts_extends (env : Env) (c : BB2TreeConfig) (node : Nat) (m : Machine)
    (samples : Subset) (space : MatrixXd) (hvalid : ∀ i ∈ samples, i < m.ts.data.length) :
    ∃ extra, (treat env c node m samples space).1.ts.data = m.ts.data ++ extra := by
  rcases treat_ts_evalLog env c node m samples space with ⟨e, _, ht⟩ | ⟨p, hp, hts, _⟩
  · rw [ht]
    exact ⟨[], by simp⟩
  · rw [hts]
    exact (populate_extends env m.draws _ p space _ _ hp hvalid).1

/-- The call `treat` on a subset whose indices are in the training set keeps the invariant of
the pending entries. -/
theorem treat_pendingInv (env : Env) (c : BB2TreeConfig) (node : Nat) (m : Machine)
    (samples : Subset) (space : MatrixXd) (hinv : PendingInv m)
    (hvalid : ∀ i ∈ samples, i < m.ts.data.length) :
    PendingInv (treat env c node m samples space).1 := by
  obtain ⟨extra, hext⟩ := treat_ts_extends env c node m samples space hvalid
  intro e he
  rcases treat_inserted env c node m samples space e he with hold | ⟨p, hp, hb, hts⟩
  · obtain ⟨hv, hl, hu⟩ := hinv e hold
    refine ⟨?_, ?_, ?_⟩
    · intro i hi
      have := hv i hi
      rw [hext, List.length_append]
      omega
    · rw [applySplit_extend m.ts _ extra hext e.split e.samples hv]
      exact hl
    · rw [applySplit_extend m.ts _ extra hext e.split e.samples hv]
      exact hu
  · obtain ⟨hperm, hl, hu⟩ := getBestSplitEntry_partitions _ _ _ _ _ _ _ _ _ e hb
    have hpv := (populate_extends env m.draws _ p space _ _ hp hvalid).2
    rw [hts]
    refine ⟨?_, hl, hu⟩
    intro i hi
    exact hpv i (hperm.subset hi)

/-- One iteration of the main loop keeps the invariant of the pending entries. -/
theorem bb2Step_pendingInv (env : Env) (c : BB2TreeConfig) (m : Machine) (entry : SplitEntry)
    (hinv : PendingInv m) (hlast : m.splitCandidates.getLast? = some entry) :
    PendingInv (bb2Step env c m entry).1 := by
  have hentry := hinv entry (mem_of_getLast? hlast)
  have h0 : PendingInv (commitState m entry) := fun e he =>
    hinv e (List.dropLast_subset _ he)
  have hvl : ∀ i ∈ (m.ts.applySplit entry.split entry.samples).1, i < m.ts.data.length :=
    fun i hi => hentry.1 i (List.mem_of_mem_filter hi)
  have hvu : ∀ i ∈ (m.ts.applySplit entry.split entry.samples).2, i < m.ts.data.length :=
    fun i hi => hentry.1 i (List.mem_of_mem_filter hi)
  have hLower : PendingInv (treatLower env c m entry).1 :=
    treat_pendingInv env c _ (commitState m entry) _ _ h0 hvl
  have hUpper : PendingInv (treatUpper env c m entry).1 := by
    apply treat_pendingInv env c _ _ _ _ hLower
    intro i hi
    obtain ⟨extra, hext⟩ := treat_ts_extends env c m.nodes.length (commitState m entry)
      (m.ts.applySplit entry.split entry.samples).1
      (entry.space.set entry.split.dim 1 entry.split.val) hvl
    have := hvu i hi
    show i < (treatLower env c m entry).1.ts.data.length
    unfold treatLower
    rw [hext, List.length_append]
    show i < m.ts.data.length + extra.length
    omega
  rcases bb2Step_cases env c m entry with ⟨r, hr, _⟩ | ⟨r, hr, _⟩
  · rw [hr]; exact hLower
  · rw [hr]; exact hUpper

/-- The invariant of the pending entries holds whenever the loop condition is evaluated. -/
theorem loopReach_pendingInv (env : Env) (c : BB2TreeConfig) (st : LoopState)
    (h : LoopReach env c st) : PendingInv st.m := by
  induction h with
  | root m1 h =>
    have := treat_pendingInv env c 0 (rootMachine c) [] c.space
      (fun e he => by simp [rootMachine] at he) (fun i hi => by simp at hi)
    rw [h] at this
    exact this
  | step st entry m1 _ hlast _ hstep ih =>
    have := bb2Step_pendingInv env c st.m entry ih hlast
    rw [hstep] at this
    exact this

/-- The state in which `bb2Tree` returns is one of the states in which the loop condition is
evaluated. -/
theorem loopReach_bb2Tree (env : Env) (c : BB2TreeConfig) (st : LoopState)
    (h : bb2Tree env c = some (st, .ok ())) : LoopReach env c st := by
  rw [bb2Tree_eq] at h
  rcases htr : treat env c 0 (rootMachine c) [] c.space with ⟨m1, r1⟩
  rw [htr] at h
  rcases r1 with e | u
  · simp only [Option.some.injEq, Prod.mk.injEq] at h
    exact absurd h.2 (by simp)
  · cases u
    simp only [] at h
    refine (bb2Loop_invariant_ok env c (LoopReach env c) ?_ c.maxLeafs ⟨m1, 1, []⟩ st
      (LoopReach.root m1 htr) h).1
    intro st0 entry m2 hP hlast hlt hstep
    exact LoopReach.step st0 entry m2 hP hlast hlt hstep

/-- C18. Every entry that `treat` inserts in the pending set cuts its own stored subset,
by its own stored split, in a non-empty lower and a non-empty upper part; and whenever the
main loop of `bb2Tree` evaluates its condition, every pending entry still does so over the
training set as it has grown, so that the two subsets computed when an entry is removed and
committed are never empty. -/
theorem pending_entries_split_their_subsets (env : Env) (c : BB2TreeConfig) (st : LoopState)
    (hReach : LoopReach env c st) :
    (∀ e ∈ st.m.splitCandidates,
        (st.m.ts.applySplit e.split e.samples).1 ≠ []
          ∧ (st.m.ts.applySplit e.split e.samples).2 ≠ [])
      ∧ (∀ entry, st.m.splitCandidates.getLast? = some entry →
          (st.m.ts.applySplit entry.split entry.samples).1 ≠ []
            ∧ (st.m.ts.applySplit entry.split entry.samples).2 ≠ [])
      ∧ (∀ (node : Nat) (m : Machine) (samples : Subset) (space : MatrixXd),
          ∀ e ∈ (treat env c node m samples space).1.splitCandidates,
            e ∉ m.splitCandidates →
            ((treat env c node m samples space).1.ts.applySplit e.split e.samples).1 ≠ []
              ∧ ((treat env c node m samples space).1.ts.applySplit e.split e.samples).2
                  ≠ []) := by
  have hinv := loopReach_pendingInv env c st hReach
  refine ⟨fun e he => (hinv e he).2, fun entry hlast => (hinv entry (mem_of_getLast? hlast)).2,
    ?_⟩
  intro node m samples space e he hnew
  rcases treat_inserted env c node m samples space e he with hold | ⟨p, _, hb, hts⟩
  · exact absurd hold hnew
  · rw [hts]
    exact (getBestSplitEntry_partitions _ _ _ _ _ _ _ _ _ e hb).2

/-- C18, at a concrete input: the state in which the loop condition is first evaluated in
the run of `envGrid` over the unit interval, where one entry is pending. -/
theorem pending_entries_split_their_subsets_witness :
    (∀ e ∈ gridRootState.m.splitCandidates,
        (gridRootState.m.ts.applySplit e.split e.samples).1 ≠ []
          ∧ (gridRootState.m.ts.applySplit e.split e.samples).2 ≠ [])
      ∧ (∀ entry, gridRootState.m.splitCandidates.getLast? = some entry →
          (gridRootState.m.ts.applySplit entry.split entry.samples).1 ≠ []
            ∧ (gridRootState.m.ts.applySplit entry.split entry.samples).2 ≠ [])
      ∧ (∀ (node : Nat) (m : Machine) (samples : Subset) (space : MatrixXd),
          ∀ e ∈ (treat envGrid (configUnit 3) node m samples space).1.splitCandidates,
            e ∉ m.splitCandidates →
            ((treat envGrid (configUnit 3) node m samples space).1.ts.applySplit
                e.split e.samples).1 ≠ []
              ∧ ((treat envGrid (configUnit 3) node m samples space).1.ts.applySplit
                  e.split e.samples).2 ≠ []) :=
  pending_entries_split_their_subsets envGrid (configUnit 3) gridRootState
    (LoopReach.root _ (Prod.ext rfl (by decide!)))

/-! ## Child spaces -/

theorem sizeLoopBinary64_ok (space : MatrixXd) :
    ∀ (rows : List Nat) (prod : ℚ),
      (∀ row ∈ rows, space.coeff row 0 ≤ space.coeff row 1) →
      ∃ sz, sizeLoopBinary64 space rows prod = .ok sz := by
  intro rows
  induction rows with
  | nil =>
    intro prod _
    exact ⟨prod, rfl⟩
  | cons row rows ih =>
    intro prod h
    unfold sizeLoopBinary64
    have hrow : ¬ binary64 (space.coeff row 1 - space.coeff row 0) < 0 :=
      not_lt.mpr (binary64_nonneg _ (sub_nonneg.mpr (h row (List.mem_cons_self _ _))))
    simp only [hrow, if_false]
    exact ih _ (fun r hr => h r (List.mem_cons_of_mem _ hr))

/-- In binary64 too, `size` returns on a valid space. -/
theorem sizeBinary64_of_valid (space : MatrixXd) (hCols : space.cols = 2)
    (hValid : ∀ row, row < space.rows → space.coeff row 0 ≤ space.coeff row 1) :
    ∃ sz, sizeBinary64 space = .ok sz := by
  unfold sizeBinary64
  rw [if_neg (by simp [hCols])]
  exact sizeLoopBinary64_ok space _ _ (fun row hrow => hValid row (List.mem_range.mp hrow))

/-- C19 as stated fails on the doubles that the source computes: the space from `0` to `0.9`
is valid and the split at `0.2` lies between its bounds, but the sizes of the two child
spaces, `0.2` and `0.9 - 0.2`, add up in binary64 to `0.8999999999999999`, not to the size
`0.9` of the parent. -/
theorem child_sizes_not_additive_in_binary64 :
    spaceNineTenths.cols = 2
      ∧ (∀ row, row < spaceNineTenths.rows →
          spaceNineTenths.coeff row 0 ≤ spaceNineTenths.coeff row 1)
      ∧ spaceNineTenths.coeff 0 0 ≤ binary64 (1 / 5)
      ∧ binary64 (1 / 5) ≤ spaceNineTenths.coeff 0 1
      ∧ ∃ sizeLower sizeUpper sizeParent,
          sizeBinary64 (spaceNineTenths.set 0 1 (binary64 (1 / 5))) = .ok sizeLower
            ∧ sizeBinary64 (spaceNineTenths.set 0 0 (binary64 (1 / 5))) = .ok sizeUpper
            ∧ sizeBinary64 spaceNineTenths = .ok sizeParent
            ∧ binary64 (sizeLower + sizeUpper) = 2026619832316723 / 2251799813685248
            ∧ sizeParent = 8106479329266893 / 9007199254740992
            ∧ binary64 (sizeLower + sizeUpper) ≠ sizeParent := by
  refine ⟨rfl, ?_, by decide!, by decide!, 3602879701896397 / 18014398509481984,
    3152519739159347 / 4503599627370496, 8106479329266893 / 9007199254740992,
    by decide!, by decide!, by decide!, by decide!, rfl, by decide!⟩
  intro row _
  show (0 : ℚ) ≤ binary64 (9 / 10)
  decide!

/-- C19, amended. For a pending entry whose space is valid and whose split `(dim, val)` has
`min[dim] ≤ val ≤ max[dim]`, the two child spaces that `bb2Tree` builds at commit time and
passes to `treat` change one cell of the parent each and are valid, so that `size` returns
on both, in binary64 as in exact arithmetic; the exact products of their extents add up to
that of the parent, that is `size(lower) + size(upper) = size(parent)` when the arithmetic is
exact, while the doubles need not add up. -/
theorem child_spaces_valid_and_additive (env : Env) (c : BB2TreeConfig) (m : Machine)
    (entry : SplitEntry)
    (hCols : entry.space.cols = 2)
    (hValid : ∀ row, row < entry.space.rows → entry.space.coeff row 0 ≤ entry.space.coeff row 1)
    (hDim : entry.split.dim < entry.space.rows)
    (hMin : entry.space.coeff entry.split.dim 0 ≤ entry.split.val)
    (hMax : entry.split.val ≤ entry.space.coeff entry.split.dim 1) :
    (treatLower env c m entry
        = treat env c m.nodes.length (commitState m entry)
            (m.ts.applySplit entry.split entry.samples).1
            (entry.space.set entry.split.dim 1 entry.split.val)
      ∧ treatUpper env c m entry
        = treat env c (m.nodes.length + 1) (treatLower env c m entry).1
            (m.ts.applySplit entry.split entry.samples).2
            (entry.space.set entry.split.dim 0 entry.split.val)
      ∧ bb2Step env c m entry =
          match treatLower env c m entry with
          | (m1, .error (.logic_error _)) => (m1, .ok ())
          | (m1, .error e) => (m1, .error e)
          | (_, .ok ()) =>
            match treatUpper env c m entry with
            | (m2, .error (.logic_error _)) => (m2, .ok ())
            | (m2, .error e) => (m2, .error e)
            | (m2, .ok ()) => (m2, .ok ()))
      ∧ ((entry.space.set entry.split.dim 1 entry.split.val).cols = 2
        ∧ (entry.space.set entry.split.dim 1 entry.split.val).rows = entry.space.rows
        ∧ ∀ row, row < entry.space.rows →
            (entry.space.set entry.split.dim 1 entry.split.val).coeff row 0
              ≤ (entry.space.set entry.split.dim 1 entry.split.val).coeff row 1)
      ∧ ((entry.space.set entry.split.dim 0 entry.split.val).cols = 2
        ∧ (entry.space.set entry.split.dim 0 entry.split.val).rows = entry.space.rows
        ∧ ∀ row, row < entry.space.rows →
            (entry.space.set entry.split.dim 0 entry.split.val).coeff row 0
              ≤ (entry.space.set entry.split.dim 0 entry.split.val).coeff row 1)
      ∧ (entry.space.set entry.split.dim 1 entry.split.val).coeff entry.split.dim 1
          = entry.split.val
      ∧ (entry.space.set entry.split.dim 0 entry.split.val).coeff entry.split.dim 0
          = entry.split.val
      ∧ (∀ row col, ¬ (row = entry.split.dim ∧ col = 1) →
            (entry.space.set entry.split.dim 1 entry.split.val).coeff row col
              = entry.space.coeff row col)
      ∧ (∀ row col, ¬ (row = entry.split.dim ∧ col = 0) →
            (entry.space.set entry.split.dim 0 entry.split.val).coeff row col
              = entry.space.coeff row col)
      ∧ (∃ sizeLower sizeUpper sizeParent,
          size (entry.space.set entry.split.dim 1 entry.split.val) = .ok sizeLower
            ∧ size (entry.space.set entry.split.dim 0 entry.split.val) = .ok sizeUpper
            ∧ size entry.space = .ok sizeParent
            ∧ sizeLower + sizeUpper = sizeParent)
      ∧ ∃ sizeLower sizeUpper sizeParent,
          sizeBinary64 (entry.space.set entry.split.dim 1 entry.split.val) = .ok sizeLower
            ∧ sizeBinary64 (entry.space.set entry.split.dim 0 entry.split.val) = .ok sizeUpper
            ∧ sizeBinary64 entry.space = .ok sizeParent := by
  generalize hspace : entry.space = space at *
  generalize hdim : entry.split.dim = dim at *
  generalize hval : entry.split.val = val at *
  have hl : ∀ row col, ¬ (row = dim ∧ col = 1) →
      (space.set dim 1 val).coeff row col = space.coeff row col := fun row col h => by
    simp only [MatrixXd.set, h, if_false]
  have hu : ∀ row col, ¬ (row = dim ∧ col = 0) →
      (space.set dim 0 val).coeff row col = space.coeff row col := fun row col h => by
    simp only [MatrixXd.set, h, if_false]
  have hl1 : (space.set dim 1 val).coeff dim 1 = val := by simp [MatrixXd.set]
  have hu0 : (space.set dim 0 val).coeff dim 0 = val := by simp [MatrixXd.set]
  have hvl : ∀ row, row < space.rows →
      (space.set dim 1 val).coeff row 0 ≤ (space.set dim 1 val).coeff row 1 := by
    intro row hrow
    rw [hl row 0 (by simp)]
    by_cases hr : row = dim
    · subst hr; rw [hl1]; exact hMin
    · rw [hl row 1 (by simp [hr])]; exact hValid row hrow
  have hvu : ∀ row, row < space.rows →
      (space.set dim 0 val).coeff row 0 ≤ (space.set dim 0 val).coeff row 1 := by
    intro row hrow
    rw [hu row 1 (by simp)]
    by_cases hr : row = dim
    · subst hr; rw [hu0]; exact hMax
    · rw [hu row 0 (by simp [hr])]; exact hValid row hrow
  obtain ⟨bl, hbl⟩ := sizeBinary64_of_valid (space.set dim 1 val) hCols hvl
  obtain ⟨bu, hbu⟩ := sizeBinary64_of_valid (space.set dim 0 val) hCols hvu
  obtain ⟨bp, hbp⟩ := sizeBinary64_of_valid space hCols hValid
  refine ⟨⟨?_, ?_, bb2Step_eq env c m entry⟩, ⟨hCols, rfl, hvl⟩, ⟨hCols, rfl, hvu⟩, hl1, hu0,
    hl, hu, ⟨_, _, _, size_of_valid _ hCols hvl, size_of_valid _ hCols hvu,
      size_of_valid space hCols hValid, ?_⟩, ⟨bl, bu, bp, hbl, hbu, hbp⟩⟩
  · unfold treatLower
    rw [hspace, hdim, hval]
  · unfold treatUpper
    rw [hspace, hdim, hval]
  apply prod_range_split _ _ _ dim _ _ _ space.rows hDim
  · show (space.set dim 1 val).coeff dim 1 - (space.set dim 1 val).coeff dim 0
        + ((space.set dim 0 val).coeff dim 1 - (space.set dim 0 val).coeff dim 0)
      = space.coeff dim 1 - space.coeff dim 0
    rw [hl1, hu0, hl dim 0 (by simp), hu dim 1 (by simp)]
    ring
  · intro i hi
    show (space.set dim 1 val).coeff i 1 - (space.set dim 1 val).coeff i 0 = _
    rw [hl i 1 (by simp [hi]), hl i 0 (by simp)]
  · intro i hi
    show (space.set dim 0 val).coeff i 1 - (space.set dim 0 val).coeff i 0 = _
    rw [hu i 1 (by simp), hu i 0 (by simp [hi])]

/-- C19 amended, at a concrete input: the entry of the root in the run over the strip, whose
space `[0, 1] x [0, 0]` is split at `1/2` on the first dimension. -/
theorem child_spaces_valid_and_additive_witness :
    (treatLower envStrip configStrip stripRootState.m stripEntry
        = treat envStrip configStrip stripRootState.m.nodes.length (commitState stripRootState.m stripEntry)
            (stripRootState.m.ts.applySplit stripEntry.split stripEntry.samples).1
            (stripEntry.space.set stripEntry.split.dim 1 stripEntry.split.val)
      ∧ treatUpper envStrip configStrip stripRootState.m stripEntry
        = treat envStrip configStrip (stripRootState.m.nodes.length + 1) (treatLower envStrip configStrip stripRootState.m stripEntry).1
            (stripRootState.m.ts.applySplit stripEntry.split stripEntry.samples).2
            (stripEntry.space.set stripEntry.split.dim 0 stripEntry.split.val)
      ∧ bb2Step envStrip configStrip stripRootState.m stripEntry =
          match treatLower envStrip configStrip stripRootState.m stripEntry with
          | (m1, .error (.logic_error _)) => (m1, .ok ())
          | (m1, .error e) => (m1, .error e)
          | (_, .ok ()) =>
            match treatUpper envStrip configStrip stripRootState.m stripEntry with
            | (m2, .error (.logic_error _)) => (m2, .ok ())
            | (m2, .error e) => (m2, .error e)
            | (m2, .ok ()) => (m2, .ok ()))
      ∧ ((stripEntry.space.set stripEntry.split.dim 1 stripEntry.split.val).cols = 2
        ∧ (stripEntry.space.set stripEntry.split.dim 1 stripEntry.split.val).rows = stripEntry.space.rows
        ∧ ∀ row, row < stripEntry.space.rows →
            (stripEntry.space.set stripEntry.split.dim 1 stripEntry.split.val).coeff row 0
              ≤ (stripEntry.space.set stripEntry.split.dim 1 stripEntry.split.val).coeff row 1)
      ∧ ((stripEntry.space.set stripEntry.split.dim 0 stripEntry.split.val).cols = 2
        ∧ (stripEntry.space.set stripEntry.split.dim 0 stripEntry.split.val).rows = stripEntry.space.rows
        ∧ ∀ row, row < stripEntry.space.rows →
            (stripEntry.space.set stripEntry.split.dim 0 stripEntry.split.val).coeff row 0
              ≤ (stripEntry.space.set stripEntry.split.dim 0 stripEntry.split.val).coeff row 1)
      ∧ (stripEntry.space.set stripEntry.split.dim 1 stripEntry.split.val).coeff stripEntry.split.dim 1
          = stripEntry.split.val
      ∧ (stripEntry.space.set stripEntry.split.dim 0 stripEntry.split.val).coeff stripEntry.split.dim 0
          = stripEntry.split.val
      ∧ (∀ row col, ¬ (row = stripEntry.split.dim ∧ col = 1) →
            (stripEntry.space.set stripEntry.split.dim 1 stripEntry.split.val).coeff row col
              = stripEntry.space.coeff row col)
      ∧ (∀ row col, ¬ (row = stripEntry.split.dim ∧ col = 0) →
            (stripEntry.space.set stripEntry.split.dim 0 stripEntry.split.val).coeff row col
              = stripEntry.space.coeff row col)
      ∧ (∃ sizeLower sizeUpper sizeParent,
          size (stripEntry.space.set stripEntry.split.dim 1 stripEntry.split.val) = .ok sizeLower
            ∧ size (stripEntry.space.set stripEntry.split.dim 0 stripEntry.split.val) = .ok sizeUpper
            ∧ size stripEntry.space = .ok sizeParent
            ∧ sizeLower + sizeUpper = sizeParent)
      ∧ ∃ sizeLower sizeUpper sizeParent,
          sizeBinary64 (stripEntry.space.set stripEntry.split.dim 1 stripEntry.split.val) = .ok sizeLower
            ∧ sizeBinary64 (stripEntry.space.set stripEntry.split.dim 0 stripEntry.split.val) = .ok sizeUpper
            ∧ sizeBinary64 stripEntry.space = .ok sizeParent :=
  child_spaces_valid_and_additive envStrip configStrip stripRootState.m stripEntry rfl
    (fun row _ => by
      show (if row = 0 ∧ (0 : Nat) = 1 then (1 : ℚ) else 0)
        ≤ (if row = 0 ∧ (1 : Nat) = 1 then (1 : ℚ) else 0)
      rw [if_neg (by simp)]
      split <;> norm_num)
    (by decide) (by decide!) (by decide!)

end regression_forests
